import Mathlib

set_option maxHeartbeats 1000000

namespace OdooApi

/-! # Shallow embedding of the `new_api_module_17` Odoo REST module

Python runtime values are modelled by `PyVal`; Python dicts are insertion-ordered
association lists over `String` keys (Python 3.7+ dict semantics).  Errors raised
by the code are modelled by `PyErr`, and fallible code returns `Except PyErr _`.

Sources embedded below:
* `src/models/base_models.py` — `_from_dict`, `_fields_not_display`, `_to_dict`,
  `_api_delete_one` (and the helper `html_to_text`);
* `src/models/access_tokens.py` — `_compute_expires`, `_token_verify`,
  `_delete_expired_token`;
* `src/controllers/utils.py` — `handel_odoo_api_errors` and the response builders. -/

/-- Python runtime values that flow through the translators: JSON scalars and
containers, `bytes`, tuples (used for ORM relation commands `(4, id)` and
`(0, 0, vals)`), and `datetime.date` / `datetime.datetime` objects.
Floats are kept as a mantissa/exponent pair (value `mant * 10 ^ ex`): the module
never computes with floats, it only passes them through. -/
inductive PyVal where
  | none
  | bool (b : Bool)
  | int (n : Int)
  | float (mant : Int) (ex : Int)
  | str (s : String)
  | bytes (bs : List Nat)
  | tuple (xs : List PyVal)
  | list (xs : List PyVal)
  | dict (kvs : List (String × PyVal))
  | date (y mo dy : Nat)
  | datetime (y mo dy h mi s : Nat)

instance : Inhabited PyVal := ⟨PyVal.none⟩

mutual

/-- Structural equality on `PyVal` (with `pyEqL` / `pyEqKV` for the nested lists).
Python's `dict.__eq__` is order-insensitive; the order-sensitive variant here is
only ever used by `pySetDedup` below, whose argument always has the shape
`(0, 0, {...})` with identically-ordered keys, so the difference is unobservable
in the embedded code (and that call site in fact always raises, see `pySet`). -/
def pyEq : PyVal → PyVal → Bool
  | .none, .none => true
  | .bool a, .bool b => a == b
  | .int a, .int b => a == b
  | .float a b, .float c d => a == c && b == d
  | .str a, .str b => a == b
  | .bytes a, .bytes b => a == b
  | .tuple a, .tuple b => pyEqL a b
  | .list a, .list b => pyEqL a b
  | .dict a, .dict b => pyEqKV a b
  | .date a b c, .date x y z => a == x && b == y && c == z
  | .datetime a b c d e f, .datetime u v w x y z =>
      a == u && b == v && c == w && d == x && e == y && f == z
  | _, _ => false

/-- Elementwise equality of `PyVal` lists. -/
def pyEqL : List PyVal → List PyVal → Bool
  | [], [] => true
  | a :: as', b :: bs' => pyEq a b && pyEqL as' bs'
  | _, _ => false

/-- Elementwise equality of `PyVal` key/value lists. -/
def pyEqKV : List (String × PyVal) → List (String × PyVal) → Bool
  | [], [] => true
  | (ka, va) :: as', (kb, vb) :: bs' => ka == kb && pyEq va vb && pyEqKV as' bs'
  | _, _ => false

end

/-- Python truthiness (`bool(x)`), as used by `if value:` style tests. -/
def pyTruthy : PyVal → Bool
  | .none => false
  | .bool b => b
  | .int n => !(n == 0)
  | .float m _ => !(m == 0)
  | .str s => !(s == "")
  | .bytes bs => !bs.isEmpty
  | .tuple xs => !xs.isEmpty
  | .list xs => !xs.isEmpty
  | .dict kvs => !kvs.isEmpty
  | .date _ _ _ => true
  | .datetime _ _ _ _ _ _ => true

/-- The test `val in [False, None, '']` from `_to_dict.fmt_value`.  Python `in`
uses `==`, and `0 == False`, `0.0 == False` hold, so numeric zeros match too. -/
def pyFalsySentinel : PyVal → Bool
  | .none => true
  | .bool b => !b
  | .int n => n == 0
  | .float m _ => m == 0
  | .str s => s == ""
  | _ => false

/-- Python hashability: `dict` and `list` are unhashable, a `tuple` is
hashable iff all of its items are; every other value here is hashable. -/
def pyHashable : PyVal → Bool
  | .dict _ => false
  | .list _ => false
  | .tuple [] => true
  | .tuple (x :: xs) => pyHashable x && pyHashable (.tuple xs)
  | _ => true

/-- ASCII apostrophe, used to build error message strings without a literal
quote character in this file. -/
def sq : String := String.singleton (Char.ofNat 39)

/-- Wrap a string in apostrophes, as Python `%s` interpolation of `'%s'`. -/
def quoteS (s : String) : String := sq ++ s ++ sq

/-- Name reported by `TypeError: unhashable type: '...'` for the first
unhashable constituent of a value (hashing a tuple hashes its items). -/
def unhashName : PyVal → String
  | .dict _ => "dict"
  | .list _ => "list"
  | .tuple [] => "tuple"
  | .tuple (x :: xs) => if pyHashable x then unhashName (.tuple xs) else unhashName x
  | _ => "object"

/-- Errors raised by the embedded code, matching the exception classes the
controller's `handel_odoo_api_errors` dispatches on. -/
inductive PyErr where
  | userError (msg : String)
  | validationError (msg : String)
  | accessDenied (msg : String)
  | accessError (msg : String)
  | missingError (msg : String)
  | integrityError (detail primary constraint : Option String)
  | typeError (msg : String)
  | otherError (msg : String)

/-- First-occurrence deduplication, the observable effect of `list(set(xs))`
for the embedded call site.  CPython's `set` iteration order is hash-dependent;
this is only reached with an empty list in the embedded code because `pySet`
raises on every non-empty argument it ever receives there (each element is a
`(0, 0, {...})` tuple containing a dict). -/
def pySetDedup (xs : List PyVal) : List PyVal :=
  xs.foldl (fun acc x => if acc.any (fun y => pyEq y x) then acc else acc ++ [x]) []

/-- `list(set(xs))`: raises `TypeError` if any element is unhashable, else
deduplicates. -/
def pySet (xs : List PyVal) : Except PyErr (List PyVal) :=
  match xs.find? (fun x => !pyHashable x) with
  | some x => .error (.typeError ("unhashable type: " ++ quoteS (unhashName x)))
  | Option.none => .ok (pySetDedup xs)

/-! ## Python dict operations (insertion-ordered association lists) -/

/-- `d[k]` lookup (first binding; dicts built below keep keys unique). -/
def aget {α : Type} (d : List (String × α)) (k : String) : Option α :=
  match d.find? (fun p => p.1 == k) with
  | some p => some p.2
  | Option.none => Option.none

/-- `k in d`. -/
def ahas {α : Type} (d : List (String × α)) (k : String) : Bool :=
  d.any (fun p => p.1 == k)

/-- `d[k] = v`: update in place when the key exists, else append (Python 3.7+
insertion-order semantics). -/
def aset {α : Type} (d : List (String × α)) (k : String) (v : α) : List (String × α) :=
  if ahas d k then d.map (fun p => if p.1 == k then (k, v) else p) else d ++ [(k, v)]

/-- `d.pop(k)` / `del d[k]` (keys are unique in dicts built below). -/
def aerase {α : Type} (d : List (String × α)) (k : String) : List (String × α) :=
  d.filter (fun p => !(p.1 == k))

/-- `d.get(k, dflt)`. -/
def agetD {α : Type} (d : List (String × α)) (k : String) (dflt : α) : α :=
  (aget d k).getD dflt

/-- `list(d.keys())`. -/
def akeys {α : Type} (d : List (String × α)) : List String :=
  d.map (fun p => p.1)

/-- `dst.update(src)`: set each binding of `src` into `dst` in order. -/
def aupdate {α : Type} (dst src : List (String × α)) : List (String × α) :=
  src.foldl (fun acc p => aset acc p.1 p.2) dst

/-! ## Small Python string/number library helpers -/

/-- Does the second list appear as a prefix of the first? -/
def startsWithL : List Char → List Char → Bool
  | _, [] => true
  | [], _ :: _ => false
  | c :: cs, p :: ps => c == p && startsWithL cs ps

/-- Does `pat` occur as a contiguous sublist of the haystack? -/
def containsSub (hay pat : List Char) : Bool :=
  match hay with
  | [] => pat.isEmpty
  | _ :: cs => startsWithL hay pat || containsSub cs pat

/-- `pat in s` for strings: substring containment. -/
def strContains (s pat : String) : Bool :=
  containsSub s.toList pat.toList

/-- `s.endswith(suf)`. -/
def strEndsWith (s suf : String) : Bool :=
  startsWithL s.toList.reverse suf.toList.reverse

/-- Characters stripped by Python `str.strip()` (ASCII whitespace; the module
never feeds other Unicode whitespace through this path). -/
def pyWS (c : Char) : Bool :=
  c == ' ' || c == '\t' || c == '\n' || c == '\r' || c == Char.ofNat 11 || c == Char.ofNat 12

/-- Python `s.strip()`. -/
def pyStrip (s : String) : String :=
  String.mk (((s.toList.dropWhile pyWS).reverse.dropWhile pyWS).reverse)

/-- `s.replace("‏", "")`: drop every right-to-left-mark character. -/
def dropRLM (s : String) : String :=
  String.mk (s.toList.filter (fun c => !(c == Char.ofNat 0x200F)))

/-- Base64 alphabet. -/
def b64chars : List Char :=
  "ABCDEFGHIJKLMNOPQRSTUVWXYZabcdefghijklmnopqrstuvwxyz0123456789+/".toList

/-- Index into the base64 alphabet. -/
def b64char (n : Nat) : Char := b64chars.getD n 'A'

/-- `base64.b64encode(bs).decode('utf-8')` over byte lists. -/
def b64encode : List Nat → String
  | [] => ""
  | [a] =>
      let a := a % 256
      String.mk [b64char (a / 4), b64char (a % 4 * 16)] ++ "=="
  | [a, b] =>
      let a := a % 256; let b := b % 256
      String.mk [b64char (a / 4), b64char (a % 4 * 16 + b / 16), b64char (b % 16 * 4)] ++ "="
  | a :: b :: c :: rest =>
      let a := a % 256; let b := b % 256; let c := c % 256
      String.mk [b64char (a / 4), b64char (a % 4 * 16 + b / 16),
                 b64char (b % 16 * 4 + c / 64), b64char (c % 64)] ++ b64encode rest

/-- Split the list around the first `>`: `some (before, after)`.
Helper for `html_to_text`'s regex `<[^>]+>`. -/
def splitAtGt (cs : List Char) : Option (List Char × List Char) :=
  match cs.dropWhile (fun c => !(c == '>')) with
  | [] => Option.none
  | _ :: after => some (cs.takeWhile (fun c => !(c == '>')), after)

theorem splitAtGt_length (cs before after : List Char)
    (h : splitAtGt cs = some (before, after)) : after.length < cs.length := by
  unfold splitAtGt at h
  split at h
  · exact absurd h (by simp)
  · rename_i x rest' heq
    simp only [Option.some.injEq, Prod.mk.injEq] at h
    obtain ⟨-, h2⟩ := h
    subst h2
    have hlen : (cs.takeWhile (fun c => !(c == '>'))).length
        + (cs.dropWhile (fun c => !(c == '>'))).length = cs.length := by
      rw [← List.length_append, List.takeWhile_append_dropWhile]
    rw [heq] at hlen
    simp only [List.length_cons] at hlen
    omega

/-- Body of `re.sub(r'<[^>]+>', '', s)`: at `<`, the pattern matches one or
more non-`>` characters followed by `>` (so `<>` does not match, and a `<`
with no later `>` is kept verbatim). -/
def htmlStripGo : List Char → List Char
  | [] => []
  | c :: rest =>
      if c = '<' then
        match h : splitAtGt rest with
        | some (before, after) =>
            if before.isEmpty then c :: htmlStripGo rest
            else
              have : after.length < rest.length := splitAtGt_length rest before after h
              htmlStripGo after
        | Option.none => c :: htmlStripGo rest
      else c :: htmlStripGo rest
termination_by cs => cs.length
decreasing_by all_goals (simp_wf; (try omega))

/-- `html_to_text` from `src/models/base_models.py`: empty/falsy input gives
`''`, else all `<[^>]+>` matches are removed. -/
def html_to_text (v : PyVal) : PyVal :=
  if !pyTruthy v then .str ""
  else
    match v with
    | .str s => .str (String.mk (htmlStripGo s.toList))
    | x => x

/-! ## `datetime.strptime` for the two fixed formats

CPython compiles a strptime format to a regex (`Lib/_strptime.py`, class
`TimeRE`); the directives used here expand to
  `%Y` → `\d\d\d\d`
  `%m` → `1[0-2]|0[1-9]|[1-9]`
  `%d` → `3[01]|[12]\d|0[1-9]|[1-9]| [1-9]`
  `%H` → `2[0-3]|[0-1]\d|\d`
  `%M` → `[0-5]\d|\d`
  `%S` → `6[0-1]|[0-5]\d|\d`
with literal `-`/`:` kept and any whitespace in the format replaced by `\s+`.
The whole string must be consumed (`unconverted data remains` otherwise), and
`datetime`'s constructor then validates the calendar date (year ≥ 1, day within
the month, second ≤ 59 — the regex admits leap seconds that the constructor
rejects).  Alternatives are matched in order with backtracking, mirrored below
by `<|>` over continuations.  Note the padding is NOT required: `2024-1-5`
parses fine, which matters for the date-format claims. -/

/-- Digit value of an ASCII digit. -/
def dval (c : Char) : Nat := c.toNat - 48

/-- `%Y`: exactly four digits. -/
def parseY4 : List Char → Option (Nat × List Char)
  | a :: b :: c :: d :: r =>
      if a.isDigit && b.isDigit && c.isDigit && d.isDigit then
        some (1000 * dval a + 100 * dval b + 10 * dval c + dval d, r)
      else Option.none
  | _ => Option.none

/-- `%m` with continuation: `1[0-2]` then `0[1-9]` then `[1-9]`. -/
def altM {α : Type} (cs : List Char) (k : List Char → Option α) : Option (Nat × α) :=
  (match cs with
   | '1' :: c :: r =>
       if '0' ≤ c && c ≤ '2' then (k r).map (fun a => (10 + dval c, a)) else Option.none
   | _ => Option.none) <|>
  (match cs with
   | '0' :: c :: r =>
       if '1' ≤ c && c ≤ '9' then (k r).map (fun a => (dval c, a)) else Option.none
   | _ => Option.none) <|>
  (match cs with
   | c :: r =>
       if '1' ≤ c && c ≤ '9' then (k r).map (fun a => (dval c, a)) else Option.none
   | _ => Option.none)

/-- `%d` with continuation: `3[01]`, `[12]\d`, `0[1-9]`, `[1-9]`, ` [1-9]`. -/
def altD {α : Type} (cs : List Char) (k : List Char → Option α) : Option (Nat × α) :=
  (match cs with
   | '3' :: c :: r =>
       if c == '0' || c == '1' then (k r).map (fun a => (30 + dval c, a)) else Option.none
   | _ => Option.none) <|>
  (match cs with
   | t :: c :: r =>
       if (t == '1' || t == '2') && c.isDigit then
         (k r).map (fun a => (10 * dval t + dval c, a))
       else Option.none
   | _ => Option.none) <|>
  (match cs with
   | '0' :: c :: r =>
       if '1' ≤ c && c ≤ '9' then (k r).map (fun a => (dval c, a)) else Option.none
   | _ => Option.none) <|>
  (match cs with
   | c :: r =>
       if '1' ≤ c && c ≤ '9' then (k r).map (fun a => (dval c, a)) else Option.none
   | _ => Option.none) <|>
  (match cs with
   | ' ' :: c :: r =>
       if '1' ≤ c && c ≤ '9' then (k r).map (fun a => (dval c, a)) else Option.none
   | _ => Option.none)

/-- `%H` with continuation: `2[0-3]`, `[0-1]\d`, `\d`. -/
def altH {α : Type} (cs : List Char) (k : List Char → Option α) : Option (Nat × α) :=
  (match cs with
   | '2' :: c :: r =>
       if '0' ≤ c && c ≤ '3' then (k r).map (fun a => (20 + dval c, a)) else Option.none
   | _ => Option.none) <|>
  (match cs with
   | t :: c :: r =>
       if (t == '0' || t == '1') && c.isDigit then
         (k r).map (fun a => (10 * dval t + dval c, a))
       else Option.none
   | _ => Option.none) <|>
  (match cs with
   | c :: r => if c.isDigit then (k r).map (fun a => (dval c, a)) else Option.none
   | _ => Option.none)

/-- `%M` with continuation: `[0-5]\d`, `\d`. -/
def altMi {α : Type} (cs : List Char) (k : List Char → Option α) : Option (Nat × α) :=
  (match cs with
   | t :: c :: r =>
       if ('0' ≤ t && t ≤ '5') && c.isDigit then
         (k r).map (fun a => (10 * dval t + dval c, a))
       else Option.none
   | _ => Option.none) <|>
  (match cs with
   | c :: r => if c.isDigit then (k r).map (fun a => (dval c, a)) else Option.none
   | _ => Option.none)

/-- `%S` with continuation: `6[0-1]`, `[0-5]\d`, `\d` (leap seconds pass the
regex and are rejected by the `datetime` constructor afterwards). -/
def altS {α : Type} (cs : List Char) (k : List Char → Option α) : Option (Nat × α) :=
  (match cs with
   | '6' :: c :: r =>
       if c == '0' || c == '1' then (k r).map (fun a => (60 + dval c, a)) else Option.none
   | _ => Option.none) <|>
  (match cs with
   | t :: c :: r =>
       if ('0' ≤ t && t ≤ '5') && c.isDigit then
         (k r).map (fun a => (10 * dval t + dval c, a))
       else Option.none
   | _ => Option.none) <|>
  (match cs with
   | c :: r => if c.isDigit then (k r).map (fun a => (dval c, a)) else Option.none
   | _ => Option.none)

/-- `\s+` (the format's single space): one or more whitespace characters;
greedy consumption is equivalent here since a digit must follow. -/
def skipWS1 {α : Type} (cs : List Char) (k : List Char → Option α) : Option α :=
  match cs with
  | c :: r => if pyWS c then k (r.dropWhile pyWS) else Option.none
  | [] => Option.none

/-- Length of a month, as validated by the `datetime.date` constructor. -/
def daysInMonth (y mo : Nat) : Nat :=
  if mo == 2 then
    if y % 4 == 0 && (y % 100 != 0 || y % 400 == 0) then 29 else 28
  else if mo == 4 || mo == 6 || mo == 9 || mo == 11 then 30
  else 31

/-- Calendar validation performed by the `datetime.date` constructor
(`MINYEAR = 1`; month and day ranges). -/
def dateOk (y mo dy : Nat) : Bool :=
  1 ≤ y && 1 ≤ mo && mo ≤ 12 && 1 ≤ dy && dy ≤ daysInMonth y mo

/-- `datetime.strptime(s, "%Y-%m-%d").date()`. -/
def pyStrptimeDate (s : String) : Option (Nat × Nat × Nat) :=
  match parseY4 s.toList with
  | some (y, r) =>
      match r with
      | '-' :: r2 =>
          let md : Option (Nat × Nat) :=
            altM r2 (fun r3 =>
              match r3 with
              | '-' :: r4 =>
                  (altD r4 (fun r5 => if r5.isEmpty then some () else Option.none)).map
                    (fun p => p.1)
              | _ => Option.none)
          match md with
          | some (mo, dy) => if dateOk y mo dy then some (y, mo, dy) else Option.none
          | Option.none => Option.none
      | _ => Option.none
  | Option.none => Option.none

/-- `datetime.strptime(s, "%Y-%m-%d %H:%M:%S")`. -/
def pyStrptimeDatetime (s : String) : Option (Nat × Nat × Nat × Nat × Nat × Nat) :=
  match parseY4 s.toList with
  | some (y, r) =>
      match r with
      | '-' :: r2 =>
          let rest : Option (Nat × Nat × Nat × Nat × Nat) :=
            (altM r2 (fun r3 =>
              match r3 with
              | '-' :: r4 =>
                  altD r4 (fun r5 =>
                    skipWS1 r5 (fun r6 =>
                      altH r6 (fun r7 =>
                        match r7 with
                        | ':' :: r8 =>
                            altMi r8 (fun r9 =>
                              match r9 with
                              | ':' :: r10 =>
                                  (altS r10 (fun r11 =>
                                    if r11.isEmpty then some () else Option.none)).map
                                    (fun p => p.1)
                              | _ => Option.none)
                        | _ => Option.none)))
              | _ => Option.none)).map
              (fun p => (p.1, p.2.1, p.2.2.1, p.2.2.2.1, p.2.2.2.2))
          match rest with
          | some (mo, dy, h, mi, sec) =>
              if dateOk y mo dy && sec ≤ 59 then some (y, mo, dy, h, mi, sec)
              else Option.none
          | Option.none => Option.none
      | _ => Option.none
  | Option.none => Option.none

/-- Zero-pad to two digits (`%m`, `%d`, `%H`, `%M`, `%S` in `strftime`). -/
def pad2 (n : Nat) : String := if n < 10 then "0" ++ toString n else toString n

/-- Four digits for `%Y` (all years stored by the module are ≥ 1000). -/
def pad4 (n : Nat) : String :=
  if n < 10 then "000" ++ toString n
  else if n < 100 then "00" ++ toString n
  else if n < 1000 then "0" ++ toString n
  else toString n

/-- `val.strftime('%Y-%m-%d')`. -/
def strftimeDate (y mo dy : Nat) : String :=
  pad4 y ++ "-" ++ pad2 mo ++ "-" ++ pad2 dy

/-- `val.strftime('%Y-%m-%d %H:%M:%S')`. -/
def strftimeDatetime (y mo dy h mi s : Nat) : String :=
  strftimeDate y mo dy ++ " " ++ pad2 h ++ ":" ++ pad2 mi ++ ":" ++ pad2 s

/-! ## `json.loads` (used by the `json`/`serialized` field branch)

A fuel-indexed recursive-descent parser for standard JSON (`json.loads` with
default options): values are `null`/`true`/`false`, numbers (ints stay `.int`,
anything with a fraction or exponent becomes `.float`), strings with the usual
escapes, arrays and objects.  The fuel is the input length plus one, which is
enough since every recursive step consumes at least one character. -/

/-- JSON whitespace. -/
def jWS (c : Char) : Bool := c == ' ' || c == '\t' || c == '\n' || c == '\r'

/-- Hex digit value. -/
def hexVal (c : Char) : Option Nat :=
  if '0' ≤ c && c ≤ '9' then some (c.toNat - 48)
  else if 'a' ≤ c && c ≤ 'f' then some (c.toNat - 87)
  else if 'A' ≤ c && c ≤ 'F' then some (c.toNat - 55)
  else Option.none

/-- JSON string body after the opening quote (acc is reversed). -/
def parseJStrGo : List Char → List Char → Option (String × List Char)
  | acc, '"' :: r => some (String.mk acc.reverse, r)
  | acc, '\\' :: e :: r =>
      if e == '"' then parseJStrGo ('"' :: acc) r
      else if e == '\\' then parseJStrGo ('\\' :: acc) r
      else if e == '/' then parseJStrGo ('/' :: acc) r
      else if e == 'b' then parseJStrGo (Char.ofNat 8 :: acc) r
      else if e == 'f' then parseJStrGo (Char.ofNat 12 :: acc) r
      else if e == 'n' then parseJStrGo ('\n' :: acc) r
      else if e == 'r' then parseJStrGo ('\r' :: acc) r
      else if e == 't' then parseJStrGo ('\t' :: acc) r
      else if e == 'u' then
        match r with
        | a :: b :: c :: d :: r2 =>
            match hexVal a, hexVal b, hexVal c, hexVal d with
            | some va, some vb, some vc, some vd =>
                parseJStrGo (Char.ofNat (4096 * va + 256 * vb + 16 * vc + vd) :: acc) r2
            | _, _, _, _ => Option.none
        | _ => Option.none
      else Option.none
  | acc, c :: r => if c.toNat ≥ 32 then parseJStrGo (c :: acc) r else Option.none
  | _, [] => Option.none
termination_by _ cs => cs.length
decreasing_by all_goals (simp_wf; (try omega))

/-- Digits as a number with their count. -/
def takeDigits (cs : List Char) : (Nat × Nat) × List Char :=
  match cs with
  | c :: r =>
      if c.isDigit then
        let ((n, k), r') := takeDigits r
        ((dval c * 10 ^ k + n, k + 1), r')
      else ((0, 0), cs)
  | [] => ((0, 0), cs)

/-- JSON number: `-?(0|[1-9]\d*)(\.\d+)?([eE][+-]?\d+)?`; plain integers stay
`PyVal.int`, otherwise the mantissa/exponent pair is kept as `PyVal.float`. -/
def parseJNum (cs : List Char) : Option (PyVal × List Char) :=
  let (neg, cs1) := match cs with
    | '-' :: r => (true, r)
    | _ => (false, cs)
  let intPart : Option (Nat × List Char) :=
    match cs1 with
    | '0' :: r => some (0, r)
    | c :: _ =>
        if '1' ≤ c && c ≤ '9' then
          let ((n, _), r') := takeDigits cs1
          some (n, r')
        else Option.none
    | [] => Option.none
  match intPart with
  | Option.none => Option.none
  | some (ip, cs2) =>
      let fracPart : Option (Nat × Nat × List Char) :=
        match cs2 with
        | '.' :: r =>
            match r with
            | c :: _ =>
                if c.isDigit then
                  let ((n, k), r') := takeDigits r
                  some (n, k, r')
                else Option.none
            | [] => Option.none
        | _ => some (0, 0, cs2)
      match fracPart with
      | Option.none => Option.none
      | some (fp, fk, cs3) =>
          let expPart : Option (Bool × Option Int × List Char) :=
            match cs3 with
            | e :: r =>
                if e == 'e' || e == 'E' then
                  let (esign, r1) := match r with
                    | '+' :: r' => ((1 : Int), r')
                    | '-' :: r' => ((-1 : Int), r')
                    | _ => ((1 : Int), r)
                  match r1 with
                  | c :: _ =>
                      if c.isDigit then
                        let ((n, _), r') := takeDigits r1
                        some (true, some (esign * n), r')
                      else Option.none
                  | [] => Option.none
                else some (false, Option.none, cs3)
            | [] => some (false, Option.none, cs3)
          match expPart with
          | Option.none => Option.none
          | some (hasExp, eo, cs4) =>
              let sign : Int := if neg then -1 else 1
              if fk == 0 && !hasExp then some (.int (sign * ip), cs4)
              else
                let mant : Int := sign * (ip * 10 ^ fk + fp)
                let ex : Int := (eo.getD 0) - fk
                some (.float mant ex, cs4)

mutual

/-- One JSON value (leading whitespace must already be consumed). -/
def parseJVal : Nat → List Char → Option (PyVal × List Char)
  | 0, _ => Option.none
  | _ + 1, [] => Option.none
  | fuel + 1, c :: r =>
      if c == 'n' then
        match c :: r with
        | 'n' :: 'u' :: 'l' :: 'l' :: r' => some (.none, r')
        | _ => Option.none
      else if c == 't' then
        match c :: r with
        | 't' :: 'r' :: 'u' :: 'e' :: r' => some (.bool true, r')
        | _ => Option.none
      else if c == 'f' then
        match c :: r with
        | 'f' :: 'a' :: 'l' :: 's' :: 'e' :: r' => some (.bool false, r')
        | _ => Option.none
      else if c == '"' then
        (parseJStrGo [] r).map (fun p => (.str p.1, p.2))
      else if c == '[' then
        match r.dropWhile jWS with
        | ']' :: r' => some (.list [], r')
        | r1 => (parseJElems fuel r1 []).map (fun p => (.list p.1, p.2))
      else if c == '{' then
        match r.dropWhile jWS with
        | '}' :: r' => some (.dict [], r')
        | r1 => (parseJMembers fuel r1 []).map (fun p => (.dict p.1, p.2))
      else parseJNum (c :: r)

/-- Array elements, comma separated, ending at `]`. -/
def parseJElems : Nat → List Char → List PyVal → Option (List PyVal × List Char)
  | 0, _, _ => Option.none
  | fuel + 1, cs, acc =>
      match parseJVal fuel cs with
      | Option.none => Option.none
      | some (v, r) =>
          match r.dropWhile jWS with
          | ',' :: r' => parseJElems fuel (r'.dropWhile jWS) (acc ++ [v])
          | ']' :: r' => some (acc ++ [v], r')
          | _ => Option.none

/-- Object members, comma separated, ending at `}` (later duplicate keys win,
as in Python). -/
def parseJMembers : Nat → List Char → List (String × PyVal) →
    Option (List (String × PyVal) × List Char)
  | 0, _, _ => Option.none
  | fuel + 1, cs, acc =>
      match cs with
      | '"' :: r =>
          match parseJStrGo [] r with
          | Option.none => Option.none
          | some (key, r1) =>
              match r1.dropWhile jWS with
              | ':' :: r2 =>
                  match parseJVal fuel (r2.dropWhile jWS) with
                  | Option.none => Option.none
                  | some (v, r3) =>
                      match r3.dropWhile jWS with
                      | ',' :: r4 => parseJMembers fuel (r4.dropWhile jWS) (aset acc key v)
                      | '}' :: r4 => some (aset acc key v, r4)
                      | _ => Option.none
              | _ => Option.none
      | _ => Option.none

end

/-- `json.loads(s)`: parse one value surrounded by optional whitespace; any
trailing data is an error. -/
def pyJsonLoads (s : String) : Option PyVal :=
  match parseJVal (s.length + 1) (s.toList.dropWhile jWS) with
  | some (v, r) => if (r.dropWhile jWS).isEmpty then some v else Option.none
  | Option.none => Option.none

/-! ## Field registry, entities, store -/

/-- Odoo field types occurring in the dispatch of `_from_dict` / `_to_dict`. -/
inductive FType where
  | char | text | boolean | integer | float | selection | html | date | datetime
  | binary | json | serialized | many2one | many2many | one2many
deriving DecidableEq

/-- A field descriptor: name, type and (for relational fields) the co-model. -/
structure FieldDef where
  name : String
  ftype : FType
  comodel : String
deriving DecidableEq

/-- A model: its name and its `_fields` registry in registry order. -/
structure Model where
  name : String
  fields : List FieldDef

/-- `self._fields.get(name)`. -/
def Model.fieldGet (m : Model) (n : String) : Option FieldDef :=
  m.fields.find? (fun f => f.name == n)

/-- `name in self._fields`. -/
def Model.fieldHas (m : Model) (n : String) : Bool :=
  m.fields.any (fun f => f.name == n)

/-- Is the field type a to-many relation? -/
def FType.isX2Many : FType → Bool
  | .many2many => true
  | .one2many => true
  | _ => false

/-- An entity (record) in the store: identity, display name, the stored value
of each non-relational field (unset fields read as `False`, so absent names
default to that), and the target ids of each relational field (a
`many2one` holds at most one id; absent names read as the empty recordset).
`mimetype` for `ir.attachment` records is kept in `scalars`. -/
structure Entity where
  model : String
  eid : Nat
  displayName : String
  scalars : List (String × PyVal)
  rels : List (String × List Nat)

/-- The record store plus the `web.base.url` config parameter. -/
structure Env where
  ents : List Entity
  baseUrl : String

/-- Find the entity with a given model name and id. -/
def Env.entFind (env : Env) (model : String) (i : Nat) : Option Entity :=
  env.ents.find? (fun e => e.model == model && e.eid == i)

/-- `self.env[model].browse(i).exists()` as a Boolean. -/
def Env.entExists (env : Env) (model : String) (i : Nat) : Bool :=
  (env.entFind model i).isSome

/-! ## Inbound translator `_from_dict` (`src/models/base_models.py`)

`vals` values are plain `PyVal`s; relation commands are encoded the way Python
builds them: `(4, id)` is `.tuple [.int 4, id]` and `(0, 0, vals)` is
`.tuple [.int 0, .int 0, .dict vals]`, collected in a `.list`. -/

/-- Python type names as reported in `TypeError` messages. -/
def pyTypeName : PyVal → String
  | .none => "NoneType"
  | .bool _ => "bool"
  | .int _ => "int"
  | .float _ _ => "float"
  | .str _ => "str"
  | .bytes _ => "bytes"
  | .tuple _ => "tuple"
  | .list _ => "list"
  | .dict _ => "dict"
  | .date _ _ _ => "datetime.date"
  | .datetime _ _ _ _ _ _ => "datetime.datetime"

/-- Python `for x in v` iteration: lists/tuples yield elements, strings yield
one-character strings, bytes yield ints, dicts yield their keys; every other
value raises `TypeError`.  (Reached unguarded only by
`for sub in att['attachment_ids']`.) -/
def pyIterate : PyVal → Except PyErr (List PyVal)
  | .list xs => .ok xs
  | .tuple xs => .ok xs
  | .str s => .ok (s.toList.map (fun c => .str (String.singleton c)))
  | .bytes bs => .ok (bs.map (fun b => .int b))
  | .dict kvs => .ok (kvs.map (fun p => .str p.1))
  | v => .error (.typeError (quoteS (pyTypeName v) ++ " object is not iterable"))

/-- The `(0, 0, {'name': …, 'datas': …, 'type': 'binary'})` command built for a
flat attachment dict (`att.get('name', 'file')`, `att.get('attachment')`). -/
def flatAttCmd (att : List (String × PyVal)) : PyVal :=
  .tuple [.int 0, .int 0,
    .dict [("name", agetD att "name" (.str "file")),
           ("datas", agetD att "attachment" .none),
           ("type", .str "binary")]]

/-- Commands for the subs of a nested `attachment_ids` group: each dict whose
`attachment` value is truthy contributes one command. -/
def subAttCmds (subs : List PyVal) : List PyVal :=
  subs.filterMap (fun sub =>
    match sub with
    | .dict d => if pyTruthy (agetD d "attachment" .none) then some (flatAttCmd d) else Option.none
    | _ => Option.none)

/-- Commands contributed by one element `att` of an attachments list: a dict
with an `attachment` key is a flat attachment; else a dict with an
`attachment_ids` key is a nested group (whose value is iterated unguarded);
anything else contributes nothing. -/
def attCmds (att : PyVal) : Except PyErr (List PyVal) :=
  match att with
  | .dict d =>
      if ahas d "attachment" then .ok [flatAttCmd d]
      else if ahas d "attachment_ids" then
        (pyIterate (agetD d "attachment_ids" .none)).map subAttCmds
      else .ok []
  | _ => .ok []

/-- All commands of an attachments list, in order. -/
def attsCmds (atts : List PyVal) : Except PyErr (List PyVal) :=
  atts.foldlM (fun acc a => (attCmds a).map (fun cs => acc ++ cs)) []

/-- The many2many attachment-flattening loop over `list(item.keys())`: every
key containing the substring `attachment` is popped; a list value contributes
`attCmds` per element, a string value contributes one command built from
`item.get('name', 'file')` (the item as already popped), any other value is
dropped.  Returns the mutated item and the accumulated `attach_commands`. -/
def m2mFlattenKeys (env : Env) :
    List String → List (String × PyVal) → List PyVal →
    Except PyErr (List (String × PyVal) × List PyVal)
  | [], item, acc => .ok (item, acc)
  | k :: ks, item, acc =>
      if strContains k "attachment" then
        let attachments := agetD item k .none
        let item' := aerase item k
        match attachments with
        | .list atts =>
            (attsCmds atts).bind (fun cs => m2mFlattenKeys env ks item' (acc ++ cs))
        | .str s =>
            m2mFlattenKeys env ks item'
              (acc ++ [.tuple [.int 0, .int 0,
                .dict [("name", agetD item' "name" (.str "file")),
                       ("datas", .str s),
                       ("type", .str "binary")]]])
        | _ => m2mFlattenKeys env ks item' acc
      else m2mFlattenKeys env ks item acc

/-- One item of a many2many input list, producing the updated command list.
Dicts first undergo attachment flattening when the FIELD name contains
`attachment`; a single flattened command is appended as a nested list
(`commands.append(attach_commands)`), several go through `list(set(…))`
(`commands.extend`), which raises `TypeError` since the tuples contain dicts.
Then a dict holding only an `id` key becomes `(4, id)` and any other dict
`(0, 0, item)`; plain ints (including bools — Python `isinstance(True, int)`)
become `(4, item)`; any other item is silently ignored. -/
def m2mItem (env : Env) (fieldName : String) (commands : List PyVal) (item : PyVal) :
    Except PyErr (List PyVal) :=
  match item with
  | .dict d =>
      (if strContains fieldName "attachment" then
        (m2mFlattenKeys env (akeys d) d []).bind (fun p =>
          if p.2.length == 1 then .ok (p.1, commands ++ [.list p.2])
          else (pySet p.2).map (fun deduped => (p.1, commands ++ deduped)))
      else .ok (d, commands)).map (fun p =>
        let item' := p.1
        let cmds := p.2
        if ahas item' "id" && item'.length == 1 then
          cmds ++ [.tuple [.int 4, agetD item' "id" .none]]
        else
          cmds ++ [.tuple [.int 0, .int 0, .dict item']])
  | .int _ => .ok (commands ++ [.tuple [.int 4, item]])
  | .bool _ => .ok (commands ++ [.tuple [.int 4, item]])
  | _ => .ok commands

/-- The one2many attachment-flattening loop over `list(item.keys())`: keys
equal to `attachment_ids` or ending in `_attachment_ids` are popped; only list
values are processed, and a non-empty command list is stored back under
`attachment_ids`. -/
def o2mFlattenKeys (env : Env) :
    List String → List (String × PyVal) → Except PyErr (List (String × PyVal))
  | [], item => .ok item
  | k :: ks, item =>
      if k == "attachment_ids" || strEndsWith k "_attachment_ids" then
        let attachments := agetD item k .none
        let item' := aerase item k
        match attachments with
        | .list atts =>
            (attsCmds atts).bind (fun cs =>
              if !cs.isEmpty then o2mFlattenKeys env ks (aset item' "attachment_ids" (.list cs))
              else o2mFlattenKeys env ks item')
        | _ => o2mFlattenKeys env ks item'
      else o2mFlattenKeys env ks item

/-- One item of a one2many input list: every dict becomes `(0, 0, item)` after
flattening; ints become `(4, item)` defensively; everything else is ignored. -/
def o2mItem (env : Env) (commands : List PyVal) (item : PyVal) :
    Except PyErr (List PyVal) :=
  match item with
  | .dict d =>
      (o2mFlattenKeys env (akeys d) d).map (fun item' =>
        commands ++ [.tuple [.int 0, .int 0, .dict item']])
  | .int _ => .ok (commands ++ [.tuple [.int 4, item]])
  | .bool _ => .ok (commands ++ [.tuple [.int 4, item]])
  | _ => .ok commands

/-- Processing of one registry field by `_from_dict`: absent input keys are
skipped, then the branch is selected by the field type exactly as in the
source. -/
def processField (env : Env) (data : List (String × PyVal))
    (vals : List (String × PyVal)) (f : FieldDef) :
    Except PyErr (List (String × PyVal)) :=
  match aget data f.name with
  | Option.none => .ok vals
  | some value =>
    match f.ftype with
    | .many2one =>
        if pyTruthy value then
          match value with
          | .int n =>
              if n ≥ 0 && env.entExists f.comodel n.toNat then .ok (aset vals f.name (.int n))
              else .error (.userError ("Invalid ID " ++ toString n ++ " for field "
                ++ quoteS f.name))
          | v =>
              -- `browse(value)` with a non-int argument raises inside the ORM
              .error (.typeError ("Invalid id value of type " ++ quoteS (pyTypeName v)))
        else .ok vals
    | .many2many =>
        match value with
        | .list items =>
            (items.foldlM (fun cmds item => m2mItem env f.name cmds item) []).map
              (fun cmds => if !cmds.isEmpty then aset vals f.name (.list cmds) else vals)
        | _ => .ok vals
    | .one2many =>
        match value with
        | .list items =>
            (items.foldlM (fun cmds item => o2mItem env cmds item) []).map
              (fun cmds => if !cmds.isEmpty then aset vals f.name (.list cmds) else vals)
        | _ => .ok vals
    | .date =>
        match value with
        | .str s =>
            match pyStrptimeDate s with
            | some (y, mo, dy) => .ok (aset vals f.name (.date y mo dy))
            | Option.none =>
                .error (.userError ("Invalid date format for field "
                  ++ quoteS f.name ++ ": " ++ s))
        | v => .ok (aset vals f.name v)
    | .datetime =>
        match value with
        | .str s =>
            match pyStrptimeDatetime s with
            | some (y, mo, dy, h, mi, sec) => .ok (aset vals f.name (.datetime y mo dy h mi sec))
            | Option.none =>
                .error (.userError ("Invalid datetime format for field "
                  ++ quoteS f.name ++ ": " ++ s))
        | v => .ok (aset vals f.name v)
    | .binary =>
        match value with
        | .str s => .ok (aset vals f.name (.str s))
        | .bytes bs => .ok (aset vals f.name (.str (b64encode bs)))
        | _ => .error (.userError ("Invalid binary value for field " ++ quoteS f.name))
    | .json =>
        match value with
        | .str s =>
            match pyJsonLoads s with
            | some v => .ok (aset vals f.name v)
            | Option.none =>
                .error (.userError ("Invalid JSON for field " ++ quoteS f.name ++ ": " ++ s))
        | v => .ok (aset vals f.name v)
    | .serialized =>
        match value with
        | .str s =>
            match pyJsonLoads s with
            | some v => .ok (aset vals f.name v)
            | Option.none =>
                .error (.userError ("Invalid JSON for field " ++ quoteS f.name ++ ": " ++ s))
        | v => .ok (aset vals f.name v)
    | _ => .ok (aset vals f.name value)

/-- Fold of `processField` over a field list (the registry iteration of
`_from_dict`). -/
def from_dictGo (env : Env) (data : List (String × PyVal)) :
    List FieldDef → List (String × PyVal) → Except PyErr (List (String × PyVal))
  | [], vals => .ok vals
  | f :: fs, vals => (processField env data vals f).bind (from_dictGo env data fs)

/-- `_from_dict`: non-dict input returns `{}`, else every registry field
present in the input is translated in registry order. -/
def from_dict (env : Env) (m : Model) (d : PyVal) : Except PyErr (List (String × PyVal)) :=
  match d with
  | .dict data => from_dictGo env data m.fields []
  | _ => .ok []

/-! ## Outbound projector `_to_dict` (`src/models/base_models.py`) -/

/-- `_fields_not_display`: the noise/chatter suppression set.  The source
builds it as a Python set literal in which `"display_name"` is immediately
followed by `"message_has_error_counter"` with no comma, so the two adjacent
literals concatenate into the single element
`"display_namemessage_has_error_counter"` (and neither plain string is in the
set). -/
def fields_not_display : List String :=
  ["message_ids", "my_activity_date_deadline", "message_follower_ids", "message_partner_ids",
   "message_attachment_count", "message_unread", "message_unread_counter",
   "message_needaction", "message_needaction_counter", "message_has_error",
   "display_namemessage_has_error_counter",
   "message_has_sms_error", "message_is_follower",
   "message_main_attachment_id", "activity_ids", "activity_state",
   "activity_user_id", "activity_type_id", "activity_date_deadline",
   "activity_summary", "activity_exception_decoration", "activity_exception_icon",
   "website_message_ids", "message_notify", "message_subtype_id", "duration_tracking",
   "activity_calendar_event_id", "activity_type_icon", "Record_count", "create_date",
   "create_uid", "write_date", "write_uid"]

/-- The value read by `self[name]`: a plain value for non-relational fields, a
recordset (list of target ids) for relational ones. -/
inductive FVal where
  | v (x : PyVal)
  | rel (ids : List Nat)

/-- `self[name]`: relational fields read their target ids (absent → empty
recordset); `id` reads the record id; unset scalar columns read as `False`. -/
def entRead (e : Entity) (f : FieldDef) : FVal :=
  match f.ftype with
  | .many2one | .many2many | .one2many =>
      .rel (((e.rels.find? (fun p => p.1 == f.name)).map (fun p => p.2)).getD [])
  | _ => if f.name == "id" then .v (.int e.eid) else .v (agetD e.scalars f.name (.bool false))

/-- `val in [False, None, '']` on a field value: recordsets never compare
equal to those sentinels. -/
def fvalFalsySentinel : FVal → Bool
  | .v x => pyFalsySentinel x
  | .rel _ => false

/-- The "empty form" a field normalizes to (`fmt_value` on a sentinel value,
also used by the `except` fallback via `fmt_value(False, field)`). -/
def fmtFalsy (f : FieldDef) : PyVal :=
  match f.ftype with
  | .char | .text | .selection => .str ""
  | .many2one => .dict []
  | .many2many | .one2many => .list []
  | _ => .bool false

/-- `{"id": r.id, "name": r.display_name}` for a related record; `none` when
the id dangles (reading `display_name` of a nonexistent record raises, which
the caller's `except` turns into the empty form). -/
def relStub (env : Env) (comodel : String) (i : Nat) : Option PyVal :=
  (env.entFind comodel i).map (fun a =>
    .dict [("id", .int a.eid), ("name", .str a.displayName)])

/-- `fmt_value(val, field)` from `_to_dict`.  `Option.none` models an
exception escaping to the caller's `except` handler (e.g. `strftime` on a
non-date value, `display_name` of a dangling id, `.id` of a multi-record
many2one). -/
def fmt_value (env : Env) (recurse_many2one : Bool) (val : FVal) (f : FieldDef) :
    Option PyVal :=
  if fvalFalsySentinel val then some (fmtFalsy f)
  else
    -- strip string-like fields (and de-HTML html values)
    let val := match val, f.ftype with
      | .v (.str s), .char => FVal.v (.str (dropRLM (pyStrip s)))
      | .v (.str s), .text => FVal.v (.str (dropRLM (pyStrip s)))
      | .v (.str s), .selection => FVal.v (.str (dropRLM (pyStrip s)))
      | .v (.str s), .html => FVal.v (html_to_text (.str (dropRLM (pyStrip s))))
      | v, _ => v
    match f.ftype, val with
    | .date, .v (.date y mo dy) => some (.str (strftimeDate y mo dy))
    | .date, .v (.datetime y mo dy _ _ _) => some (.str (strftimeDate y mo dy))
    | .date, _ => Option.none
    | .datetime, .v (.datetime y mo dy h mi s) => some (.str (strftimeDatetime y mo dy h mi s))
    | .datetime, .v (.date y mo dy) => some (.str (strftimeDatetime y mo dy 0 0 0))
    | .datetime, _ => Option.none
    | .binary, .v (.bytes bs) => some (.str (b64encode bs))
    | .binary, .v x => some x
    | .binary, .rel _ => Option.none
    | .many2one, .rel ids =>
        match ids with
        | [] => some (.dict [])
        | [i] => if recurse_many2one then relStub env f.comodel i else some (.int i)
        | _ => Option.none
    | .many2one, .v _ => Option.none
    | .many2many, .rel ids => (ids.mapM (relStub env f.comodel)).map .list
    | .one2many, .rel ids => (ids.mapM (relStub env f.comodel)).map .list
    | .many2many, .v _ => Option.none
    | .one2many, .v _ => Option.none
    | _, .v x => some x
    | _, .rel _ => Option.none

/-- The enriched stub emitted for `ir.attachment` relations: id, display name,
mimetype and a download URL `{base_url}/web/content/{att.id}`. -/
def attStub (env : Env) (i : Nat) : Option PyVal :=
  (env.entFind "ir.attachment" i).map (fun a =>
    .dict [("id", .int a.eid), ("name", .str a.displayName),
           ("mimetype", agetD a.scalars "mimetype" (.bool false)),
           ("url", .str (env.baseUrl ++ "/web/content/" ++ toString a.eid))])

/-- Emission of one (registered, non-suppressed) field into `res`: the
`ir.attachment` to-many special case, else `fmt_value`; a `none` (exception)
falls back to the empty form; to-many fields also emit `<name>_count`. -/
def emitField (env : Env) (m : Model) (e : Entity) (recurse_many2one : Bool)
    (res : List (String × PyVal)) (nm : String) : List (String × PyVal) :=
  match m.fieldGet nm with
  | Option.none => res
  | some f =>
      let value := entRead e f
      let main : Option PyVal :=
        if f.comodel == "ir.attachment" && f.ftype.isX2Many then
          match value with
          | .rel ids => (ids.mapM (attStub env)).map .list
          | .v _ => Option.none
        else fmt_value env recurse_many2one value f
      match main with
      | some v =>
          let res := aset res nm v
          if f.ftype.isX2Many then
            match value with
            | .rel ids => aset res (nm ++ "_count") (.int ids.length)
            | .v _ => res
          else res
      | Option.none =>
          let res := aset res nm (fmtFalsy f)
          if f.ftype.isX2Many then aset res (nm ++ "_count") (.int 0) else res

/-- The emission loop of `_to_dict` over the target field names: unknown names
are skipped, chatter fields are skipped when suppression is on. -/
def emitLoop (env : Env) (m : Model) (e : Entity) (recurse_many2one skip_chatter : Bool) :
    List String → List (String × PyVal) → List (String × PyVal)
  | [], res => res
  | nm :: ns, res =>
      if !(m.fieldHas nm) then emitLoop env m e recurse_many2one skip_chatter ns res
      else if skip_chatter && fields_not_display.contains nm then
        emitLoop env m e recurse_many2one skip_chatter ns res
      else emitLoop env m e recurse_many2one skip_chatter ns
        (emitField env m e recurse_many2one res nm)

/-- `for key in ['id', 'name']: if key in res: ordered_res[key] = res.pop(key)`. -/
def popIdName (st : List (String × PyVal) × List (String × PyVal)) :
    List (String × PyVal) × List (String × PyVal) :=
  ["id", "name"].foldl
    (fun st k =>
      if ahas st.2 k then (aset st.1 k (agetD st.2 k .none), aerase st.2 k) else st)
    st

/-- The fixed type-priority order of the reordering pass. -/
def FIELD_ORDER : List FType :=
  [.char, .text, .boolean, .float, .integer, .date, .datetime,
   .many2one, .many2many, .one2many]

/-- Inner reordering loop for one type, iterating over a snapshot of the keys
of `res`: each key registered with this type is moved (with, for to-many
fields, its `_count` key right after it when still present).  The
`Option.none` inner case is where CPython's `res.pop(key)` would raise
`KeyError`; it is reachable only when a registered field of the current type
was itself already moved as some other field's count key — a registry shape
the ordering theorems below exclude by hypothesis — and is modelled as a
skip. -/
def moveKeys (m : Model) (t : FType) :
    List String → List (String × PyVal) × List (String × PyVal) →
    List (String × PyVal) × List (String × PyVal)
  | [], st => st
  | k :: ks, st =>
      match m.fieldGet k with
      | some f =>
          if f.ftype = t then
            match aget st.2 k with
            | some v =>
                let o := aset st.1 k v
                let r := aerase st.2 k
                if f.ftype.isX2Many then
                  let ck := k ++ "_count"
                  if ahas r ck then
                    moveKeys m t ks (aset o ck (agetD r ck .none), aerase r ck)
                  else moveKeys m t ks (o, r)
                else moveKeys m t ks (o, r)
            | Option.none => moveKeys m t ks st
          else moveKeys m t ks st
      | Option.none => moveKeys m t ks st

/-- Outer reordering loop over `FIELD_ORDER`; the key snapshot is re-taken for
each type. -/
def orderLoop (m : Model) :
    List FType → List (String × PyVal) × List (String × PyVal) →
    List (String × PyVal) × List (String × PyVal)
  | [], st => st
  | t :: ts, st => orderLoop m ts (moveKeys m t (akeys st.2) st)

/-- `target_fields = list_of_fields if list_of_fields else self._fields.keys()`:
a falsy (absent or empty) field filter selects the whole registry. -/
def targetNames (m : Model) (list_of_fields : Option (List String)) : List String :=
  match list_of_fields with
  | some l => if l.isEmpty then m.fields.map (fun f => f.name) else l
  | Option.none => m.fields.map (fun f => f.name)

/-- `_to_dict` on one record (the `ensure_one` path): memo short-circuit to
the `{id, name}` stub, else emission, reordering, the final
`ordered_res['name'] = self.display_name` overwrite and the append of the
leftover fields.  Returns the result together with the updated memo (the
Python memo is a mutable set threaded through recursive calls). -/
def to_dict_one (env : Env) (m : Model) (e : Entity) (list_of_fields : Option (List String))
    (recurse_many2one skip_chatter : Bool) (memo : List (String × Nat)) :
    PyVal × List (String × Nat) :=
  let ref := (e.model, e.eid)
  if memo.contains ref then
    (.dict [("id", .int e.eid), ("name", .str e.displayName)], memo)
  else
    let memo := ref :: memo
    let res := emitLoop env m e recurse_many2one skip_chatter (targetNames m list_of_fields) []
    let st := popIdName ([], res)
    let st := orderLoop m FIELD_ORDER st
    let ordered := aset st.1 "name" (.str e.displayName)
    (.dict (aupdate ordered st.2), memo)

/-- The member loop of the plural `_to_dict` path:
`[rec._to_dict(list_of_fields, recurse_many2one, skip_chatter, memo) for rec in self]`,
with the single mutable memo threaded left to right. -/
def projFold (env : Env) (m : Model) (list_of_fields : Option (List String))
    (recurse_many2one skip_chatter : Bool) (recs : List Entity)
    (st : List PyVal × List (String × Nat)) : List PyVal × List (String × Nat) :=
  recs.foldl
    (fun st e =>
      let p := to_dict_one env m e list_of_fields recurse_many2one skip_chatter st.2
      (st.1 ++ [p.1], p.2))
    st

/-- `_to_dict` on a recordset: the empty set gives `{}`, a singleton the
one-record path, a plural set maps the one-record path over the members with
the single shared memo threaded left to right. -/
def to_dict (env : Env) (m : Model) (recs : List Entity) (list_of_fields : Option (List String))
    (recurse_many2one skip_chatter : Bool) (memo : List (String × Nat)) :
    PyVal × List (String × Nat) :=
  match recs with
  | [] => (.dict [], memo)
  | [e] => to_dict_one env m e list_of_fields recurse_many2one skip_chatter memo
  | _ =>
      let st := projFold env m list_of_fields recurse_many2one skip_chatter recs
        (([] : List PyVal), memo)
      (.list st.1, st.2)

/-- A top-level `_to_dict` call (`memo=None` creates a fresh memo set). -/
def to_dict_top (env : Env) (m : Model) (recs : List Entity)
    (list_of_fields : Option (List String))
    (recurse_many2one : Bool) (skip_chatter : Bool) : PyVal :=
  (to_dict env m recs list_of_fields recurse_many2one skip_chatter []).1

/-! ## CRUD: `_api_delete_one` and the controller error mapper -/

/-- `record.unlink()`: remove the record from the store. -/
def Env.entDelete (env : Env) (model : String) (i : Nat) : Env :=
  ⟨env.ents.filter (fun e => !(e.model == model && e.eid == i)), env.baseUrl⟩

/-- `_api_delete_one`: a falsy (zero) id raises `UserError("Missing
Record_id")`; a nonexistent record raises `UserError("Record record not
found.")`; otherwise the record is unlinked and `{"id": record_id}` is
returned together with the updated store. -/
def api_delete_one (env : Env) (m : Model) (record_id : Int) :
    Except PyErr (Env × PyVal) :=
  if record_id == 0 then .error (.userError "Missing Record_id")
  else if record_id ≥ 0 && env.entExists m.name record_id.toNat then
    .ok (env.entDelete m.name record_id.toNat, .dict [("id", .int record_id)])
  else .error (.userError "Record record not found.")

/-- The unified JSON response of `src/controllers/utils.py`: the `code` field
of the payload, the `message`, the `body`, and the HTTP status (note every
call site of `error_response` leaves `status` at its default `400`). -/
structure ApiResp where
  code : Nat
  message : String
  body : PyVal
  status : Nat

/-- `_parse_psql_integrity_error`: message detail, else primary message, else
the constraint name, else a fixed fallback. -/
def parse_psql_integrity_error (detail primary constraint : Option String) : String :=
  match detail with
  | some d => d
  | Option.none =>
      match primary with
      | some p => p
      | Option.none =>
          match constraint with
          | some c => "Constraint Error: " ++ c
          | Option.none => "Database Constraint Error"

/-- `str(e)` for the exception classes (what the mapper interpolates). -/
def pyErrStr : PyErr → String
  | .userError m => m
  | .validationError m => m
  | .accessDenied m => m
  | .accessError m => m
  | .missingError m => m
  | .integrityError d p c => parse_psql_integrity_error d p c
  | .typeError m => m
  | .otherError m => m

/-- `handel_odoo_api_errors`: IntegrityError→400, ValidationError→402,
AccessDenied→401, AccessError→403, MissingError→404, UserError→400, anything
else→500 with `{"error": str(e)}` in the body (the dev-mode traceback is not
modelled). -/
def handel_odoo_api_errors (e : PyErr) : ApiResp :=
  match e with
  | .integrityError d p c => ⟨400, parse_psql_integrity_error d p c, .dict [], 400⟩
  | .validationError m => ⟨402, m, .dict [], 400⟩
  | .accessDenied _ => ⟨401, "Access Denied", .dict [], 400⟩
  | .accessError _ => ⟨403, "Access Error", .dict [], 400⟩
  | .missingError m => ⟨404, m, .dict [], 400⟩
  | .userError m => ⟨400, m, .dict [], 400⟩
  | .typeError m => ⟨500, m, .dict [("error", .str m)], 400⟩
  | .otherError m => ⟨500, m, .dict [("error", .str m)], 400⟩

/-! ## Token manager (`src/models/access_tokens.py`)

Datetimes are modelled as natural-number timestamps; the token store is the
`odoo.restful.user.tokens` table in search order. -/

/-- A persisted token record: raw token string, owning user, expiry stamp. -/
structure TokenRec where
  token : String
  user_id : Nat
  expires : Nat

/-- `_compute_expires`: the derived flag `is_expired = Datetime.now() >
expires`, recomputed against the current time, never stored. -/
def compute_is_expired (now : Nat) (r : TokenRec) : Bool :=
  decide (r.expires < now)

/-- `_token_verify`: search for the first record with this token value whose
derived `is_expired` flag is false (`limit=1`); return its owning user, else a
negative result. -/
def token_verify (store : List TokenRec) (now : Nat) (t : String) : Option Nat :=
  (store.find? (fun r => r.token == t && !compute_is_expired now r)).map
    (fun r => r.user_id)

/-- `_delete_expired_token` (the autovacuum reaper): unlink every record whose
derived `is_expired` flag is true. -/
def delete_expired_token (store : List TokenRec) (now : Nat) : List TokenRec :=
  store.filter (fun r => !compute_is_expired now r)

/-! ## Spec-side reference definitions (for refinement-style claims)

These definitions follow the SPEC's words, not the source; they exist to be
compared with the source-derived definitions above. -/

/-- Keys of a projected object. -/
def pyDictKeys : PyVal → List String
  | .dict kvs => akeys kvs
  | _ => []

/-- Element of a projected sequence. -/
def pyListGet : PyVal → Nat → Option PyVal
  | .list xs, i => xs[i]?
  | _, _ => Option.none

/-- The spec claim's literal reading of the date format: exactly ten
characters `YYYY-MM-DD`, zero-padded and fixed-width, denoting a valid
calendar date. -/
def specDateExact (s : String) : Bool :=
  match s.toList with
  | [y1, y2, y3, y4, '-', m1, m2, '-', d1, d2] =>
      y1.isDigit && y2.isDigit && y3.isDigit && y4.isDigit &&
      m1.isDigit && m2.isDigit && d1.isDigit && d2.isDigit &&
      dateOk (1000 * dval y1 + 100 * dval y2 + 10 * dval y3 + dval y4)
             (10 * dval m1 + dval m2) (10 * dval d1 + dval d2)
  | _ => false

/-- The field names actually emitted by a projection: the target names that
are registered, minus the noise set when suppression is on, in target order. -/
def emittedNames (m : Model) (skip_chatter : Bool) (targets : List String) : List String :=
  targets.filter
    (fun k => m.fieldHas k && !(skip_chatter && fields_not_display.contains k))

/-- The block of output keys the spec assigns to one type `t`: the emitted
names of that type (`id`/`name` excluded, they are pinned to the front), each
to-many name immediately followed by its count key. -/
def specTypedGroup (m : Model) (emitted : List String) (t : FType) : List String :=
  (emitted.filter (fun k => !(k == "id") && !(k == "name")
      && decide ((m.fieldGet k).map (fun f => f.ftype) = some t))).flatMap
    (fun k => if t.isX2Many then [k, k ++ "_count"] else [k])

/-- The deterministic output key order stated by the (amended) spec: `id` and
`name` first when emitted, then the type groups in `FIELD_ORDER` priority,
then `name` (set to the display label) if it was not emitted as a field, then
the leftover emitted fields — those whose type is outside `FIELD_ORDER` — in
emission order. -/
def specKeyOrder (m : Model) (emitted : List String) : List String :=
  (["id", "name"].filter (fun k => emitted.contains k))
  ++ (FIELD_ORDER.map (fun t => specTypedGroup m emitted t)).flatten
  ++ (if emitted.contains "name" then [] else ["name"])
  ++ (emitted.filter (fun k => !(k == "id") && !(k == "name")
        && (match m.fieldGet k with
            | some f => !(decide (f.ftype ∈ FIELD_ORDER))
            | Option.none => false)))

/-- The spec's classification of one shared-relation (many2many) input item:
a bare identifier (Python ints include bools) maps to a `link` command, an
object holding only an identity key maps to `link`, any other object to
`create_nested`, and anything else contributes nothing. -/
def specM2mItemCmds (item : PyVal) : List PyVal :=
  match item with
  | .dict d =>
      if ahas d "id" && d.length == 1 then [.tuple [.int 4, agetD d "id" .none]]
      else [.tuple [.int 0, .int 0, .dict d]]
  | .int _ => [.tuple [.int 4, item]]
  | .bool _ => [.tuple [.int 4, item]]
  | _ => []

/-! ### Emission blocks: the structure of `res` after the emission loop

Proof-side bookkeeping for the key-ordering theorem: the emission loop
produces, per emitted field, a block of one binding (plus a count binding for
to-many fields); `emitBlocks` names those blocks and `blocksOf` flattens them
back into the association list the loop builds. -/

/-- The `res[name]`-assignment's right-hand side: the `ir.attachment` special
case or `fmt_value`; `none` models the swallowed per-field exception. -/
def mainOpt (env : Env) (e : Entity) (r : Bool) (f : FieldDef) : Option PyVal :=
  if f.comodel == "ir.attachment" && f.ftype.isX2Many then
    match entRead e f with
    | .rel ids => (ids.mapM (attStub env)).map PyVal.list
    | .v _ => Option.none
  else fmt_value env r (entRead e f) f

/-- The value emitted for one field (the exception fallback included). -/
def emitVal (env : Env) (e : Entity) (r : Bool) (f : FieldDef) : PyVal :=
  (mainOpt env e r f).getD (fmtFalsy f)

/-- The count value emitted after a to-many field. -/
def emitCnt (env : Env) (e : Entity) (r : Bool) (f : FieldDef) : PyVal :=
  match mainOpt env e r f with
  | some _ =>
      match entRead e f with
      | .rel ids => .int ids.length
      | .v _ => .int 0
  | Option.none => .int 0

/-- One emitted field's block: its descriptor, emitted value, and count value
when the field is to-many. -/
structure EmitBlock where
  fd : FieldDef
  v : PyVal
  cnt : Option PyVal

/-- The bindings of one block. -/
def blockPairs (b : EmitBlock) : List (String × PyVal) :=
  (b.fd.name, b.v) ::
    (match b.cnt with
     | some c => [(b.fd.name ++ "_count", c)]
     | Option.none => [])

/-- Flatten a block list into the association list it denotes. -/
def blocksOf (L : List EmitBlock) : List (String × PyVal) :=
  (L.map blockPairs).flatten

/-- The block list produced by emitting the target names in order. -/
def emitBlocks (env : Env) (m : Model) (e : Entity) (r sc : Bool)
    (targets : List String) : List EmitBlock :=
  targets.filterMap (fun nm =>
    match m.fieldGet nm with
    | Option.none => Option.none
    | some f =>
        if sc && fields_not_display.contains nm then Option.none
        else some ⟨f, emitVal env e r f,
          if f.ftype.isX2Many then some (emitCnt env e r f) else Option.none⟩)

/-- Well-formedness of a block with respect to the registry: its descriptor is
what the registry yields for its name, the count part is present exactly for
to-many fields, and its count key is not itself a registered field. -/
def blockWF (m : Model) (b : EmitBlock) : Prop :=
  m.fieldGet b.fd.name = some b.fd
  ∧ (b.cnt.isSome = b.fd.ftype.isX2Many)
  ∧ m.fieldGet (b.fd.name ++ "_count") = Option.none

/-- The blocks moved by the type-priority loop, in move order: for each type
in priority order, the remaining blocks of that type in emission order. -/
def orderBlocks : List FType → List EmitBlock → List EmitBlock
  | [], _ => []
  | t :: ts, L =>
      L.filter (fun b => decide (b.fd.ftype = t))
        ++ orderBlocks ts (L.filter (fun b => !(decide (b.fd.ftype = t))))

/-! ## Concrete fixtures used by witnesses and counterexamples -/

/-- A model with two leftover-typed (selection) fields, registry order
`state_a` before `state_b`. -/
def fixLoModel : Model :=
  ⟨"m.lo", [⟨"state_a", .selection, ""⟩, ⟨"state_b", .selection, ""⟩]⟩

/-- An entity of the leftover-field model. -/
def fixLoEnt : Entity :=
  ⟨"m.lo", 4, "L", [("state_a", .str "x"), ("state_b", .str "y")], []⟩

/-- Store holding the leftover-field entity. -/
def fixLoEnv : Env := ⟨[fixLoEnt], "http://base"⟩

/-- A self-referencing model: `parent_id` points back at the same model. -/
def fixSelfModel : Model :=
  ⟨"self.model",
   [⟨"id", .integer, ""⟩, ⟨"name", .char, ""⟩, ⟨"parent_id", .many2one, "self.model"⟩]⟩

/-- An entity that references itself through `parent_id`. -/
def fixSelfEnt : Entity :=
  ⟨"self.model", 1, "Self", [("name", .str "Self")], [("parent_id", [1])]⟩

/-- Store holding only the self-referencing entity. -/
def fixSelfEnv : Env := ⟨[fixSelfEnt], "http://base"⟩

/-- A model whose `partner_id` relates to itself (for the plural-memo claims). -/
def fixPairModel : Model :=
  ⟨"res.partner",
   [⟨"id", .integer, ""⟩, ⟨"name", .char, ""⟩, ⟨"partner_id", .many2one, "res.partner"⟩]⟩

/-- Entity A, whose `partner_id` references entity B. -/
def fixA : Entity := ⟨"res.partner", 1, "A", [("name", .str "A")], [("partner_id", [2])]⟩

/-- Entity B, referenced by A. -/
def fixB : Entity := ⟨"res.partner", 2, "B", [("name", .str "B")], []⟩

/-- Store holding A and B. -/
def fixPairEnv : Env := ⟨[fixA, fixB], "http://base"⟩

/-- A one-record store for the delete scenarios. -/
def fixDelEnv : Env := ⟨[⟨"x.rec", 1, "R1", [], []⟩], "http://base"⟩

/-- The model of the delete scenarios. -/
def fixDelModel : Model := ⟨"x.rec", [⟨"id", .integer, ""⟩]⟩

/-! # Theorems -/

/-- C5: token verification returns the owning principal exactly when a
persisted record stores the presented credential and its derived is-expired
flag (`now > expires`) is false; an expired token is never returned even if
present; the reaper keeps exactly the non-expired records, deleting every
record whose expiry flag is true. -/
theorem token_verify_reap_spec (store : List TokenRec) (now : Nat) (t : String) :
    ((token_verify store now t).isSome ↔
      ∃ r ∈ store, r.token = t ∧ compute_is_expired now r = false)
    ∧ (∀ u, token_verify store now t = some u →
        ∃ r ∈ store, r.token = t ∧ compute_is_expired now r = false ∧ r.user_id = u)
    ∧ (∀ r, r ∈ delete_expired_token store now ↔
        r ∈ store ∧ compute_is_expired now r = false) := by
  refine ⟨?_, ?_, ?_⟩
  · unfold token_verify
    rw [Option.isSome_map', List.find?_isSome]
    constructor
    · rintro ⟨x, hx, hp⟩
      simp only [Bool.and_eq_true, beq_iff_eq, Bool.not_eq_true'] at hp
      exact ⟨x, hx, hp.1, hp.2⟩
    · rintro ⟨x, hx, h1, h2⟩
      exact ⟨x, hx, by simp [h1, h2]⟩
  · intro u h
    unfold token_verify at h
    cases hf : store.find? (fun r => r.token == t && !compute_is_expired now r) with
    | none => rw [hf] at h; simp at h
    | some r =>
        rw [hf] at h
        have h : r.user_id = u := by simpa using h
        have hmem := List.mem_of_find?_eq_some hf
        have hp := List.find?_some hf
        simp only [Bool.and_eq_true, beq_iff_eq, Bool.not_eq_true'] at hp
        exact ⟨r, hmem, hp.1, hp.2, h⟩
  · intro r
    simp [delete_expired_token, List.mem_filter, Bool.not_eq_true']

/-- Witness for C5 at a concrete store: token `tk` of user 7, not yet expired
at time 5, is found; the store also satisfies the reap characterization. -/
theorem token_verify_reap_spec_witness :
    ((token_verify [⟨"tk", 7, 10⟩] 5 "tk").isSome ↔
      ∃ r ∈ [(⟨"tk", 7, 10⟩ : TokenRec)], r.token = "tk" ∧ compute_is_expired 5 r = false)
    ∧ (∀ u, token_verify [⟨"tk", 7, 10⟩] 5 "tk" = some u →
        ∃ r ∈ [(⟨"tk", 7, 10⟩ : TokenRec)],
          r.token = "tk" ∧ compute_is_expired 5 r = false ∧ r.user_id = u)
    ∧ (∀ r, r ∈ delete_expired_token [⟨"tk", 7, 10⟩] 5 ↔
        r ∈ [(⟨"tk", 7, 10⟩ : TokenRec)] ∧ compute_is_expired 5 r = false) :=
  token_verify_reap_spec [⟨"tk", 7, 10⟩] 5 "tk"

/-- C10: a relation-to-one field present in the input with a falsy value is
silently omitted from the produced vals: no error, no store lookup (the result
holds for every store), and no binding for the field — the relation is not
cleared. -/
theorem m2o_falsy_silently_skipped (env : Env) (data vals : List (String × PyVal))
    (f : FieldDef) (v : PyVal) (hty : f.ftype = FType.many2one)
    (hv : aget data f.name = some v) (hfalsy : pyTruthy v = false) :
    processField env data vals f = .ok vals := by
  simp [processField, hv, hty, hfalsy]

/-- Witness for C10: `partner_id = None`, `partner_id = False` and
`partner_id = 0` are all dropped, against the empty store. -/
theorem m2o_falsy_silently_skipped_witness :
    processField ⟨[], "u"⟩ [("partner_id", .none)] [] ⟨"partner_id", .many2one, "res.partner"⟩
      = .ok []
    ∧ processField ⟨[], "u"⟩ [("partner_id", .bool false)] []
        ⟨"partner_id", .many2one, "res.partner"⟩ = .ok []
    ∧ processField ⟨[], "u"⟩ [("partner_id", .int 0)] []
        ⟨"partner_id", .many2one, "res.partner"⟩ = .ok [] :=
  ⟨m2o_falsy_silently_skipped _ _ _ _ (.none) rfl rfl rfl,
   m2o_falsy_silently_skipped _ _ _ _ (.bool false) rfl rfl rfl,
   m2o_falsy_silently_skipped _ _ _ _ (.int 0) rfl rfl rfl⟩

/-- C2 counterexample: deleting a nonexistent id raises `UserError` (not
`MissingError`), and the controller's mapper sends `UserError` to response
code 400 — not the claimed 404. -/
theorem delete_missing_maps_to_400_not_404 :
    api_delete_one fixDelEnv fixDelModel 5 = .error (.userError "Record record not found.")
    ∧ (handel_odoo_api_errors (.userError "Record record not found.")).code = 400
    ∧ ¬((handel_odoo_api_errors (.userError "Record record not found.")).code = 404) :=
  ⟨rfl, rfl, by decide⟩

/-- C2 (amended): delete requires a nonzero identifier (`0` raises
`UserError "Missing Record_id"`); an identifier with no existing entity raises
`UserError "Record record not found."`, which the error mapper answers with
response code 400; an existing entity is unlinked and `{"id": id}` returned. -/
theorem api_delete_one_spec (env : Env) (m : Model) (i : Int) :
    (api_delete_one env m 0 = .error (.userError "Missing Record_id"))
    ∧ (¬(i = 0) → (i < 0 ∨ env.entExists m.name i.toNat = false) →
        api_delete_one env m i = .error (.userError "Record record not found.")
        ∧ (handel_odoo_api_errors (.userError "Record record not found.")).code = 400)
    ∧ (0 < i → env.entExists m.name i.toNat = true →
        api_delete_one env m i
          = .ok (env.entDelete m.name i.toNat, .dict [("id", .int i)])) := by
  refine ⟨by simp [api_delete_one], ?_, ?_⟩
  · intro hne hmiss
    constructor
    · unfold api_delete_one
      have h0 : (i == 0) = false := by simpa using hne
      rw [h0]
      simp only [Bool.false_eq_true, if_false]
      have : (i ≥ 0 && env.entExists m.name i.toNat) = false := by
        rcases hmiss with hlt | hnex
        · have : ¬(i ≥ 0) := by omega
          simp [this]
        · simp [hnex]
      rw [this]
      simp
    · rfl
  · intro hpos hex
    unfold api_delete_one
    have h0 : (i == 0) = false := by
      have : ¬(i = 0) := by omega
      simpa using this
    have hge : (i ≥ 0 && env.entExists m.name i.toNat) = true := by
      have : i ≥ 0 := by omega
      simp [this, hex]
    rw [h0, hge]
    simp

/-- Witness for C2's amended theorem: with a store holding record 1 of
`x.rec`, deleting 1 succeeds and returns `{"id": 1}`, deleting 5 fails with
the 400-mapped `UserError`, and deleting 0 complains about the missing id. -/
theorem api_delete_one_spec_witness :
    api_delete_one fixDelEnv fixDelModel 0 = .error (.userError "Missing Record_id")
    ∧ api_delete_one fixDelEnv fixDelModel 7 = .error (.userError "Record record not found.")
    ∧ api_delete_one fixDelEnv fixDelModel 1
        = .ok (fixDelEnv.entDelete "x.rec" 1, .dict [("id", .int 1)]) := by
  refine ⟨(api_delete_one_spec fixDelEnv fixDelModel 7).1, ?_, ?_⟩
  · exact ((api_delete_one_spec fixDelEnv fixDelModel 7).2.1 (by decide)
      (Or.inr (by decide))).1
  · exact (api_delete_one_spec fixDelEnv fixDelModel 1).2.2 (by decide) (by decide)

/-- Shared lemma: `_from_dict`'s registry fold splits over list append. -/
theorem from_dictGo_append (env : Env) (data : List (String × PyVal)) (l₁ l₂ : List FieldDef)
    (vals : List (String × PyVal)) :
    from_dictGo env data (l₁ ++ l₂) vals
      = (from_dictGo env data l₁ vals).bind (from_dictGo env data l₂) := by
  induction l₁ generalizing vals with
  | nil => simp [from_dictGo, Except.bind]
  | cons f fs ih =>
      simp only [List.cons_append, from_dictGo]
      cases processField env data vals f with
      | error e => simp [Except.bind]
      | ok vals' => simp [Except.bind, ih]

/-- C6 counterexample: `"2024-1-5"` does not match the exact zero-padded
`YYYY-MM-DD` shape the claim requires rejecting, yet translation succeeds
(Python's `strptime` accepts unpadded month/day), producing the date
2024-01-05 instead of a `FormatError`. -/
theorem date_unpadded_accepted :
    specDateExact "2024-1-5" = false
    ∧ from_dict ⟨[], "u"⟩ ⟨"m", [⟨"due_date", FType.date, ""⟩]⟩
        (.dict [("due_date", .str "2024-1-5")]) = .ok [("due_date", .date 2024 1 5)] :=
  ⟨rfl, rfl⟩

/-- C6 (amended): for a date (resp. datetime) field present in the input, a
string value fails with a `UserError` naming the field and the offending value
exactly when Python's `strptime` cannot parse it against `%Y-%m-%d` (resp.
`%Y-%m-%d %H:%M:%S`) — a discipline that also accepts unpadded components —
and parses to the typed value otherwise; a non-string value passes through
unchanged; a field failure makes the whole translation fail with that error. -/
theorem date_format_validation (env : Env) (data vals : List (String × PyVal))
    (f : FieldDef) (s : String) (v : PyVal) :
    (f.ftype = FType.date → aget data f.name = some (.str s) →
        pyStrptimeDate s = Option.none →
        processField env data vals f = .error (.userError
          ("Invalid date format for field " ++ quoteS f.name ++ ": " ++ s)))
    ∧ (f.ftype = FType.date → aget data f.name = some (.str s) →
        ∀ y mo dy, pyStrptimeDate s = some (y, mo, dy) →
          processField env data vals f = .ok (aset vals f.name (.date y mo dy)))
    ∧ (f.ftype = FType.date → aget data f.name = some v → (∀ s', ¬(v = .str s')) →
        processField env data vals f = .ok (aset vals f.name v))
    ∧ (f.ftype = FType.datetime → aget data f.name = some (.str s) →
        pyStrptimeDatetime s = Option.none →
        processField env data vals f = .error (.userError
          ("Invalid datetime format for field " ++ quoteS f.name ++ ": " ++ s)))
    ∧ (f.ftype = FType.datetime → aget data f.name = some (.str s) →
        ∀ y mo dy h mi sec, pyStrptimeDatetime s = some (y, mo, dy, h, mi, sec) →
          processField env data vals f = .ok (aset vals f.name (.datetime y mo dy h mi sec)))
    ∧ (f.ftype = FType.datetime → aget data f.name = some v → (∀ s', ¬(v = .str s')) →
        processField env data vals f = .ok (aset vals f.name v))
    ∧ (∀ (pre : List FieldDef) (e : PyErr),
        from_dictGo env data pre [] = .ok vals → processField env data vals f = .error e →
        from_dictGo env data (pre ++ [f]) [] = .error e) := by
  refine ⟨?_, ?_, ?_, ?_, ?_, ?_, ?_⟩
  · intro hty hv hp; simp [processField, hv, hty, hp]
  · intro hty hv y mo dy hp; simp [processField, hv, hty, hp]
  · intro hty hv hs
    cases v with
    | str s' => exact absurd rfl (hs s')
    | none => simp [processField, hv, hty]
    | bool b => simp [processField, hv, hty]
    | int n => simp [processField, hv, hty]
    | float a b => simp [processField, hv, hty]
    | bytes bs => simp [processField, hv, hty]
    | tuple xs => simp [processField, hv, hty]
    | list xs => simp [processField, hv, hty]
    | dict kvs => simp [processField, hv, hty]
    | date a b c => simp [processField, hv, hty]
    | datetime a b c d e f => simp [processField, hv, hty]
  · intro hty hv hp; simp [processField, hv, hty, hp]
  · intro hty hv y mo dy h mi sec hp; simp [processField, hv, hty, hp]
  · intro hty hv hs
    cases v with
    | str s' => exact absurd rfl (hs s')
    | none => simp [processField, hv, hty]
    | bool b => simp [processField, hv, hty]
    | int n => simp [processField, hv, hty]
    | float a b => simp [processField, hv, hty]
    | bytes bs => simp [processField, hv, hty]
    | tuple xs => simp [processField, hv, hty]
    | list xs => simp [processField, hv, hty]
    | dict kvs => simp [processField, hv, hty]
    | date a b c => simp [processField, hv, hty]
    | datetime a b c d e f => simp [processField, hv, hty]
  · intro pre e h1 h2
    rw [from_dictGo_append, h1]
    simp [from_dictGo, h2, Except.bind]

/-- Witness for C6's amended theorem: `31/12/2024` is rejected with the error
naming `due_date` and the literal string, and a non-string value passes
through unchanged. -/
theorem date_format_validation_witness :
    processField ⟨[], "u"⟩ [("due_date", .str "31/12/2024")] [] ⟨"due_date", FType.date, ""⟩
      = .error (.userError ("Invalid date format for field " ++ quoteS "due_date"
          ++ ": " ++ "31/12/2024"))
    ∧ processField ⟨[], "u"⟩ [("due_date", .int 3)] [] ⟨"due_date", FType.date, ""⟩
      = .ok (aset [] "due_date" (.int 3)) :=
  ⟨(date_format_validation ⟨[], "u"⟩ [("due_date", .str "31/12/2024")] []
      ⟨"due_date", FType.date, ""⟩ "31/12/2024" .none).1 rfl rfl rfl,
   (date_format_validation ⟨[], "u"⟩ [("due_date", .int 3)] []
      ⟨"due_date", FType.date, ""⟩ "x" (.int 3)).2.2.1 rfl rfl
      (fun s' h => by cases h)⟩

/-- C3 (code bug): an attachment-bearing shared-relation item that yields two
attachment commands makes translation crash with `TypeError` — `list(set(…))`
hashes `(0, 0, {...})` tuples whose dicts are unhashable — instead of
appending de-duplicated commands; and an item yielding exactly one command
appends the raw one-element LIST (`commands.append(attach_commands)`), a
malformed nested `[command]` element rather than the command itself. -/
theorem m2m_attachment_flattening_crashes :
    from_dict ⟨[], "u"⟩ ⟨"doc", [⟨"attachment_ids", FType.many2many, "ir.attachment"⟩]⟩
      (.dict [("attachment_ids", .list [.dict [("attachment", .list [
          .dict [("name", .str "a"), ("attachment", .str "AAA")],
          .dict [("name", .str "b"), ("attachment", .str "BBB")]])]])])
      = .error (.typeError ("unhashable type: " ++ quoteS "dict"))
    ∧ from_dict ⟨[], "u"⟩ ⟨"doc", [⟨"attachment_ids", FType.many2many, "ir.attachment"⟩]⟩
      (.dict [("attachment_ids", .list [.dict [("attachment", .list [
          .dict [("name", .str "a"), ("attachment", .str "AAA")]])]])])
      = .ok [("attachment_ids", .list [
          .list [.tuple [.int 0, .int 0, .dict [("name", .str "a"), ("datas", .str "AAA"),
                                                ("type", .str "binary")]]],
          .tuple [.int 0, .int 0, .dict []]])] := by
  constructor
  · simp [from_dict, from_dictGo, processField, m2mItem, m2mFlattenKeys, attsCmds, attCmds,
      pySet, pySetDedup, pyHashable, unhashName, aget, ahas, aset, aerase, agetD, akeys,
      strContains, containsSub, startsWithL, flatAttCmd, subAttCmds, pyIterate, pyTruthy,
      Except.map, Except.bind, bind, List.foldlM, pure, Except.pure, List.find?]
  · simp [from_dict, from_dictGo, processField, m2mItem, m2mFlattenKeys, attsCmds, attCmds,
      pySet, pySetDedup, pyHashable, unhashName, aget, ahas, aset, aerase, agetD, akeys,
      strContains, containsSub, startsWithL, flatAttCmd, subAttCmds, pyIterate, pyTruthy,
      Except.map, Except.bind, bind, List.foldlM, pure, Except.pure, List.find?]

/-- Shared lemma: with no attachment flattening triggered (the m2m field name
does not contain the substring `attachment`), one item extends the command
list by exactly its link/create classification. -/
theorem m2mItem_no_attachment (env : Env) (fname : String) (cmds : List PyVal) (item : PyVal)
    (hno : strContains fname "attachment" = false) :
    m2mItem env fname cmds item = .ok (cmds ++ specM2mItemCmds item) := by
  cases item with
  | dict d =>
      simp only [m2mItem, hno, Bool.false_eq_true, if_false, specM2mItemCmds]
      cases hid : (ahas d "id" && d.length == 1) with
      | true =>
          have h1 := hid
          simp only [Bool.and_eq_true, beq_iff_eq] at h1
          simp [Except.map, h1.1, h1.2]
      | false =>
          have hcond : ¬(ahas d "id" = true ∧ d.length = 1) := by
            intro hc
            have ht : (ahas d "id" && d.length == 1) = true := by simp [hc.1, hc.2]
            rw [ht] at hid
            simp at hid
          simp [Except.map, hcond, hid]
  | int n => simp [m2mItem, specM2mItemCmds]
  | bool b => simp [m2mItem, specM2mItemCmds]
  | none => simp [m2mItem, specM2mItemCmds]
  | float a b => simp [m2mItem, specM2mItemCmds]
  | str s => simp [m2mItem, specM2mItemCmds]
  | bytes bs => simp [m2mItem, specM2mItemCmds]
  | tuple xs => simp [m2mItem, specM2mItemCmds]
  | list xs => simp [m2mItem, specM2mItemCmds]
  | date a b c => simp [m2mItem, specM2mItemCmds]
  | datetime a b c d e f => simp [m2mItem, specM2mItemCmds]

/-- Shared lemma: the m2m item fold concatenates the per-item classifications. -/
theorem m2m_fold_classify (env : Env) (fname : String) (items : List PyVal)
    (cmds : List PyVal) (hno : strContains fname "attachment" = false) :
    items.foldlM (fun cs item => m2mItem env fname cs item) cmds
      = .ok (cmds ++ (items.map specM2mItemCmds).flatten) := by
  induction items generalizing cmds with
  | nil => simp [List.foldlM, pure, Except.pure]
  | cons it its ih =>
      rw [List.foldlM_cons, m2mItem_no_attachment env fname cmds it hno]
      simp only [List.map_cons, List.flatten_cons, ← List.append_assoc]
      exact ih (cmds ++ specM2mItemCmds it)

/-- C4: a relation-to-many-shared (m2m) list input translates item-wise —
bare identifiers and identity-only objects to `link`, every other object to
`create_nested` — with the resulting command list stored under the field (or
the field skipped when no command results); in particular the same identifier
twice yields two `link` commands, with no de-duplication. -/
theorem m2m_link_create_classification (env : Env) (f : FieldDef)
    (data vals : List (String × PyVal)) (items : List PyVal)
    (hno : strContains f.name "attachment" = false)
    (hty : f.ftype = FType.many2many)
    (hv : aget data f.name = some (.list items)) :
    (processField env data vals f
      = .ok (if ((items.map specM2mItemCmds).flatten).isEmpty then vals
             else aset vals f.name (.list ((items.map specM2mItemCmds).flatten))))
    ∧ (∀ (d : List (String × PyVal)), (ahas d "id" && d.length == 1) = true →
        specM2mItemCmds (.dict d) = [.tuple [.int 4, agetD d "id" .none]])
    ∧ (∀ (d : List (String × PyVal)), (ahas d "id" && d.length == 1) = false →
        specM2mItemCmds (.dict d) = [.tuple [.int 0, .int 0, .dict d]])
    ∧ (∀ (n : Int), specM2mItemCmds (.int n) = [.tuple [.int 4, .int n]])
    ∧ (∀ (n : Int) (data' : List (String × PyVal)),
        aget data' f.name = some (.list [.int n, .int n]) →
        processField env data' vals f
          = .ok (aset vals f.name
              (.list [.tuple [.int 4, .int n], .tuple [.int 4, .int n]]))) := by
  refine ⟨?_, ?_, ?_, ?_, ?_⟩
  · rw [show processField env data vals f
        = (items.foldlM (fun cs item => m2mItem env f.name cs item) []).map
            (fun cmds => if !cmds.isEmpty then aset vals f.name (.list cmds) else vals)
      by simp [processField, hv, hty]]
    rw [m2m_fold_classify env f.name items [] hno]
    simp only [List.nil_append, Except.map_ok]
    cases hE : ((items.map specM2mItemCmds).flatten).isEmpty with
    | true => simp [Except.map, hE]
    | false => simp [Except.map, hE]
  · intro d h; simp [specM2mItemCmds, h]
  · intro d h; simp [specM2mItemCmds, h]
  · intro n; simp [specM2mItemCmds]
  · intro n data' hv'
    rw [show processField env data' vals f
        = (([.int n, .int n] : List PyVal).foldlM
            (fun cs item => m2mItem env f.name cs item) []).map
            (fun cmds => if !cmds.isEmpty then aset vals f.name (.list cmds) else vals)
      by simp [processField, hv', hty]]
    rw [m2m_fold_classify env f.name [.int n, .int n] [] hno]
    simp [specM2mItemCmds, Except.map]

/-- Witness for C4: a mixed list with a bare id, an identity-only object, a
larger object, and a duplicated id, against a plain m2m field. -/
theorem m2m_link_create_classification_witness :
    processField ⟨[], "u"⟩
      [("tag_ids", .list [.int 5, .dict [("id", .int 9)],
                          .dict [("id", .int 9), ("x", .int 1)], .int 5])] []
      ⟨"tag_ids", FType.many2many, "res.tag"⟩
      = .ok (aset [] "tag_ids" (.list [
          .tuple [.int 4, .int 5], .tuple [.int 4, .int 9],
          .tuple [.int 0, .int 0, .dict [("id", .int 9), ("x", .int 1)]],
          .tuple [.int 4, .int 5]])) := by
  have h := (m2m_link_create_classification ⟨[], "u"⟩ ⟨"tag_ids", FType.many2many, "res.tag"⟩
    [("tag_ids", .list [.int 5, .dict [("id", .int 9)],
                        .dict [("id", .int 9), ("x", .int 1)], .int 5])] []
    [.int 5, .dict [("id", .int 9)], .dict [("id", .int 9), ("x", .int 1)], .int 5]
    rfl rfl rfl).1
  simpa using h

/-! ## Shared lemmas about the projector's memo -/

/-- Shared: a memoized reference short-circuits `_to_dict` to the `{id, name}`
stub, leaving the memo unchanged. -/
theorem to_dict_one_memo_hit (env : Env) (m : Model) (e : Entity)
    (lof : Option (List String)) (r sc : Bool) (memo : List (String × Nat))
    (h : memo.contains (e.model, e.eid) = true) :
    to_dict_one env m e lof r sc memo
      = (.dict [("id", .int e.eid), ("name", .str e.displayName)], memo) := by
  have h2 : (e.model, e.eid) ∈ memo := List.mem_of_elem_eq_true h
  simp [to_dict_one, h2]

/-- Shared: the memo coming out of `_to_dict` on one record is exactly the
input memo plus the record's own reference — related records are never added. -/
theorem to_dict_one_memo_eq (env : Env) (m : Model) (e : Entity)
    (lof : Option (List String)) (r sc : Bool) (memo : List (String × Nat)) :
    (to_dict_one env m e lof r sc memo).2
      = if memo.contains (e.model, e.eid) then memo else (e.model, e.eid) :: memo := by
  by_cases h : (e.model, e.eid) ∈ memo
  · simp [to_dict_one, h]
  · simp [to_dict_one, h]

/-- Shared: the record's own reference is in the output memo. -/
theorem to_dict_one_memo_mem (env : Env) (m : Model) (e : Entity)
    (lof : Option (List String)) (r sc : Bool) (memo : List (String × Nat)) :
    (e.model, e.eid) ∈ (to_dict_one env m e lof r sc memo).2 := by
  rw [to_dict_one_memo_eq]
  split
  · rename_i h
    exact List.mem_of_elem_eq_true h
  · exact List.mem_cons_self _ _

/-- Shared: the output memo contains the input memo. -/
theorem to_dict_one_memo_mono (env : Env) (m : Model) (e : Entity)
    (lof : Option (List String)) (r sc : Bool) (memo : List (String × Nat))
    (x : String × Nat) (hx : x ∈ memo) :
    x ∈ (to_dict_one env m e lof r sc memo).2 := by
  rw [to_dict_one_memo_eq]
  split
  · exact hx
  · exact List.mem_cons_of_mem _ hx

/-- Shared: the member fold splits over append. -/
theorem projFold_append (env : Env) (m : Model) (lof : Option (List String)) (r sc : Bool)
    (l₁ l₂ : List Entity) (st : List PyVal × List (String × Nat)) :
    projFold env m lof r sc (l₁ ++ l₂) st
      = projFold env m lof r sc l₂ (projFold env m lof r sc l₁ st) := by
  simp [projFold, List.foldl_append]

/-- Shared: memo membership is monotone along the member fold. -/
theorem projFold_memo_mono (env : Env) (m : Model) (lof : Option (List String)) (r sc : Bool)
    (l : List Entity) (st : List PyVal × List (String × Nat))
    (x : String × Nat) (hx : x ∈ st.2) :
    x ∈ (projFold env m lof r sc l st).2 := by
  induction l generalizing st with
  | nil => exact hx
  | cons a l ih =>
      rw [show projFold env m lof r sc (a :: l) st
          = projFold env m lof r sc l
              ((st.1 ++ [(to_dict_one env m a lof r sc st.2).1]),
               (to_dict_one env m a lof r sc st.2).2) from rfl]
      exact ih _ (to_dict_one_memo_mono env m a lof r sc st.2 x hx)

/-- Shared: the member fold appends one output per member. -/
theorem projFold_fst_length (env : Env) (m : Model) (lof : Option (List String)) (r sc : Bool)
    (l : List Entity) (st : List PyVal × List (String × Nat)) :
    (projFold env m lof r sc l st).1.length = st.1.length + l.length := by
  induction l generalizing st with
  | nil => simp [projFold]
  | cons a l ih =>
      rw [show projFold env m lof r sc (a :: l) st
          = projFold env m lof r sc l
              ((st.1 ++ [(to_dict_one env m a lof r sc st.2).1]),
               (to_dict_one env m a lof r sc st.2).2) from rfl]
      rw [ih]
      simp
      omega

/-- Shared: `_to_dict` on a recordset of at least two members takes the plural
path, mapping the one-record projection over the members. -/
theorem to_dict_plural (env : Env) (m : Model) (lof : Option (List String)) (r sc : Bool)
    (memo : List (String × Nat)) (recs : List Entity) (h : 2 ≤ recs.length) :
    to_dict env m recs lof r sc memo
      = (.list (projFold env m lof r sc recs ([], memo)).1,
         (projFold env m lof r sc recs ([], memo)).2) := by
  match recs with
  | [] => simp at h
  | [a] => simp at h
  | a :: b :: rest => rfl

/-- C1: the memoized-stub law — any record whose `(model, id)` reference is
already in the call's memo set projects to the minimal `{id, name}` stub with
no further fields — and, in particular, the projection of a
record that references itself through a many2one terminates (the projector is
a total function applied here to a concrete cyclic store) with the cyclic
reference rendered as `{id, name}` only. -/
theorem projection_cycle_safe :
    (∀ (env : Env) (m : Model) (e : Entity) (lof : Option (List String)) (r sc : Bool)
        (memo : List (String × Nat)),
        memo.contains (e.model, e.eid) = true →
        to_dict_one env m e lof r sc memo
          = (.dict [("id", .int e.eid), ("name", .str e.displayName)], memo))
    ∧ (to_dict_top fixSelfEnv fixSelfModel [fixSelfEnt] Option.none true true
        = .dict [("id", .int 1), ("name", .str "Self"),
                 ("parent_id", .dict [("id", .int 1), ("name", .str "Self")])]) :=
  ⟨fun env m e lof r sc memo h => to_dict_one_memo_hit env m e lof r sc memo h, rfl⟩

/-- Witness for C1: the stub law applied to the self-referencing fixture with
its reference pre-memoized. -/
theorem projection_cycle_safe_witness :
    to_dict_one fixSelfEnv fixSelfModel fixSelfEnt Option.none true true [("self.model", 1)]
      = (.dict [("id", .int 1), ("name", .str "Self")], [("self.model", 1)]) :=
  projection_cycle_safe.1 fixSelfEnv fixSelfModel fixSelfEnt Option.none true true
    [("self.model", 1)] rfl

/-- C9 counterexample: projecting the plural recordset `[A, B]`, where A's
`partner_id` references B, does NOT emit B's later top-level occurrence as the
`{id, name}` stub — B was only seen as a relation value, which is never
memoized, so it is expanded in full (its `partner_id` key is present). -/
theorem relation_not_memoized_counterexample :
    (to_dict fixPairEnv fixPairModel [fixA, fixB] Option.none true true []).1
      = .list [.dict [("id", .int 1), ("name", .str "A"),
                      ("partner_id", .dict [("id", .int 2), ("name", .str "B")])],
               .dict [("id", .int 2), ("name", .str "B"), ("partner_id", .dict [])]]
    ∧ ¬(pyListGet (to_dict fixPairEnv fixPairModel [fixA, fixB] Option.none true true []).1 1
        = some (.dict [("id", .int 2), ("name", .str "B")])) := by
  refine ⟨rfl, ?_⟩
  intro h
  rw [show pyListGet (to_dict fixPairEnv fixPairModel [fixA, fixB] Option.none true true []).1 1
      = some (.dict [("id", .int 2), ("name", .str "B"), ("partner_id", .dict [])]) from rfl]
    at h
  simp only [Option.some.injEq, PyVal.dict.injEq] at h
  exact absurd h (by simp)

/-- C9 (amended): one memo set is shared across the members of a plural
projection, and exactly the top-level members enter it: the memo out of a
one-record projection is the input memo plus that record's own reference
(relations are never memoized), and a top-level member whose reference was
already projected as an EARLIER TOP-LEVEL member is emitted as the `{id,
name}` stub. -/
theorem plural_memo_shared (env : Env) (m : Model) (lof : Option (List String)) (r sc : Bool)
    (pre mid : List Entity) (e e' : Entity)
    (hm : e'.model = e.model) (hid : e'.eid = e.eid) :
    (∀ (e2 : Entity) (memo : List (String × Nat)),
        (to_dict_one env m e2 lof r sc memo).2
          = if memo.contains (e2.model, e2.eid) then memo else (e2.model, e2.eid) :: memo)
    ∧ pyListGet (to_dict env m (pre ++ e :: mid ++ [e']) lof r sc []).1
        (pre.length + 1 + mid.length)
      = some (.dict [("id", .int e'.eid), ("name", .str e'.displayName)]) := by
  constructor
  · intro e2 memo
    exact to_dict_one_memo_eq env m e2 lof r sc memo
  · have hlen : 2 ≤ (pre ++ e :: mid ++ [e']).length := by
      simp [List.length_append]
      omega
    rw [to_dict_plural env m lof r sc [] _ hlen]
    have hsplit : pre ++ e :: mid ++ [e'] = (pre ++ e :: mid) ++ [e'] := by simp
    rw [hsplit, projFold_append]
    set st1 := projFold env m lof r sc (pre ++ e :: mid) ([], []) with hst1
    have hmem : (e'.model, e'.eid) ∈ st1.2 := by
      rw [hm, hid, hst1]
      have hsplit2 : pre ++ e :: mid = (pre ++ [e]) ++ mid := by simp
      rw [hsplit2, projFold_append]
      apply projFold_memo_mono
      rw [projFold_append]
      rw [show projFold env m lof r sc [e] (projFold env m lof r sc pre ([], []))
          = (((projFold env m lof r sc pre ([], [])).1
                ++ [(to_dict_one env m e lof r sc
                      (projFold env m lof r sc pre ([], [])).2).1]),
             (to_dict_one env m e lof r sc
                (projFold env m lof r sc pre ([], [])).2).2) from rfl]
      exact to_dict_one_memo_mem env m e lof r sc _
    have hcontains : st1.2.contains (e'.model, e'.eid) = true :=
      List.elem_eq_true_of_mem hmem
    rw [show projFold env m lof r sc [e'] st1
        = (st1.1 ++ [(to_dict_one env m e' lof r sc st1.2).1],
           (to_dict_one env m e' lof r sc st1.2).2) from rfl]
    rw [to_dict_one_memo_hit env m e' lof r sc st1.2 hcontains]
    have hlen1 : st1.1.length = pre.length + 1 + mid.length := by
      rw [hst1, projFold_fst_length]
      simp
      omega
    rw [pyListGet, ← hlen1]
    exact List.getElem?_concat_length st1.1 _

/-- Witness for C9's amended theorem at the pair fixture: projecting
`[A, B, A]` renders the later duplicate of A as the stub. -/
theorem plural_memo_shared_witness :
    pyListGet (to_dict fixPairEnv fixPairModel [fixA, fixB, fixA]
        Option.none true true []).1 2
      = some (.dict [("id", .int 1), ("name", .str "A")]) := by
  have h := (plural_memo_shared fixPairEnv fixPairModel Option.none true true
    [] [fixB] fixA fixA rfl rfl).2
  simpa using h

/-! ## Shared lemmas about dict keys and the projector's key flow -/

theorem ahas_iff_mem {α : Type} (d : List (String × α)) (k : String) :
    ahas d k = true ↔ k ∈ akeys d := by
  unfold ahas akeys
  constructor
  · intro h
    rcases List.any_eq_true.mp h with ⟨p, hp, he⟩
    simp only [beq_iff_eq] at he
    rw [← he]
    exact List.mem_map_of_mem _ hp
  · intro h
    rcases List.mem_map.mp h with ⟨p, hp, he⟩
    exact List.any_eq_true.mpr ⟨p, hp, by simpa using he⟩

theorem akeys_aset {α : Type} (d : List (String × α)) (k : String) (v : α) :
    akeys (aset d k v) = if ahas d k then akeys d else akeys d ++ [k] := by
  unfold aset
  by_cases h : ahas d k = true
  · rw [if_pos h, if_pos h]
    unfold akeys
    rw [List.map_map]
    apply List.map_congr_left
    intro p _
    by_cases hp : (p.1 == k) = true
    · simp only [Function.comp_apply, if_pos hp]
      exact (beq_iff_eq.mp hp).symm
    · simp only [Function.comp_apply, if_neg hp]
  · rw [if_neg h, if_neg h]
    simp [akeys]

theorem mem_akeys_aset {α : Type} (d : List (String × α)) (k a : String) (v : α)
    (h : a ∈ akeys (aset d k v)) : a = k ∨ a ∈ akeys d := by
  rw [akeys_aset] at h
  split at h
  · exact Or.inr h
  · rcases List.mem_append.mp h with h1 | h2
    · exact Or.inr h1
    · simp at h2
      exact Or.inl h2

theorem mem_akeys_aerase {α : Type} (d : List (String × α)) (k a : String)
    (h : a ∈ akeys (aerase d k)) : a ∈ akeys d := by
  unfold aerase akeys at h
  rcases List.mem_map.mp h with ⟨p, hp, he⟩
  exact he ▸ List.mem_map_of_mem _ (List.mem_of_mem_filter hp)

theorem mem_akeys_aupdate {α : Type} (d s : List (String × α)) (a : String)
    (h : a ∈ akeys (aupdate d s)) : a ∈ akeys d ∨ a ∈ akeys s := by
  induction s generalizing d with
  | nil => exact Or.inl h
  | cons p s ih =>
      rw [show aupdate d (p :: s) = aupdate (aset d p.1 p.2) s from rfl] at h
      rcases ih _ h with h1 | h2
      · rcases mem_akeys_aset d p.1 a p.2 h1 with he | hd
        · exact Or.inr (by simp [akeys, he])
        · exact Or.inl hd
      · exact Or.inr (by simp [akeys] at h2 ⊢; exact Or.inr h2)

theorem fieldGet_mem (m : Model) (k : String) (f : FieldDef)
    (h : m.fieldGet k = some f) : f ∈ m.fields ∧ f.name = k := by
  refine ⟨List.mem_of_find?_eq_some h, ?_⟩
  have := List.find?_some h
  simpa using this

/-- Keys added by emitting a single field: the field name, and its count key
when the field is registered with a to-many type. -/
theorem mem_akeys_emitField (env : Env) (m : Model) (e : Entity) (r : Bool)
    (res : List (String × PyVal)) (nm a : String)
    (h : a ∈ akeys (emitField env m e r res nm)) :
    a ∈ akeys res ∨ a = nm
      ∨ (∃ f, m.fieldGet nm = some f ∧ f.ftype.isX2Many = true ∧ a = nm ++ "_count") := by
  unfold emitField at h
  rcases hf : m.fieldGet nm with _ | f
  · rw [hf] at h; exact Or.inl h
  · rw [hf] at h
    simp only at h
    rcases hmain : (if f.comodel == "ir.attachment" && f.ftype.isX2Many then
        match entRead e f with
        | .rel ids => (ids.mapM (attStub env)).map PyVal.list
        | .v _ => Option.none
      else fmt_value env r (entRead e f) f) with _ | v
    · rw [hmain] at h
      simp only at h
      rcases hx2 : f.ftype.isX2Many with _ | _
      · rw [hx2] at h
        simp only [Bool.false_eq_true, if_false] at h
        rcases mem_akeys_aset _ _ _ _ h with h1 | h2
        · exact Or.inr (Or.inl h1)
        · exact Or.inl h2
      · rw [hx2] at h
        simp only [if_true] at h
        rcases mem_akeys_aset _ _ _ _ h with h1 | h2
        · exact Or.inr (Or.inr ⟨f, rfl, hx2, h1⟩)
        · rcases mem_akeys_aset _ _ _ _ h2 with h3 | h4
          · exact Or.inr (Or.inl h3)
          · exact Or.inl h4
    · rw [hmain] at h
      simp only at h
      rcases hx2 : f.ftype.isX2Many with _ | _
      · rw [hx2] at h
        simp only [Bool.false_eq_true, if_false] at h
        rcases mem_akeys_aset _ _ _ _ h with h1 | h2
        · exact Or.inr (Or.inl h1)
        · exact Or.inl h2
      · rw [hx2] at h
        simp only [if_true] at h
        rcases hread : entRead e f with x | ids
        · rw [hread] at h
          rcases mem_akeys_aset _ _ _ _ h with h1 | h2
          · exact Or.inr (Or.inl h1)
          · exact Or.inl h2
        · rw [hread] at h
          rcases mem_akeys_aset _ _ _ _ h with h1 | h2
          · exact Or.inr (Or.inr ⟨f, rfl, hx2, h1⟩)
          · rcases mem_akeys_aset _ _ _ _ h2 with h3 | h4
            · exact Or.inr (Or.inl h3)
            · exact Or.inl h4

/-- Keys of the emission loop's result: initial keys, plus per emitted target
its name and possibly its count key; emitted targets are registered and pass
the suppression filter. -/
theorem mem_akeys_emitLoop (env : Env) (m : Model) (e : Entity) (r sc : Bool)
    (targets : List String) (res : List (String × PyVal)) (a : String)
    (h : a ∈ akeys (emitLoop env m e r sc targets res)) :
    a ∈ akeys res
      ∨ ∃ nm ∈ targets, m.fieldHas nm = true
          ∧ ¬(sc = true ∧ nm ∈ fields_not_display)
          ∧ (a = nm ∨ ∃ f, m.fieldGet nm = some f ∧ f.ftype.isX2Many = true
              ∧ a = nm ++ "_count") := by
  induction targets generalizing res with
  | nil => exact Or.inl h
  | cons nm ns ih =>
      unfold emitLoop at h
      rcases hreg : m.fieldHas nm with _ | _
      · rw [hreg] at h
        simp only [Bool.not_false, if_true] at h
        rcases ih res h with h1 | ⟨nm', hmem, hrest⟩
        · exact Or.inl h1
        · exact Or.inr ⟨nm', List.mem_cons_of_mem _ hmem, hrest⟩
      · rw [hreg] at h
        simp only [Bool.not_true, Bool.false_eq_true, if_false] at h
        rcases hskip : (sc && fields_not_display.contains nm) with _ | _
        · rw [hskip] at h
          simp only [Bool.false_eq_true, if_false] at h
          rcases ih _ h with h1 | ⟨nm', hmem, hrest⟩
          · rcases mem_akeys_emitField env m e r res nm a h1 with h2 | h3 | h4
            · exact Or.inl h2
            · refine Or.inr ⟨nm, List.mem_cons_self _ _, hreg, ?_, Or.inl h3⟩
              intro hcontra
              obtain ⟨hsc, hnm⟩ := hcontra
              rw [hsc] at hskip
              simp only [Bool.true_and] at hskip
              exact absurd hnm (by simpa using hskip)
            · refine Or.inr ⟨nm, List.mem_cons_self _ _, hreg, ?_, Or.inr h4⟩
              intro hcontra
              obtain ⟨hsc, hnm⟩ := hcontra
              rw [hsc] at hskip
              simp only [Bool.true_and] at hskip
              exact absurd hnm (by simpa using hskip)
          · exact Or.inr ⟨nm', List.mem_cons_of_mem _ hmem, hrest⟩
        · rw [hskip] at h
          simp only [if_true] at h
          rcases ih res h with h1 | ⟨nm', hmem, hrest⟩
          · exact Or.inl h1
          · exact Or.inr ⟨nm', List.mem_cons_of_mem _ hmem, hrest⟩

/-- Keys-flow of one pop-and-move step of the id/name front pass. -/
theorem popStep_keys (st : List (String × PyVal) × List (String × PyVal)) (k a : String) :
    (a ∈ akeys (if ahas st.2 k then (aset st.1 k (agetD st.2 k .none), aerase st.2 k)
                else st).1
      → a ∈ akeys st.1 ∨ a ∈ akeys st.2)
    ∧ (a ∈ akeys (if ahas st.2 k then (aset st.1 k (agetD st.2 k .none), aerase st.2 k)
                  else st).2
      → a ∈ akeys st.2) := by
  by_cases h : ahas st.2 k = true
  · rw [if_pos h]
    constructor
    · intro ha
      rcases mem_akeys_aset _ _ _ _ ha with h1 | h2
      · exact Or.inr (h1 ▸ (ahas_iff_mem _ _).mp h)
      · exact Or.inl h2
    · intro ha
      exact mem_akeys_aerase _ _ _ ha
  · rw [if_neg h]
    exact ⟨fun ha => Or.inl ha, fun ha => ha⟩

/-- Keys-flow of the id/name front pass. -/
theorem popIdName_keys (st : List (String × PyVal) × List (String × PyVal)) (a : String) :
    (a ∈ akeys (popIdName st).1 → a ∈ akeys st.1 ∨ a ∈ akeys st.2)
    ∧ (a ∈ akeys (popIdName st).2 → a ∈ akeys st.2) := by
  unfold popIdName
  simp only [List.foldl]
  constructor
  · intro h
    rcases (popStep_keys _ "name" a).1 h with h1 | h2
    · rcases (popStep_keys st "id" a).1 h1 with h3 | h4
      · exact Or.inl h3
      · exact Or.inr h4
    · exact Or.inr ((popStep_keys st "id" a).2 h2)
  · intro h
    exact (popStep_keys st "id" a).2 ((popStep_keys _ "name" a).2 h)

/-- Keys-flow of the per-type move pass. -/
theorem moveKeys_keys (m : Model) (t : FType) (ks : List String)
    (st : List (String × PyVal) × List (String × PyVal)) (a : String) :
    (a ∈ akeys (moveKeys m t ks st).1 → a ∈ akeys st.1 ∨ a ∈ akeys st.2)
    ∧ (a ∈ akeys (moveKeys m t ks st).2 → a ∈ akeys st.2) := by
  induction ks generalizing st with
  | nil => exact ⟨fun h => Or.inl h, fun h => h⟩
  | cons k ks ih =>
      unfold moveKeys
      rcases hf : m.fieldGet k with _ | f
      · exact ih st
      · simp only
        by_cases hty : f.ftype = t
        · rw [if_pos hty]
          rcases hget : aget st.2 k with _ | v
          · exact ih st
          · simp only
            have hkmem : k ∈ akeys st.2 := by
              unfold aget at hget
              rcases hfind : List.find? (fun p => p.1 == k) st.2 with _ | p
              · rw [hfind] at hget; simp at hget
              · have hpmem := List.mem_of_find?_eq_some hfind
                have hpk := List.find?_some hfind
                simp only [beq_iff_eq] at hpk
                unfold akeys
                rw [← hpk]
                exact List.mem_map_of_mem _ hpmem
            rcases hx2 : f.ftype.isX2Many with _ | _
            · simp only [Bool.false_eq_true, if_false]
              constructor
              · intro h
                rcases (ih _).1 h with h1 | h2
                · rcases mem_akeys_aset _ _ _ _ h1 with h3 | h4
                  · exact Or.inr (h3 ▸ hkmem)
                  · exact Or.inl h4
                · exact Or.inr (mem_akeys_aerase _ _ _ h2)
              · intro h
                exact mem_akeys_aerase _ _ _ ((ih _).2 h)
            · simp only [if_true]
              by_cases hck : ahas (aerase st.2 k) (k ++ "_count") = true
              · rw [if_pos hck]
                constructor
                · intro h
                  rcases (ih _).1 h with h1 | h2
                  · rcases mem_akeys_aset _ _ _ _ h1 with h3 | h4
                    · exact Or.inr (mem_akeys_aerase _ _ _
                        (h3 ▸ (ahas_iff_mem _ _).mp hck))
                    · rcases mem_akeys_aset _ _ _ _ h4 with h5 | h6
                      · exact Or.inr (h5 ▸ hkmem)
                      · exact Or.inl h6
                  · exact Or.inr (mem_akeys_aerase _ _ _ (mem_akeys_aerase _ _ _ h2))
                · intro h
                  exact mem_akeys_aerase _ _ _ (mem_akeys_aerase _ _ _ ((ih _).2 h))
              · rw [if_neg hck]
                constructor
                · intro h
                  rcases (ih _).1 h with h1 | h2
                  · rcases mem_akeys_aset _ _ _ _ h1 with h3 | h4
                    · exact Or.inr (h3 ▸ hkmem)
                    · exact Or.inl h4
                  · exact Or.inr (mem_akeys_aerase _ _ _ h2)
                · intro h
                  exact mem_akeys_aerase _ _ _ ((ih _).2 h)
        · rw [if_neg hty]
          exact ih st

/-- Keys-flow of the full type-priority reorder. -/
theorem orderLoop_keys (m : Model) (ts : List FType)
    (st : List (String × PyVal) × List (String × PyVal)) (a : String) :
    (a ∈ akeys (orderLoop m ts st).1 → a ∈ akeys st.1 ∨ a ∈ akeys st.2)
    ∧ (a ∈ akeys (orderLoop m ts st).2 → a ∈ akeys st.2) := by
  induction ts generalizing st with
  | nil => exact ⟨fun h => Or.inl h, fun h => h⟩
  | cons t ts ih =>
      unfold orderLoop
      constructor
      · intro h
        rcases (ih _).1 h with h1 | h2
        · rcases (moveKeys_keys m t (akeys st.2) st a).1 h1 with h3 | h4
          · exact Or.inl h3
          · exact Or.inr h4
        · exact Or.inr ((moveKeys_keys m t (akeys st.2) st a).2 h2)
      · intro h
        exact (moveKeys_keys m t (akeys st.2) st a).2 ((ih _).2 h)

/-- No noise-set name equals `id` or `name` (checked over the concrete set). -/
theorem fields_not_display_not_idname :
    fields_not_display.all (fun x => !(x == "id" || x == "name")) = true := rfl

/-- C8: with suppression enabled, a field of the fixed noise set never appears
among the projection's keys, even when it is explicitly named in the
caller-supplied field filter — provided no registered to-many field's count
key collides with that name (count keys are the only other key source). -/
theorem noise_fields_never_emitted (env : Env) (m : Model) (e : Entity)
    (lof : Option (List String)) (r : Bool) (memo : List (String × Nat)) (n : String)
    (hn : n ∈ fields_not_display)
    (hcount : ∀ f ∈ m.fields, f.ftype.isX2Many = true → ¬(f.name ++ "_count" = n)) :
    ¬(n ∈ pyDictKeys (to_dict_one env m e lof r true memo).1) := by
  intro hmem
  have hidname := List.all_eq_true.mp fields_not_display_not_idname n hn
  simp only [Bool.or_eq_true, beq_iff_eq, Bool.not_eq_true'] at hidname
  rw [Bool.or_eq_false_iff] at hidname
  have hnid : ¬(n = "id") := by
    intro h; rw [h] at hidname; simp at hidname
  have hnname : ¬(n = "name") := by
    intro h; rw [h] at hidname; simp at hidname
  by_cases hhit : (e.model, e.eid) ∈ memo
  · rw [show to_dict_one env m e lof r true memo
        = (.dict [("id", .int e.eid), ("name", .str e.displayName)], memo)
      from to_dict_one_memo_hit env m e lof r true memo (List.elem_eq_true_of_mem hhit)]
      at hmem
    simp [pyDictKeys, akeys] at hmem
    rcases hmem with h | h
    · exact hnid h
    · exact hnname h
  · rw [show (to_dict_one env m e lof r true memo).1
        = .dict (aupdate
            (aset (orderLoop m FIELD_ORDER
              (popIdName ([], emitLoop env m e r true (targetNames m lof) []))).1 "name"
              (.str e.displayName))
            (orderLoop m FIELD_ORDER
              (popIdName ([], emitLoop env m e r true (targetNames m lof) []))).2)
      from by simp [to_dict_one, hhit]] at hmem
    simp only [pyDictKeys] at hmem
    set st := popIdName ([], emitLoop env m e r true (targetNames m lof) []) with hst
    have hres : ∀ b, b ∈ akeys (emitLoop env m e r true (targetNames m lof) []) → ¬(b = n) := by
      intro b hb hbn
      rcases mem_akeys_emitLoop env m e r true (targetNames m lof) [] b hb with h1 | h1
      · simp [akeys] at h1
      · rcases h1 with ⟨nm, _, hreg, hnoise, hform⟩
        rcases hform with hfo | ⟨f, hfg, hx2, hfo⟩
        · exact hnoise ⟨rfl, by rw [← hfo, hbn]; exact hn⟩
        · rcases fieldGet_mem m nm f hfg with ⟨hfmem, hfname⟩
          exact hcount f hfmem hx2 (by rw [hfname, ← hfo, hbn])
    rcases mem_akeys_aupdate _ _ _ hmem with h1 | h2
    · rcases mem_akeys_aset _ _ _ _ h1 with h3 | h4
      · exact hnname h3
      · rcases (orderLoop_keys m FIELD_ORDER st n).1 h4 with h5 | h6
        · rcases (popIdName_keys _ n).1 h5 with h7 | h8
          · simp [akeys] at h7
          · exact hres n h8 rfl
        · exact hres n ((popIdName_keys _ n).2 h6) rfl
    · exact hres n ((popIdName_keys _ n).2 ((orderLoop_keys m FIELD_ORDER st n).2 h2)) rfl

/-- Witness for C8: `activity_ids` explicitly requested in the field filter
never appears in the projected keys of the pair fixture. -/
theorem noise_fields_never_emitted_witness :
    ¬("activity_ids" ∈ pyDictKeys
        (to_dict_one fixPairEnv fixPairModel fixA (some ["name", "activity_ids"])
          true true []).1) :=
  noise_fields_never_emitted fixPairEnv fixPairModel fixA (some ["name", "activity_ids"])
    true [] "activity_ids" (by simp [fields_not_display])
    (by intro f hf _; fin_cases hf <;> simp)

/-! ## Shared lemmas: emission produces a block list (phase A of the ordering
proof) -/

theorem akeys_append {α : Type} (d1 d2 : List (String × α)) :
    akeys (d1 ++ d2) = akeys d1 ++ akeys d2 :=
  List.map_append _ _ _

theorem aset_fresh {α : Type} (d : List (String × α)) (k : String) (v : α)
    (h : ahas d k = false) : aset d k v = d ++ [(k, v)] := by
  unfold aset
  rw [h]
  simp

theorem ahas_false_iff {α : Type} (d : List (String × α)) (k : String) :
    ahas d k = false ↔ ¬(k ∈ akeys d) := by
  rw [← ahas_iff_mem]
  cases h : ahas d k <;> simp [h]

theorem fieldHas_eq_isSome (m : Model) (nm : String) :
    m.fieldHas nm = (m.fieldGet nm).isSome := by
  unfold Model.fieldHas Model.fieldGet
  cases hs : (m.fields.find? (fun f => f.name == nm)).isSome with
  | false =>
      rw [Bool.eq_false_iff]
      intro hc
      rcases List.any_eq_true.mp hc with ⟨f, hfm, hp⟩
      have hsome : (m.fields.find? (fun f => f.name == nm)).isSome :=
        List.find?_isSome.mpr ⟨f, hfm, hp⟩
      rw [hs] at hsome
      exact absurd hsome (by simp)
  | true =>
      rcases Option.isSome_iff_exists.mp hs with ⟨f, hfind⟩
      have hp := List.find?_some hfind
      exact List.any_eq_true.mpr ⟨f, List.mem_of_find?_eq_some hfind, hp⟩

theorem entRead_x2m (e : Entity) (f : FieldDef) (h : f.ftype.isX2Many = true) :
    entRead e f
      = .rel (((e.rels.find? (fun p => p.1 == f.name)).map (fun p => p.2)).getD []) := by
  cases hft : f.ftype
  case many2many => simp [entRead, hft]
  case one2many => simp [entRead, hft]
  all_goals (rw [hft] at h; simp [FType.isX2Many] at h)

/-- One registered field's emission, written with `emitVal`/`emitCnt`. -/
theorem emitField_eq (env : Env) (m : Model) (e : Entity) (r : Bool)
    (res : List (String × PyVal)) (nm : String) (f : FieldDef)
    (hf : m.fieldGet nm = some f) :
    emitField env m e r res nm
      = if f.ftype.isX2Many then
          aset (aset res nm (emitVal env e r f)) (nm ++ "_count") (emitCnt env e r f)
        else aset res nm (emitVal env e r f) := by
  unfold emitField
  rw [hf]
  simp only
  rw [show (if f.comodel == "ir.attachment" && f.ftype.isX2Many then
        match entRead e f with
        | .rel ids => (ids.mapM (attStub env)).map PyVal.list
        | .v _ => Option.none
      else fmt_value env r (entRead e f) f) = mainOpt env e r f from rfl]
  cases hm : mainOpt env e r f with
  | none =>
      simp only
      have hv : emitVal env e r f = fmtFalsy f := by simp [emitVal, hm]
      by_cases hx2 : f.ftype.isX2Many = true
      · have hc : emitCnt env e r f = .int 0 := by simp [emitCnt, hm]
        simp [hx2, hv, hc]
      · rw [Bool.not_eq_true] at hx2
        simp [hx2, hv]
  | some v =>
      simp only
      have hv : emitVal env e r f = v := by simp [emitVal, hm]
      by_cases hx2 : f.ftype.isX2Many = true
      · rw [entRead_x2m e f hx2]
        have hc : emitCnt env e r f
            = .int (((e.rels.find? (fun p => p.1 == f.name)).map
                (fun p => p.2)).getD []).length := by
          simp [emitCnt, hm, entRead_x2m e f hx2]
        simp [hx2, hv, hc]
      · rw [Bool.not_eq_true] at hx2
        simp [hx2, hv]

/-- Phase A: under key freshness, the emission loop appends exactly the block
list of the emitted targets. -/
theorem emitLoop_blocks (env : Env) (m : Model) (e : Entity) (r sc : Bool)
    (targets : List String) (res₀ : List (String × PyVal))
    (hfresh : (akeys res₀ ++ akeys (blocksOf (emitBlocks env m e r sc targets))).Nodup) :
    emitLoop env m e r sc targets res₀
      = res₀ ++ blocksOf (emitBlocks env m e r sc targets) := by
  induction targets generalizing res₀ with
  | nil => simp [emitLoop, blocksOf, emitBlocks]
  | cons nm ns ih =>
      unfold emitLoop
      cases hf : m.fieldGet nm with
      | none =>
          have hreg : m.fieldHas nm = false := by rw [fieldHas_eq_isSome, hf]; rfl
          rw [hreg]
          simp only [Bool.not_false, if_true]
          rw [show emitBlocks env m e r sc (nm :: ns) = emitBlocks env m e r sc ns from by
            simp [emitBlocks, hf]]
            at hfresh ⊢
          exact ih res₀ hfresh
      | some f =>
          have hreg : m.fieldHas nm = true := by rw [fieldHas_eq_isSome, hf]; rfl
          rw [hreg]
          simp only [Bool.not_true, Bool.false_eq_true, if_false]
          cases hskip : (sc && fields_not_display.contains nm) with
          | true =>
              rw [show emitBlocks env m e r sc (nm :: ns) = emitBlocks env m e r sc ns from by
                simp only [emitBlocks, List.filterMap_cons, hf]
                rw [if_pos hskip]]
                at hfresh ⊢
              simp only [if_true]
              exact ih res₀ hfresh
          | false =>
              simp only [Bool.false_eq_true, if_false]
              have hname : f.name = nm := (fieldGet_mem m nm f hf).2
              rw [emitField_eq env m e r res₀ nm f hf]
              by_cases hx2 : f.ftype.isX2Many = true
              · have hblocks : emitBlocks env m e r sc (nm :: ns)
                    = ⟨f, emitVal env e r f, some (emitCnt env e r f)⟩
                      :: emitBlocks env m e r sc ns := by
                  simp only [emitBlocks, List.filterMap_cons, hf]
                  rw [if_neg (by rw [hskip]; simp), if_pos hx2]
                have hpairs : blocksOf (emitBlocks env m e r sc (nm :: ns))
                    = [(nm, emitVal env e r f), (nm ++ "_count", emitCnt env e r f)]
                      ++ blocksOf (emitBlocks env m e r sc ns) := by
                  rw [hblocks]
                  simp [blocksOf, blockPairs, hname]
                rw [hpairs] at hfresh ⊢
                rw [if_pos hx2]
                rw [akeys_append] at hfresh
                have hnd := List.nodup_append.mp hfresh
                have hnm_fresh : ahas res₀ nm = false := by
                  rw [ahas_false_iff]
                  intro hc
                  exact hnd.2.2 hc (by simp [akeys])
                have hck_fresh : ahas (res₀ ++ [(nm, emitVal env e r f)])
                    (nm ++ "_count") = false := by
                  rw [ahas_false_iff, akeys_append]
                  intro hc
                  rcases List.mem_append.mp hc with h1 | h2
                  · exact hnd.2.2 h1 (by simp [akeys])
                  · simp [akeys] at h2
                    have hlen : (nm ++ "_count").length = nm.length := by rw [h2]
                    rw [String.length_append] at hlen
                    have h6 : "_count".length = 6 := rfl
                    rw [h6] at hlen
                    omega
                rw [aset_fresh res₀ nm _ hnm_fresh, aset_fresh _ _ _ hck_fresh]
                have hih := ih (res₀ ++ [(nm, emitVal env e r f)]
                    ++ [(nm ++ "_count", emitCnt env e r f)]) (by
                  rw [akeys_append, akeys_append]
                  rw [show akeys res₀ ++ akeys [(nm, emitVal env e r f)]
                        ++ akeys [(nm ++ "_count", emitCnt env e r f)]
                        ++ akeys (blocksOf (emitBlocks env m e r sc ns))
                      = akeys res₀
                        ++ (akeys [(nm, emitVal env e r f),
                              (nm ++ "_count", emitCnt env e r f)]
                        ++ akeys (blocksOf (emitBlocks env m e r sc ns))) from by
                    simp [akeys]]
                  rw [← akeys_append]
                  exact hfresh)
                rw [hih]
                simp
              · rw [Bool.not_eq_true] at hx2
                have hblocks : emitBlocks env m e r sc (nm :: ns)
                    = ⟨f, emitVal env e r f, Option.none⟩
                      :: emitBlocks env m e r sc ns := by
                  simp only [emitBlocks, List.filterMap_cons, hf]
                  rw [if_neg (by rw [hskip]; simp), if_neg (by rw [hx2]; simp)]
                have hpairs : blocksOf (emitBlocks env m e r sc (nm :: ns))
                    = [(nm, emitVal env e r f)]
                      ++ blocksOf (emitBlocks env m e r sc ns) := by
                  rw [hblocks]
                  simp [blocksOf, blockPairs, hname]
                rw [hpairs] at hfresh ⊢
                rw [if_neg (by rw [hx2]; simp)]
                rw [akeys_append] at hfresh
                have hnd := List.nodup_append.mp hfresh
                have hnm_fresh : ahas res₀ nm = false := by
                  rw [ahas_false_iff]
                  intro hc
                  exact hnd.2.2 hc (by simp [akeys])
                rw [aset_fresh res₀ nm _ hnm_fresh]
                have hih := ih (res₀ ++ [(nm, emitVal env e r f)]) (by
                  rw [akeys_append]
                  rw [show akeys res₀ ++ akeys [(nm, emitVal env e r f)]
                        ++ akeys (blocksOf (emitBlocks env m e r sc ns))
                      = akeys res₀
                        ++ (akeys [(nm, emitVal env e r f)]
                        ++ akeys (blocksOf (emitBlocks env m e r sc ns))) from by
                    simp [akeys]]
                  rw [← akeys_append]
                  exact hfresh)
                rw [hih]
                simp

/-! ## Shared lemmas: pops and moves on block-structured dicts (phases B/C) -/

theorem aget_append {α : Type} (d1 d2 : List (String × α)) (k : String) :
    aget (d1 ++ d2) k = ((aget d1 k).or (aget d2 k)) := by
  unfold aget
  rw [List.find?_append]
  cases List.find? (fun p => p.1 == k) d1 <;> simp

theorem aget_eq_none {α : Type} (d : List (String × α)) (k : String)
    (h : ¬(k ∈ akeys d)) : aget d k = Option.none := by
  unfold aget
  rw [List.find?_eq_none.mpr]
  intro p hp
  intro hc
  simp only [beq_iff_eq] at hc
  exact h (hc ▸ List.mem_map_of_mem _ hp)

theorem ahas_eq_isSome {α : Type} (d : List (String × α)) (k : String) :
    ahas d k = (aget d k).isSome := by
  cases hs : (aget d k).isSome with
  | false =>
      rw [Bool.eq_false_iff]
      intro hc
      rcases (ahas_iff_mem d k).mp hc with hmem
      rcases List.mem_map.mp hmem with ⟨p, hp, he⟩
      have : (List.find? (fun p => p.1 == k) d).isSome :=
        List.find?_isSome.mpr ⟨p, hp, by simpa using he⟩
      unfold aget at hs
      rcases hfind : List.find? (fun p => p.1 == k) d with _ | q
      · rw [hfind] at this; simp at this
      · rw [hfind] at hs; simp at hs
  | true =>
      rcases Option.isSome_iff_exists.mp hs with ⟨v, hv⟩
      unfold aget at hv
      rcases hfind : List.find? (fun p => p.1 == k) d with _ | q
      · rw [hfind] at hv; simp at hv
      · have hq := List.find?_some hfind
        simp only [beq_iff_eq] at hq
        exact (ahas_iff_mem d k).mpr (hq ▸ List.mem_map_of_mem _ (List.mem_of_find?_eq_some hfind))

theorem aerase_of_not_mem {α : Type} (d : List (String × α)) (k : String)
    (h : ¬(k ∈ akeys d)) : aerase d k = d := by
  unfold aerase
  apply List.filter_eq_self.mpr
  intro p hp
  rw [Bool.not_eq_true', beq_eq_false_iff_ne]
  intro hc
  exact h (hc ▸ List.mem_map_of_mem _ hp)

theorem aerase_append {α : Type} (d1 d2 : List (String × α)) (k : String) :
    aerase (d1 ++ d2) k = aerase d1 k ++ aerase d2 k :=
  List.filter_append _ _

theorem blocksOf_append (L1 L2 : List EmitBlock) :
    blocksOf (L1 ++ L2) = blocksOf L1 ++ blocksOf L2 := by
  simp [blocksOf]

theorem blocksOf_cons (b : EmitBlock) (L : List EmitBlock) :
    blocksOf (b :: L) = blockPairs b ++ blocksOf L := by
  simp [blocksOf]

theorem blocksOf_sublist (L1 L2 : List EmitBlock) (h : List.Sublist L1 L2) :
    List.Sublist (blocksOf L1) (blocksOf L2) := by
  induction h with
  | slnil => simp [blocksOf]
  | cons b h ih =>
      rw [blocksOf_cons]
      exact ih.trans (List.sublist_append_right _ _)
  | cons₂ b h ih =>
      rw [blocksOf_cons, blocksOf_cons]
      exact List.Sublist.append_left ih _

theorem aupdate_fresh {α : Type} (d s : List (String × α))
    (h : (akeys d ++ akeys s).Nodup) : aupdate d s = d ++ s := by
  induction s generalizing d with
  | nil => simp [aupdate]
  | cons p s ih =>
      rw [show aupdate d (p :: s) = aupdate (aset d p.1 p.2) s from rfl]
      have hfresh : ahas d p.1 = false := by
        rw [ahas_false_iff]
        intro hc
        exact (List.nodup_append.mp h).2.2 hc (by simp [akeys])
      rw [aset_fresh d p.1 p.2 hfresh]
      rw [ih (d ++ [(p.1, p.2)]) (by
        rw [akeys_append]
        have heq : akeys d ++ akeys [(p.1, p.2)] ++ akeys s
            = akeys d ++ akeys ((p.1, p.2) :: s) := by simp [akeys]
        rw [heq]
        simpa [akeys] using h)]
      simp

theorem count_key_ne (s t : String) (hlen : t.length ≤ 5) : ¬(s ++ "_count" = t) := by
  intro h
  rw [← h, String.length_append] at hlen
  have h6 : "_count".length = 6 := rfl
  omega

theorem count_key_ne_self (s : String) : ¬(s ++ "_count" = s) := by
  intro h
  have hlen := congrArg String.length h
  rw [String.length_append] at hlen
  have h6 : "_count".length = 6 := rfl
  omega

/-- A block's name occurs among the flattened keys. -/
theorem name_mem_blocksOf (L : List EmitBlock) (b : EmitBlock) (hb : b ∈ L) :
    b.fd.name ∈ akeys (blocksOf L) := by
  unfold blocksOf akeys
  apply List.mem_map.mpr
  refine ⟨(b.fd.name, b.v), ?_, rfl⟩
  apply List.mem_flatten.mpr
  exact ⟨blockPairs b, List.mem_map_of_mem _ hb, by simp [blockPairs]⟩

/-- Looking up a block name in a flattened block list finds that block's
value (no earlier block carries the key: names are unique and count keys end
in `_count`). -/
theorem aget_blocks (L : List EmitBlock) (k : String)
    (hnd : (akeys (blocksOf L)).Nodup)
    (hkcnt : ∀ b ∈ L, ¬(b.fd.name ++ "_count" = k)) :
    aget (blocksOf L) k = (L.find? (fun b => b.fd.name == k)).map (fun b => b.v) := by
  induction L with
  | nil => simp [blocksOf, aget]
  | cons b L ih =>
      rw [blocksOf_cons, aget_append, List.find?_cons]
      cases hb : (b.fd.name == k) with
      | true =>
          simp only [beq_iff_eq] at hb
          have hgb : aget (blockPairs b) k = some b.v := by
            unfold blockPairs aget
            rw [List.find?_cons]
            simp [hb]
          rw [hgb]
          simp
      | false =>
          have hninb : aget (blockPairs b) k = Option.none := by
            apply aget_eq_none
            intro hc
            unfold blockPairs akeys at hc
            rcases hcnt : b.cnt with _ | c
            · rw [hcnt] at hc
              simp at hc
              exact absurd (beq_iff_eq.mpr hc.symm) (by simp [hb])
            · rw [hcnt] at hc
              simp at hc
              rcases hc with hc1 | hc2
              · exact absurd (beq_iff_eq.mpr hc1.symm) (by simp [hb])
              · exact hkcnt b (by simp) hc2.symm
          rw [hninb]
          simp only [Option.or]
          rw [blocksOf_cons, akeys_append] at hnd
          exact ih (List.nodup_append.mp hnd).2.1
            (fun b2 hb2 => hkcnt b2 (List.mem_cons_of_mem _ hb2))

/-- Erasing a block name (whose block has no count part) from a flattened
block list removes exactly that block. -/
theorem aerase_blocks (L : List EmitBlock) (k : String)
    (hnd : (akeys (blocksOf L)).Nodup)
    (hkcnt : ∀ b ∈ L, ¬(b.fd.name ++ "_count" = k))
    (hcnone : ∀ b ∈ L, b.fd.name = k → b.cnt = Option.none) :
    aerase (blocksOf L) k = blocksOf (L.filter (fun b => !(b.fd.name == k))) := by
  induction L with
  | nil => simp [blocksOf, aerase]
  | cons b L ih =>
      rw [blocksOf_cons, aerase_append, List.filter_cons]
      rw [blocksOf_cons, akeys_append] at hnd
      have hnd2 := List.nodup_append.mp hnd
      cases hb : (b.fd.name == k) with
      | true =>
          simp only [beq_iff_eq] at hb
          have hbp : blockPairs b = [(k, b.v)] := by
            unfold blockPairs
            rw [hcnone b (by simp) hb, hb]
          have he1 : aerase (blockPairs b) k = [] := by
            rw [hbp]
            simp [aerase]
          have hknotin : ¬(k ∈ akeys (blocksOf L)) := by
            intro hc
            exact hnd2.2.2 (by rw [hbp]; simp [akeys]) hc
          have hfilter : L.filter (fun b2 => !(b2.fd.name == k)) = L := by
            apply List.filter_eq_self.mpr
            intro b2 hb2
            rw [Bool.not_eq_true', beq_eq_false_iff_ne]
            intro hc
            exact hknotin (hc ▸ name_mem_blocksOf L b2 hb2)
          rw [he1, aerase_of_not_mem _ _ hknotin]
          simp only [Bool.not_true, Bool.false_eq_true, if_false]
          rw [hfilter]
          simp
      | false =>
          have hkeysb : ¬(k ∈ akeys (blockPairs b)) := by
            intro hc
            unfold blockPairs akeys at hc
            rcases hcnt : b.cnt with _ | c
            · rw [hcnt] at hc
              simp at hc
              exact absurd (beq_iff_eq.mpr hc.symm) (by simp [hb])
            · rw [hcnt] at hc
              simp at hc
              rcases hc with hc1 | hc2
              · exact absurd (beq_iff_eq.mpr hc1.symm) (by simp [hb])
              · exact hkcnt b (by simp) hc2.symm
          rw [aerase_of_not_mem _ _ hkeysb]
          simp only [Bool.not_false, if_true]
          rw [blocksOf_cons]
          rw [ih (List.nodup_append.mp hnd).2.1
            (fun b2 hb2 => hkcnt b2 (List.mem_cons_of_mem _ hb2))
            (fun b2 hb2 hn => hcnone b2 (List.mem_cons_of_mem _ hb2) hn)]

theorem akeys_blockPairs (b : EmitBlock) :
    akeys (blockPairs b)
      = b.fd.name :: (match b.cnt with
          | some _ => [b.fd.name ++ "_count"]
          | Option.none => []) := by
  rcases hc : b.cnt with _ | c <;> simp [blockPairs, akeys, hc]

/-- Phase C, inner loop: walking the snapshot of a block-structured `res`
moves exactly the blocks of the current type (name first, count right after),
in order, and leaves the rest. -/
theorem moveKeys_blocks (m : Model) (t : FType) (L : List EmitBlock) :
    ∀ (A : List EmitBlock) (O : List (String × PyVal)),
    (akeys (blocksOf (A ++ L))).Nodup →
    (∀ b ∈ A ++ L, blockWF m b) →
    (∀ k ∈ akeys (blocksOf (A ++ L)), ¬(k ∈ akeys O)) →
    moveKeys m t (akeys (blocksOf L)) (O, blocksOf (A ++ L))
      = (O ++ blocksOf (L.filter (fun b => decide (b.fd.ftype = t))),
         blocksOf (A ++ L.filter (fun b => !(decide (b.fd.ftype = t))))) := by
  induction L with
  | nil => intro A O _ _ _; simp [blocksOf, moveKeys]
  | cons b L ih =>
      intro A O hnd hwf hOfresh
      have hwfb : blockWF m b := hwf b (by simp)
      have hmemsplit : blocksOf (A ++ b :: L)
          = blocksOf A ++ (blockPairs b ++ blocksOf L) := by
        rw [blocksOf_append, blocksOf_cons]
      have hndsplit : (akeys (blocksOf A)
          ++ (akeys (blockPairs b) ++ akeys (blocksOf L))).Nodup := by
        rw [← akeys_append, ← akeys_append, ← hmemsplit]
        exact hnd
      have hnd1 := List.nodup_append.mp hndsplit
      have hnd2 := List.nodup_append.mp hnd1.2.1
      have hnameb : b.fd.name ∈ akeys (blockPairs b) := by
        rw [akeys_blockPairs]; simp
      have hknotA : ¬(b.fd.name ∈ akeys (blocksOf A)) := by
        intro hc
        exact hnd1.2.2 hc (List.mem_append.mpr (Or.inl hnameb))
      have hknotL : ¬(b.fd.name ∈ akeys (blocksOf L)) := by
        intro hc
        exact hnd2.2.2 hnameb hc
      have hgetb : aget (blocksOf (A ++ b :: L)) b.fd.name = some b.v := by
        rw [hmemsplit, aget_append, aget_eq_none _ _ hknotA]
        rw [aget_append]
        have : aget (blockPairs b) b.fd.name = some b.v := by
          unfold blockPairs aget
          rw [List.find?_cons]
          simp
        rw [this]
        rfl
      by_cases hft : b.fd.ftype = t
      · -- the block is moved
        rcases hcnt : b.cnt with _ | c
        · -- no count part (not a to-many field)
          have hx2 : b.fd.ftype.isX2Many = false := by
            have := hwfb.2.1
            rw [hcnt] at this
            simpa using this.symm
          have hsnap0 : akeys (blocksOf (b :: L)) = b.fd.name :: akeys (blocksOf L) := by
            rw [blocksOf_cons, akeys_append, akeys_blockPairs, hcnt]
            simp
          rw [hsnap0]
          unfold moveKeys
          rw [hwfb.1]
          simp only
          rw [if_pos hft, hgetb]
          simp only [hx2, Bool.false_eq_true, if_false]
          have herase : aerase (blocksOf (A ++ b :: L)) b.fd.name
              = blocksOf (A ++ L) := by
            rw [hmemsplit, aerase_append, aerase_append]
            rw [aerase_of_not_mem _ _ hknotA, aerase_of_not_mem _ _ hknotL]
            have : aerase (blockPairs b) b.fd.name = [] := by
              unfold blockPairs aerase
              rw [hcnt]
              simp
            rw [this, blocksOf_append]
            simp
          rw [herase]
          have hmemname : b.fd.name ∈ akeys (blocksOf (A ++ b :: L)) := by
            rw [hmemsplit, akeys_append, akeys_append]
            exact List.mem_append.mpr (Or.inr (List.mem_append.mpr (Or.inl hnameb)))
          have hOf : ahas O b.fd.name = false := by
            rw [ahas_false_iff]
            exact hOfresh b.fd.name hmemname
          rw [aset_fresh O _ _ hOf]
          have hsubnd : (akeys (blocksOf (A ++ L))).Nodup := by
            apply List.Nodup.sublist _ hnd
            apply List.Sublist.map
            rw [hmemsplit, blocksOf_append]
            exact List.Sublist.append_left (List.sublist_append_right _ _) _
          have hih := ih A (O ++ [(b.fd.name, b.v)]) hsubnd
            (fun b2 hb2 => hwf b2 (by
              rcases List.mem_append.mp hb2 with h1 | h2
              · exact List.mem_append.mpr (Or.inl h1)
              · exact List.mem_append.mpr (Or.inr (List.mem_cons_of_mem _ h2))))
            (fun k hk => by
              have hk2 : k ∈ akeys (blocksOf A) ∨ k ∈ akeys (blocksOf L) := by
                rw [blocksOf_append, akeys_append] at hk
                exact List.mem_append.mp hk
              have hkorig : k ∈ akeys (blocksOf (A ++ b :: L)) := by
                rw [hmemsplit, akeys_append, akeys_append]
                rcases hk2 with h3 | h4
                · exact List.mem_append.mpr (Or.inl h3)
                · exact List.mem_append.mpr (Or.inr (List.mem_append.mpr (Or.inr h4)))
              rw [akeys_append]
              intro hc
              rcases List.mem_append.mp hc with h1 | h2
              · exact hOfresh k hkorig h1
              · simp [akeys] at h2
                rcases hk2 with h3 | h4
                · exact hknotA (h2 ▸ h3)
                · exact hknotL (h2 ▸ h4))
          rw [hih]
          rw [List.filter_cons, List.filter_cons,
            if_pos (by simp [hft]), if_neg (by simp [hft])]
          rw [blocksOf_cons]
          have hbp1 : blockPairs b = [(b.fd.name, b.v)] := by
            unfold blockPairs
            rw [hcnt]
          rw [hbp1]
          simp
        · -- with a count part (a to-many field)
          have hx2 : b.fd.ftype.isX2Many = true := by
            have := hwfb.2.1
            rw [hcnt] at this
            simpa using this.symm
          have hsnap1 : akeys (blocksOf (b :: L))
              = b.fd.name :: (b.fd.name ++ "_count") :: akeys (blocksOf L) := by
            rw [blocksOf_cons, akeys_append, akeys_blockPairs, hcnt]
            simp
          rw [hsnap1]
          unfold moveKeys
          rw [hwfb.1]
          simp only
          rw [if_pos hft, hgetb]
          simp only [hx2, if_true]
          have hckPairs : b.fd.name ++ "_count" ∈ akeys (blockPairs b) := by
            rw [akeys_blockPairs, hcnt]
            simp
          have herase1 : aerase (blocksOf (A ++ b :: L)) b.fd.name
              = blocksOf A ++ ([(b.fd.name ++ "_count", c)] ++ blocksOf L) := by
            rw [hmemsplit, aerase_append, aerase_append]
            rw [aerase_of_not_mem _ _ hknotA, aerase_of_not_mem _ _ hknotL]
            have : aerase (blockPairs b) b.fd.name = [(b.fd.name ++ "_count", c)] := by
              unfold blockPairs aerase
              rw [hcnt]
              simp only [List.filter_cons]
              rw [if_neg (by simp), if_pos (by
                rw [Bool.not_eq_true', beq_eq_false_iff_ne]
                exact count_key_ne_self b.fd.name)]
              simp [List.filter]
            rw [this]
          rw [herase1]
          have hcknotA : ¬(b.fd.name ++ "_count" ∈ akeys (blocksOf A)) := by
            intro hc
            exact hnd1.2.2 hc (List.mem_append.mpr (Or.inl hckPairs))
          have hcknotL : ¬(b.fd.name ++ "_count" ∈ akeys (blocksOf L)) := by
            intro hc
            exact hnd2.2.2 hckPairs hc
          have hhasck : ahas (blocksOf A ++ ([(b.fd.name ++ "_count", c)] ++ blocksOf L))
              (b.fd.name ++ "_count") = true := by
            rw [ahas_iff_mem, akeys_append, akeys_append]
            exact List.mem_append.mpr (Or.inr (List.mem_append.mpr (Or.inl (by simp [akeys]))))
          rw [hhasck]
          simp only [if_true]
          have hgetck : agetD (blocksOf A ++ ([(b.fd.name ++ "_count", c)] ++ blocksOf L))
              (b.fd.name ++ "_count") PyVal.none = c := by
            unfold agetD
            rw [aget_append, aget_eq_none _ _ hcknotA, aget_append]
            have : aget [(b.fd.name ++ "_count", c)] (b.fd.name ++ "_count") = some c := by
              unfold aget
              rw [List.find?_cons]
              simp
            rw [this]
            rfl
          rw [hgetck]
          have herase2 : aerase (blocksOf A ++ ([(b.fd.name ++ "_count", c)] ++ blocksOf L))
              (b.fd.name ++ "_count") = blocksOf (A ++ L) := by
            rw [aerase_append, aerase_append]
            rw [aerase_of_not_mem _ _ hcknotA, aerase_of_not_mem _ _ hcknotL]
            have : aerase [(b.fd.name ++ "_count", c)] (b.fd.name ++ "_count") = [] := by
              simp [aerase]
            rw [this, blocksOf_append]
            simp
          rw [herase2]
          have hmemname : b.fd.name ∈ akeys (blocksOf (A ++ b :: L)) := by
            rw [hmemsplit, akeys_append, akeys_append]
            exact List.mem_append.mpr (Or.inr (List.mem_append.mpr (Or.inl hnameb)))
          have hOf : ahas O b.fd.name = false := by
            rw [ahas_false_iff]
            exact hOfresh b.fd.name hmemname
          rw [aset_fresh O _ _ hOf]
          have hOfck : ahas (O ++ [(b.fd.name, b.v)]) (b.fd.name ++ "_count") = false := by
            rw [ahas_false_iff, akeys_append]
            intro hc
            have hmemck : b.fd.name ++ "_count" ∈ akeys (blocksOf (A ++ b :: L)) := by
              rw [hmemsplit, akeys_append, akeys_append]
              exact List.mem_append.mpr (Or.inr (List.mem_append.mpr (Or.inl hckPairs)))
            rcases List.mem_append.mp hc with h1 | h2
            · exact hOfresh _ hmemck h1
            · simp [akeys] at h2
              exact count_key_ne_self b.fd.name h2
          rw [aset_fresh _ _ _ hOfck]
          -- the count key's snapshot entry is skipped: it is not a registry field
          unfold moveKeys
          rw [hwfb.2.2]
          simp only
          have hsubnd : (akeys (blocksOf (A ++ L))).Nodup := by
            apply List.Nodup.sublist _ hnd
            apply List.Sublist.map
            rw [hmemsplit, blocksOf_append]
            exact List.Sublist.append_left (List.sublist_append_right _ _) _
          have hih := ih A (O ++ [(b.fd.name, b.v)] ++ [(b.fd.name ++ "_count", c)]) hsubnd
            (fun b2 hb2 => hwf b2 (by
              rcases List.mem_append.mp hb2 with h1 | h2
              · exact List.mem_append.mpr (Or.inl h1)
              · exact List.mem_append.mpr (Or.inr (List.mem_cons_of_mem _ h2))))
            (fun k hk => by
              have hk2 : k ∈ akeys (blocksOf A) ∨ k ∈ akeys (blocksOf L) := by
                rw [blocksOf_append, akeys_append] at hk
                exact List.mem_append.mp hk
              have hkorig : k ∈ akeys (blocksOf (A ++ b :: L)) := by
                rw [hmemsplit, akeys_append, akeys_append]
                rcases hk2 with h3 | h4
                · exact List.mem_append.mpr (Or.inl h3)
                · exact List.mem_append.mpr (Or.inr (List.mem_append.mpr (Or.inr h4)))
              rw [akeys_append, akeys_append]
              intro hc
              rcases List.mem_append.mp hc with h12 | h2
              · rcases List.mem_append.mp h12 with h1 | h1b
                · exact hOfresh k hkorig h1
                · simp [akeys] at h1b
                  rcases hk2 with h3 | h4
                  · exact hknotA (h1b ▸ h3)
                  · exact hknotL (h1b ▸ h4)
              · simp [akeys] at h2
                rcases hk2 with h3 | h4
                · exact hcknotA (h2 ▸ h3)
                · exact hcknotL (h2 ▸ h4))
          rw [hih]
          rw [List.filter_cons, List.filter_cons,
            if_pos (by simp [hft]), if_neg (by simp [hft])]
          rw [blocksOf_cons]
          have hbp1 : blockPairs b = [(b.fd.name, b.v), (b.fd.name ++ "_count", c)] := by
            unfold blockPairs
            rw [hcnt]
          rw [hbp1]
          simp
      · -- the block is skipped (type mismatch)
        have hAsplit : A ++ b :: L = (A ++ [b]) ++ L := by simp
        have hihgoal := ih (A ++ [b]) O
          (by rw [← hAsplit]; exact hnd)
          (by rw [← hAsplit]; exact hwf)
          (by rw [← hAsplit]; exact hOfresh)
        rcases hcnt : b.cnt with _ | c
        · have hsnap0 : akeys (blocksOf (b :: L)) = b.fd.name :: akeys (blocksOf L) := by
            rw [blocksOf_cons, akeys_append, akeys_blockPairs, hcnt]
            simp
          rw [hsnap0]
          unfold moveKeys
          rw [hwfb.1]
          simp only
          rw [if_neg hft]
          rw [show blocksOf (A ++ b :: L) = blocksOf ((A ++ [b]) ++ L) from by
            rw [← hAsplit]]
          rw [hihgoal]
          rw [List.filter_cons, List.filter_cons,
            if_neg (show ¬(decide (b.fd.ftype = t) = true) from by simp [hft]),
            if_pos (show (!(decide (b.fd.ftype = t))) = true from by simp [hft])]
          simp
        · have hsnap1 : akeys (blocksOf (b :: L))
              = b.fd.name :: (b.fd.name ++ "_count") :: akeys (blocksOf L) := by
            rw [blocksOf_cons, akeys_append, akeys_blockPairs, hcnt]
            simp
          rw [hsnap1]
          unfold moveKeys
          rw [hwfb.1]
          simp only
          rw [if_neg hft]
          unfold moveKeys
          rw [hwfb.2.2]
          simp only
          rw [show blocksOf (A ++ b :: L) = blocksOf ((A ++ [b]) ++ L) from by
            rw [← hAsplit]]
          rw [hihgoal]
          rw [List.filter_cons, List.filter_cons,
            if_neg (show ¬(decide (b.fd.ftype = t) = true) from by simp [hft]),
            if_pos (show (!(decide (b.fd.ftype = t))) = true from by simp [hft])]
          simp

/-- A successful registry lookup returns a descriptor bearing the looked-up
name. -/
theorem fieldGet_name (m : Model) (k : String) (f : FieldDef)
    (h : m.fieldGet k = some f) : f.name = k := by
  unfold Model.fieldGet at h
  have hp := List.find?_some h
  simpa using hp

/-- Appending the `_count` suffix is injective. -/
theorem count_key_inj (s1 s2 : String) (h : s1 ++ "_count" = s2 ++ "_count") :
    s1 = s2 := by
  have hd : s1.data ++ "_count".data = s2.data ++ "_count".data := by
    have hx := congrArg String.data h
    simpa [String.data_append] using hx
  have hdd : s1.data = s2.data := List.append_cancel_right hd
  cases s1
  cases s2
  exact congrArg String.mk (by simpa using hdd)

/-- The keys of a flattened block list, block by block. -/
theorem akeys_blocksOf_flat (E : List EmitBlock) :
    akeys (blocksOf E) = E.flatMap (fun b => akeys (blockPairs b)) := by
  induction E with
  | nil => simp [blocksOf, akeys]
  | cons b E ih =>
      rw [blocksOf_cons, akeys_append, ih]
      simp

/-- Any key of a flattened block list is some block's name or its count key. -/
theorem mem_akeys_blocksOf (E : List EmitBlock) (a : String)
    (ha : a ∈ akeys (blocksOf E)) :
    ∃ b, b ∈ E ∧ (a = b.fd.name ∨ a = b.fd.name ++ "_count") := by
  rw [akeys_blocksOf_flat] at ha
  rcases List.mem_flatMap.mp ha with ⟨b, hb, hab⟩
  rw [akeys_blockPairs] at hab
  rcases hc : b.cnt with _ | c <;> rw [hc] at hab
  · simp at hab
    exact ⟨b, hb, Or.inl hab⟩
  · simp at hab
    rcases hab with h | h
    · exact ⟨b, hb, Or.inl h⟩
    · exact ⟨b, hb, Or.inr h⟩

/-- The names of the blocks emitted for a target list are exactly the emitted
names. -/
theorem emitBlocks_map_name (env : Env) (m : Model) (e : Entity) (r sc : Bool)
    (targets : List String) :
    (emitBlocks env m e r sc targets).map (fun b => b.fd.name)
      = emittedNames m sc targets := by
  induction targets with
  | nil => rfl
  | cons nm ns ih =>
      cases hf : m.fieldGet nm with
      | none =>
          have hreg : m.fieldHas nm = false := by
            rw [fieldHas_eq_isSome, hf]
            rfl
          rw [show emitBlocks env m e r sc (nm :: ns) = emitBlocks env m e r sc ns from by
            simp [emitBlocks, hf]]
          rw [show emittedNames m sc (nm :: ns) = emittedNames m sc ns from by
            simp [emittedNames, hreg]]
          exact ih
      | some f =>
          have hreg : m.fieldHas nm = true := by
            rw [fieldHas_eq_isSome, hf]
            rfl
          by_cases hskip : (sc && fields_not_display.contains nm) = true
          · have hsc : sc = true := by
              cases hs : sc
              · rw [hs, Bool.false_and] at hskip
                exact absurd hskip (by decide)
              · rfl
            have hmem : nm ∈ fields_not_display := by
              rw [hsc, Bool.true_and] at hskip
              exact List.mem_of_elem_eq_true hskip
            rw [show emitBlocks env m e r sc (nm :: ns) = emitBlocks env m e r sc ns from by
              simp [emitBlocks, hf, hsc, hmem]]
            rw [show emittedNames m sc (nm :: ns) = emittedNames m sc ns from by
              unfold emittedNames
              rw [List.filter_cons, if_neg (by rw [hskip]; simp)]]
            exact ih
          · have hskip2 : (sc && fields_not_display.contains nm) = false :=
              Bool.eq_false_iff.mpr hskip
            have hnot : ¬(sc = true ∧ nm ∈ fields_not_display) := by
              rintro ⟨h1, h2⟩
              apply hskip
              rw [h1, Bool.true_and]
              exact List.elem_eq_true_of_mem h2
            rw [show emitBlocks env m e r sc (nm :: ns)
                = (⟨f, emitVal env e r f,
                    if f.ftype.isX2Many then some (emitCnt env e r f)
                    else Option.none⟩ : EmitBlock) :: emitBlocks env m e r sc ns from by
              simp [emitBlocks, hf, hnot]]
            rw [show emittedNames m sc (nm :: ns) = nm :: emittedNames m sc ns from by
              unfold emittedNames
              rw [List.filter_cons, if_pos (by rw [hreg, hskip2]; rfl)]]
            rw [List.map_cons, ih]
            simp only
            rw [fieldGet_name m nm f hf]

/-- Every emitted block is well-formed when no registered field spells a
`_count` key. -/
theorem emitBlocks_wf (env : Env) (m : Model) (e : Entity) (r sc : Bool)
    (targets : List String)
    (hck : ∀ f ∈ m.fields, m.fieldHas (f.name ++ "_count") = false) :
    ∀ b ∈ emitBlocks env m e r sc targets, blockWF m b := by
  intro b hb
  unfold emitBlocks at hb
  rcases List.mem_filterMap.mp hb with ⟨nm, hnm, hg⟩
  cases hf : m.fieldGet nm with
  | none =>
      simp [hf] at hg
  | some f =>
      simp only [hf] at hg
      by_cases hskip : (sc && fields_not_display.contains nm) = true
      · rw [if_pos hskip] at hg
        simp at hg
      · rw [if_neg hskip] at hg
        have hname : f.name = nm := fieldGet_name m nm f hf
        have hmem : f ∈ m.fields := (fieldGet_mem m nm f hf).1
        have hcnt0 : m.fieldHas (f.name ++ "_count") = false := hck f hmem
        have hg2 : (⟨f, emitVal env e r f,
            if f.ftype.isX2Many then some (emitCnt env e r f)
            else Option.none⟩ : EmitBlock) = b := by
          exact Option.some.inj hg
        subst hg2
        refine ⟨?_, ?_, ?_⟩
        · simp only
          rw [hname, hf]
        · simp only
          cases hx : f.ftype.isX2Many <;> simp [hx]
        · simp only
          rw [fieldHas_eq_isSome] at hcnt0
          exact Option.not_isSome_iff_eq_none.mp (by simp [hcnt0])

/-- Distinct block names give distinct flattened keys (count keys cannot
collide with names: names are registered, count keys are not). -/
theorem akeys_blocksOf_nodup (m : Model) (E : List EmitBlock)
    (hwf : ∀ b ∈ E, blockWF m b)
    (hnd : (E.map (fun b => b.fd.name)).Nodup) :
    (akeys (blocksOf E)).Nodup := by
  induction E with
  | nil => simp [blocksOf, akeys]
  | cons b E ih =>
      rw [blocksOf_cons, akeys_append]
      rw [List.map_cons, List.nodup_cons] at hnd
      have hwfb := hwf b (by simp)
      have hwfE : ∀ b2 ∈ E, blockWF m b2 :=
        fun b2 hb2 => hwf b2 (List.mem_cons_of_mem _ hb2)
      apply List.nodup_append.mpr
      refine ⟨?_, ih hwfE hnd.2, ?_⟩
      · rw [akeys_blockPairs]
        rcases hc : b.cnt with _ | c
        · simp
        · simp only [List.nodup_cons, List.mem_singleton, List.nodup_singleton, and_true]
          exact ⟨fun hcc => count_key_ne_self b.fd.name hcc.symm, by simp, by simp⟩
      · intro a ha hamem
        rcases mem_akeys_blocksOf E a hamem with ⟨b2, hb2, hab2⟩
        have hwfb2 := hwfE b2 hb2
        have hb2name : b2.fd.name ∈ E.map (fun b => b.fd.name) :=
          List.mem_map_of_mem _ hb2
        rw [akeys_blockPairs] at ha
        rcases hc : b.cnt with _ | c <;> rw [hc] at ha
        · simp at ha
          rcases hab2 with h | h
          · exact hnd.1 (by rw [← ha, h]; exact hb2name)
          · have hsome : (m.fieldGet a).isSome = true := by
              rw [ha, hwfb.1]
              rfl
            rw [h, hwfb2.2.2] at hsome
            exact Bool.false_ne_true hsome
        · simp at ha
          rcases ha with ha | ha
          · rcases hab2 with h | h
            · exact hnd.1 (by rw [← ha, h]; exact hb2name)
            · have hsome : (m.fieldGet a).isSome = true := by
                rw [ha, hwfb.1]
                rfl
              rw [h, hwfb2.2.2] at hsome
              exact Bool.false_ne_true hsome
          · rcases hab2 with h | h
            · have hsome : (m.fieldGet a).isSome = true := by
                rw [h, hwfb2.1]
                rfl
              rw [ha, hwfb.2.2] at hsome
              exact Bool.false_ne_true hsome
            · have heq : b.fd.name = b2.fd.name :=
                count_key_inj _ _ (by rw [← ha, ← h])
              exact hnd.1 (by rw [heq]; exact hb2name)

/-- With distinct block names, finding a block by name makes the name filter a
singleton. -/
theorem filter_name_singleton (E : List EmitBlock) (k : String)
    (hnd : (E.map (fun b => b.fd.name)).Nodup)
    (b0 : EmitBlock) (hfind : E.find? (fun b => b.fd.name == k) = some b0) :
    E.filter (fun b => b.fd.name == k) = [b0] := by
  induction E with
  | nil => simp at hfind
  | cons b E ih =>
      rw [List.map_cons, List.nodup_cons] at hnd
      rw [List.find?_cons] at hfind
      rw [List.filter_cons]
      cases hb : (b.fd.name == k) with
      | true =>
          rw [hb] at hfind
          simp only at hfind
          have hb0 : b = b0 := Option.some.inj hfind
          rw [if_pos rfl]
          have hnone : E.filter (fun b => b.fd.name == k) = [] := by
            rw [List.filter_eq_nil_iff]
            intro b2 hb2 hc
            apply hnd.1
            have hk : b.fd.name = k := by simpa using hb
            have hk2 : b2.fd.name = k := by simpa using hc
            rw [hk, ← hk2]
            exact List.mem_map_of_mem _ hb2
          rw [hnone, hb0]
      | false =>
          rw [hb] at hfind
          simp only at hfind
          rw [if_neg (by simp)]
          exact ih hnd.2 hfind

/-- One pop-and-move step on a block-structured `res`: for a short key (no
`_count` key is that short) whose blocks carry no count part, the step moves
exactly the blocks of that name to the end of the ordered output. -/
theorem popStep_blocks (m : Model) (E : List EmitBlock) (k : String)
    (O : List (String × PyVal))
    (hlen : k.length ≤ 5)
    (hwf : ∀ b ∈ E, blockWF m b)
    (hndn : (E.map (fun b => b.fd.name)).Nodup)
    (hcnone : ∀ b ∈ E, b.fd.name = k → b.cnt = Option.none)
    (hOf : ahas O k = false) :
    (if ahas (blocksOf E) k then
      (aset O k (agetD (blocksOf E) k .none), aerase (blocksOf E) k)
     else (O, blocksOf E))
      = (O ++ blocksOf (E.filter (fun b => b.fd.name == k)),
         blocksOf (E.filter (fun b => !(b.fd.name == k)))) := by
  have hnd : (akeys (blocksOf E)).Nodup := akeys_blocksOf_nodup m E hwf hndn
  have hkcnt : ∀ b ∈ E, ¬(b.fd.name ++ "_count" = k) :=
    fun b _ => count_key_ne _ _ hlen
  by_cases hh : ahas (blocksOf E) k = true
  · rw [if_pos hh]
    have hget := aget_blocks E k hnd hkcnt
    have hsome : (aget (blocksOf E) k).isSome = true := by
      rw [← ahas_eq_isSome]
      exact hh
    rw [hget] at hsome
    rcases hfind : E.find? (fun b => b.fd.name == k) with _ | b0
    · rw [hfind] at hsome
      simp at hsome
    · have hb0E : b0 ∈ E := List.mem_of_find?_eq_some hfind
      have hb0k : b0.fd.name = k := by
        have := List.find?_some hfind
        simpa using this
      have hb0c : b0.cnt = Option.none := hcnone b0 hb0E hb0k
      have hgetv : aget (blocksOf E) k = some b0.v := by
        rw [hget, hfind]
        rfl
      have hgd : agetD (blocksOf E) k PyVal.none = b0.v := by
        unfold agetD
        rw [hgetv]
        rfl
      rw [hgd, aset_fresh O k b0.v hOf]
      have hfil : E.filter (fun b => b.fd.name == k) = [b0] :=
        filter_name_singleton E k hndn b0 hfind
      have hbp : blocksOf [b0] = [(k, b0.v)] := by
        unfold blocksOf blockPairs
        simp only [List.map_cons, List.map_nil, hb0c, hb0k]
        simp
      rw [hfil, hbp]
      have her := aerase_blocks E k hnd hkcnt hcnone
      rw [her]
  · rw [if_neg hh]
    have hno : ¬(k ∈ akeys (blocksOf E)) := by
      rw [← ahas_false_iff]
      exact Bool.eq_false_iff.mpr hh
    have hfil : E.filter (fun b => b.fd.name == k) = [] := by
      rw [List.filter_eq_nil_iff]
      intro b hb hc
      apply hno
      have hk : b.fd.name = k := by simpa using hc
      rw [← hk]
      exact name_mem_blocksOf E b hb
    have hfil2 : E.filter (fun b => !(b.fd.name == k)) = E := by
      rw [List.filter_eq_self]
      intro b hb
      rw [Bool.not_eq_true', beq_eq_false_iff_ne]
      intro hc
      apply hno
      rw [← hc]
      exact name_mem_blocksOf E b hb
    rw [hfil, hfil2]
    simp [blocksOf]

/-- The id/name front pass on a block-structured `res`: the `id` block (if
any) then the `name` block (if any) open the ordered output, the remaining
blocks stay. -/
theorem popIdName_blocks (m : Model) (E : List EmitBlock)
    (hwf : ∀ b ∈ E, blockWF m b)
    (hndn : (E.map (fun b => b.fd.name)).Nodup)
    (hidc : ∀ b ∈ E, b.fd.name = "id" → b.cnt = Option.none)
    (hnmc : ∀ b ∈ E, b.fd.name = "name" → b.cnt = Option.none) :
    popIdName ([], blocksOf E)
      = (blocksOf (E.filter (fun b => b.fd.name == "id"))
          ++ blocksOf (E.filter (fun b => b.fd.name == "name")),
         blocksOf (E.filter (fun b =>
           !(b.fd.name == "id") && !(b.fd.name == "name")))) := by
  have h1 := popStep_blocks m E "id" [] (by decide) hwf hndn hidc rfl
  have hpop : popIdName ([], blocksOf E)
      = (fun st : List (String × PyVal) × List (String × PyVal) =>
          if ahas st.2 "name" then
            (aset st.1 "name" (agetD st.2 "name" PyVal.none), aerase st.2 "name")
          else st)
        (if ahas (blocksOf E) "id" then
          (aset ([] : List (String × PyVal)) "id" (agetD (blocksOf E) "id" PyVal.none),
           aerase (blocksOf E) "id")
         else (([] : List (String × PyVal)), blocksOf E)) := rfl
  rw [hpop, h1]
  simp only [List.nil_append]
  have hwf1 : ∀ b ∈ E.filter (fun b => !(b.fd.name == "id")), blockWF m b :=
    fun b hb => hwf b (List.mem_of_mem_filter hb)
  have hndn1 : ((E.filter (fun b => !(b.fd.name == "id"))).map
      (fun b => b.fd.name)).Nodup :=
    List.Nodup.sublist (List.Sublist.map _ (List.filter_sublist E)) hndn
  have hnmc1 : ∀ b ∈ E.filter (fun b => !(b.fd.name == "id")),
      b.fd.name = "name" → b.cnt = Option.none :=
    fun b hb => hnmc b (List.mem_of_mem_filter hb)
  have hOf1 : ahas (blocksOf (E.filter (fun b => b.fd.name == "id"))) "name" = false := by
    rw [ahas_false_iff]
    intro hc
    rcases mem_akeys_blocksOf _ _ hc with ⟨b, hb, hab⟩
    have hbid : b.fd.name = "id" := by
      have := (List.mem_filter.mp hb).2
      simpa using this
    rcases hab with h | h
    · rw [hbid] at h
      exact absurd h (by decide)
    · exact count_key_ne b.fd.name "name" (by decide) h.symm
  have h2 := popStep_blocks m (E.filter (fun b => !(b.fd.name == "id"))) "name"
    (blocksOf (E.filter (fun b => b.fd.name == "id"))) (by decide)
    hwf1 hndn1 hnmc1 hOf1
  rw [h2]
  have hq1 : (E.filter (fun b => !(b.fd.name == "id"))).filter
      (fun b => b.fd.name == "name") = E.filter (fun b => b.fd.name == "name") := by
    rw [List.filter_filter]
    apply List.filter_congr
    intro b hb
    by_cases hbn : b.fd.name = "name"
    · have h1 : (b.fd.name == "name") = true := by simp [hbn]
      have h2 : (b.fd.name == "id") = false := by
        rw [hbn]
        decide
      rw [h1, h2]
      rfl
    · have h1 : (b.fd.name == "name") = false := by simp [hbn]
      rw [h1]
      rfl
  have hq2 : (E.filter (fun b => !(b.fd.name == "id"))).filter
      (fun b => !(b.fd.name == "name"))
      = E.filter (fun b => !(b.fd.name == "id") && !(b.fd.name == "name")) := by
    rw [List.filter_filter]
    apply List.filter_congr
    intro b hb
    exact Bool.and_comm _ _
  rw [hq1, hq2]

/-- Splitting a block list by a predicate permutes its flattened bindings. -/
theorem blocksOf_filter_perm (p : EmitBlock → Bool) (L : List EmitBlock) :
    (blocksOf (L.filter p) ++ blocksOf (L.filter (fun b => !(p b)))).Perm
      (blocksOf L) := by
  unfold blocksOf
  rw [← List.flatten_append, ← List.map_append]
  exact ((List.filter_append_perm p L).map blockPairs).flatten

/-- The corresponding permutation of keys. -/
theorem akeys_blocksOf_filter_perm (p : EmitBlock → Bool) (L : List EmitBlock) :
    (akeys (blocksOf (L.filter p))
      ++ akeys (blocksOf (L.filter (fun b => !(p b))))).Perm
      (akeys (blocksOf L)) := by
  rw [← akeys_append]
  unfold akeys
  exact (blocksOf_filter_perm p L).map (fun q => q.1)

/-- Phase C, outer loop: over any type list, the moved blocks are
`orderBlocks` and the residue is the blocks of the remaining types, provided
keys are distinct, blocks well-formed, and the already-ordered output fresh. -/
theorem orderLoop_blocks (m : Model) (ts : List FType) :
    ∀ (L : List EmitBlock) (O : List (String × PyVal)),
    (akeys (blocksOf L)).Nodup →
    (∀ b ∈ L, blockWF m b) →
    (∀ k ∈ akeys (blocksOf L), ¬(k ∈ akeys O)) →
    orderLoop m ts (O, blocksOf L)
      = (O ++ blocksOf (orderBlocks ts L),
         blocksOf (L.filter (fun b => !(decide (b.fd.ftype ∈ ts))))) := by
  induction ts with
  | nil =>
      intro L O hnd hwf hOf
      unfold orderLoop orderBlocks
      simp [blocksOf]
  | cons t ts ih =>
      intro L O hnd hwf hOf
      unfold orderLoop
      have hmv := moveKeys_blocks m t L [] O hnd hwf hOf
      simp only [List.nil_append] at hmv
      rw [hmv]
      have hsubB : (L.filter (fun b => !(decide (b.fd.ftype = t)))).Sublist L :=
        List.filter_sublist L
      have hnd2 : (akeys (blocksOf (L.filter
          (fun b => !(decide (b.fd.ftype = t)))))).Nodup :=
        List.Nodup.sublist (List.Sublist.map _ (blocksOf_sublist _ _ hsubB)) hnd
      have hwf2 : ∀ b ∈ L.filter (fun b => !(decide (b.fd.ftype = t))), blockWF m b :=
        fun b hb => hwf b (List.mem_of_mem_filter hb)
      have hdisj := List.nodup_append.mp
        (((akeys_blocksOf_filter_perm (fun b => decide (b.fd.ftype = t)) L).nodup_iff).mpr hnd)
      have hOf2 : ∀ k ∈ akeys (blocksOf (L.filter
          (fun b => !(decide (b.fd.ftype = t))))),
          ¬(k ∈ akeys (O ++ blocksOf (L.filter (fun b => decide (b.fd.ftype = t))))) := by
        intro k hk
        rw [akeys_append]
        intro hc
        have hkL : k ∈ akeys (blocksOf L) := by
          have hsub := List.Sublist.map (fun q : String × PyVal => q.1)
            (blocksOf_sublist _ _ hsubB)
          exact hsub.mem hk
        rcases List.mem_append.mp hc with h1 | h2
        · exact hOf k hkL h1
        · exact hdisj.2.2 h2 hk
      rw [ih (L.filter (fun b => !(decide (b.fd.ftype = t))))
        (O ++ blocksOf (L.filter (fun b => decide (b.fd.ftype = t)))) hnd2 hwf2 hOf2]
      rw [show orderBlocks (t :: ts) L
          = L.filter (fun b => decide (b.fd.ftype = t))
            ++ orderBlocks ts (L.filter (fun b => !(decide (b.fd.ftype = t)))) from rfl]
      rw [blocksOf_append]
      have hff : (L.filter (fun b => !(decide (b.fd.ftype = t)))).filter
          (fun b => !(decide (b.fd.ftype ∈ ts)))
          = L.filter (fun b => !(decide (b.fd.ftype ∈ t :: ts))) := by
        rw [List.filter_filter]
        apply List.filter_congr
        intro b hb
        by_cases h1 : b.fd.ftype = t <;> by_cases h2 : b.fd.ftype ∈ ts <;>
          simp [h1, h2]
      rw [hff]
      simp

/-- Pointwise-equal functions give the same flatMap. -/
theorem list_flatMap_congr {α β : Type} (l : List α) (f g : α → List β)
    (h : ∀ a ∈ l, f a = g a) : l.flatMap f = l.flatMap g := by
  induction l with
  | nil => rfl
  | cons a l ih =>
      rw [List.flatMap_cons, List.flatMap_cons, h a (by simp),
        ih (fun a2 ha2 => h a2 (List.mem_cons_of_mem _ ha2))]

/-- The to-many types both sit in `FIELD_ORDER`: a type outside it is not
to-many. -/
theorem not_x2m_of_not_mem_order (t : FType) (h : ¬(t ∈ FIELD_ORDER)) :
    t.isX2Many = false := by
  cases t <;> first
    | rfl
    | exact absurd (by decide) h

/-- Keys of a well-formed block list, written per block: the name, followed by
the count key exactly for to-many fields. -/
theorem akeys_blocksOf_x2m_flat (m : Model) (E : List EmitBlock)
    (hwf : ∀ b ∈ E, blockWF m b) :
    akeys (blocksOf E)
      = E.flatMap (fun b =>
          if b.fd.ftype.isX2Many then [b.fd.name, b.fd.name ++ "_count"]
          else [b.fd.name]) := by
  induction E with
  | nil => simp [blocksOf, akeys]
  | cons b E ih =>
      rw [blocksOf_cons, akeys_append, akeys_blockPairs, List.flatMap_cons]
      rw [ih (fun b2 hb2 => hwf b2 (List.mem_cons_of_mem _ hb2))]
      have hwfb := hwf b (by simp)
      rcases hc : b.cnt with _ | c
      · have hx : b.fd.ftype.isX2Many = false := by
          have hs := hwfb.2.1
          rw [hc] at hs
          simpa using hs.symm
        rw [hx]
        simp
      · have hx : b.fd.ftype.isX2Many = true := by
          have hs := hwfb.2.1
          rw [hc] at hs
          simpa using hs.symm
        rw [hx]
        simp

/-- Filtering a duplicate-free list by equality with one value yields that
value as a singleton exactly when it occurs. -/
theorem filter_beq_nodup (l : List String) (a : String) (hnd : l.Nodup) :
    l.filter (fun k => k == a) = if a ∈ l then [a] else [] := by
  induction l with
  | nil => simp
  | cons x l ih =>
      rw [List.nodup_cons] at hnd
      rw [List.filter_cons]
      by_cases hx : x = a
      · subst hx
        rw [if_pos (by simp)]
        have hrest : l.filter (fun k => k == x) = [] := by
          rw [List.filter_eq_nil_iff]
          intro b hb hc
          apply hnd.1
          have hbx : b = x := by simpa using hc
          rw [← hbx]
          exact hb
        rw [hrest, if_pos (by simp)]
      · rw [if_neg (by simp [hx])]
        rw [ih hnd.2]
        by_cases ha : a ∈ l
        · rw [if_pos ha, if_pos (List.mem_cons_of_mem _ ha)]
        · rw [if_neg ha, if_neg (by
            intro hc
            rcases List.mem_cons.mp hc with h1 | h2
            · exact hx h1.symm
            · exact ha h2)]

/-- The reordering pass permutes the blocks: moved blocks plus the residue of
the remaining types recombine to the original list. -/
theorem orderBlocks_residue_perm (ts : List FType) (L : List EmitBlock) :
    (orderBlocks ts L
      ++ L.filter (fun b => !(decide (b.fd.ftype ∈ ts)))).Perm L := by
  induction ts generalizing L with
  | nil =>
      rw [show orderBlocks [] L = [] from rfl]
      rw [List.filter_eq_self.mpr (fun b hb => by simp)]
      simp
  | cons t ts ih =>
      rw [show orderBlocks (t :: ts) L
          = L.filter (fun b => decide (b.fd.ftype = t))
            ++ orderBlocks ts (L.filter (fun b => !(decide (b.fd.ftype = t)))) from rfl]
      have hres : L.filter (fun b => !(decide (b.fd.ftype ∈ t :: ts)))
          = (L.filter (fun b => !(decide (b.fd.ftype = t)))).filter
              (fun b => !(decide (b.fd.ftype ∈ ts))) := by
        rw [List.filter_filter]
        apply List.filter_congr
        intro b hb
        by_cases h1 : b.fd.ftype = t <;> by_cases h2 : b.fd.ftype ∈ ts <;>
          simp [h1, h2]
      rw [hres, List.append_assoc]
      exact ((ih (L.filter (fun b => !(decide (b.fd.ftype = t))))).append_left
        (L.filter (fun b => decide (b.fd.ftype = t)))).trans
        (List.filter_append_perm _ L)

/-- flatMap of singletons is map. -/
theorem list_flatMap_single {α β : Type} (l : List α) (f : α → β) :
    l.flatMap (fun a => [f a]) = l.map f := by
  induction l with
  | nil => rfl
  | cons a l ih =>
      rw [List.flatMap_cons, List.map_cons, ih]
      rfl

/-- A name-level filter of blocks projects to the filter of the names. -/
theorem map_name_filter (E : List EmitBlock) (q : String → Bool) :
    (E.filter (fun b => q b.fd.name)).map (fun b => b.fd.name)
      = (E.map (fun b => b.fd.name)).filter q := by
  rw [List.filter_map]
  rfl

/-- The moved blocks decompose per type when the type list has no repeats. -/
theorem blocksOf_orderBlocks_flat (ts : List FType) (hnd : ts.Nodup)
    (L : List EmitBlock) :
    blocksOf (orderBlocks ts L)
      = (ts.map (fun t =>
          blocksOf (L.filter (fun b => decide (b.fd.ftype = t))))).flatten := by
  induction ts generalizing L with
  | nil => simp [orderBlocks, blocksOf]
  | cons t ts ih =>
      rw [List.nodup_cons] at hnd
      rw [show orderBlocks (t :: ts) L
          = L.filter (fun b => decide (b.fd.ftype = t))
            ++ orderBlocks ts (L.filter (fun b => !(decide (b.fd.ftype = t)))) from rfl]
      rw [blocksOf_append, List.map_cons, List.flatten_cons]
      congr 1
      rw [ih hnd.2]
      congr 1
      apply List.map_congr_left
      intro t2 ht2
      congr 1
      rw [List.filter_filter]
      apply List.filter_congr
      intro b hb
      by_cases h2 : b.fd.ftype = t2
      · have hne : ¬(t2 = t) := fun hc => hnd.1 (hc ▸ ht2)
        simp [h2, hne]
      · simp [h2]

/-- Keys of a one-type block group, written over the names. -/
theorem akeys_group_eq (m : Model) (t : FType) (G : List EmitBlock)
    (hwf : ∀ b ∈ G, blockWF m b)
    (hft : ∀ b ∈ G, b.fd.ftype = t) :
    akeys (blocksOf G)
      = (G.map (fun b => b.fd.name)).flatMap
          (fun k => if t.isX2Many then [k, k ++ "_count"] else [k]) := by
  rw [akeys_blocksOf_x2m_flat m G hwf, List.flatMap_map]
  apply list_flatMap_congr
  intro b hb
  rw [hft b hb]

/-- The type-`t` group of the ordered output spells the spec's typed group. -/
theorem specTypedGroup_eq (m : Model) (t : FType) (E : List EmitBlock)
    (hwf : ∀ b ∈ E, blockWF m b) :
    akeys (blocksOf ((E.filter (fun b =>
        !(b.fd.name == "id") && !(b.fd.name == "name"))).filter
          (fun b => decide (b.fd.ftype = t))))
      = specTypedGroup m (E.map (fun b => b.fd.name)) t := by
  have hwfG : ∀ b ∈ (E.filter (fun b =>
      !(b.fd.name == "id") && !(b.fd.name == "name"))).filter
        (fun b => decide (b.fd.ftype = t)), blockWF m b :=
    fun b hb => hwf b (List.mem_of_mem_filter (List.mem_of_mem_filter hb))
  have hftG : ∀ b ∈ (E.filter (fun b =>
      !(b.fd.name == "id") && !(b.fd.name == "name"))).filter
        (fun b => decide (b.fd.ftype = t)), b.fd.ftype = t := by
    intro b hb
    have hp := (List.mem_filter.mp hb).2
    simpa using hp
  rw [akeys_group_eq m t _ hwfG hftG]
  unfold specTypedGroup
  congr 1
  rw [List.filter_filter]
  have hpred : E.filter (fun b => decide (b.fd.ftype = t)
        && (!(b.fd.name == "id") && !(b.fd.name == "name")))
      = E.filter (fun b => (fun k => !(k == "id") && !(k == "name")
          && decide ((m.fieldGet k).map (fun f => f.ftype) = some t)) b.fd.name) := by
    apply List.filter_congr
    intro b hb
    have hfg := (hwf b hb).1
    simp only
    rw [hfg]
    by_cases h1 : b.fd.ftype = t <;> by_cases h2 : b.fd.name = "id" <;>
      by_cases h3 : b.fd.name = "name" <;> simp [h1, h2, h3]
  rw [hpred, map_name_filter E (fun k => !(k == "id") && !(k == "name")
    && decide ((m.fieldGet k).map (fun f => f.ftype) = some t))]

/-- The residual keys after the typed pass spell the spec's leftover list. -/
theorem leftover_keys_eq (m : Model) (E : List EmitBlock)
    (hwf : ∀ b ∈ E, blockWF m b) :
    akeys (blocksOf ((E.filter (fun b =>
        !(b.fd.name == "id") && !(b.fd.name == "name"))).filter
          (fun b => !(decide (b.fd.ftype ∈ FIELD_ORDER)))))
      = (E.map (fun b => b.fd.name)).filter (fun k =>
          !(k == "id") && !(k == "name")
          && (match m.fieldGet k with
              | some f => !(decide (f.ftype ∈ FIELD_ORDER))
              | Option.none => false)) := by
  have hwfG : ∀ b ∈ (E.filter (fun b =>
      !(b.fd.name == "id") && !(b.fd.name == "name"))).filter
        (fun b => !(decide (b.fd.ftype ∈ FIELD_ORDER))), blockWF m b :=
    fun b hb => hwf b (List.mem_of_mem_filter (List.mem_of_mem_filter hb))
  rw [akeys_blocksOf_x2m_flat m _ hwfG]
  have hsing : ((E.filter (fun b =>
      !(b.fd.name == "id") && !(b.fd.name == "name"))).filter
        (fun b => !(decide (b.fd.ftype ∈ FIELD_ORDER)))).flatMap
          (fun b => if b.fd.ftype.isX2Many
            then [b.fd.name, b.fd.name ++ "_count"] else [b.fd.name])
      = ((E.filter (fun b =>
          !(b.fd.name == "id") && !(b.fd.name == "name"))).filter
            (fun b => !(decide (b.fd.ftype ∈ FIELD_ORDER)))).flatMap
          (fun b => [b.fd.name]) := by
    apply list_flatMap_congr
    intro b hb
    have hno : ¬(b.fd.ftype ∈ FIELD_ORDER) := by
      have hp := (List.mem_filter.mp hb).2
      simpa using hp
    rw [not_x2m_of_not_mem_order _ hno]
    rfl
  rw [hsing, list_flatMap_single, List.filter_filter]
  have hpred : E.filter (fun b => !(decide (b.fd.ftype ∈ FIELD_ORDER))
        && (!(b.fd.name == "id") && !(b.fd.name == "name")))
      = E.filter (fun b => (fun k => !(k == "id") && !(k == "name")
          && (match m.fieldGet k with
              | some f => !(decide (f.ftype ∈ FIELD_ORDER))
              | Option.none => false)) b.fd.name) := by
    apply List.filter_congr
    intro b hb
    have hfg := (hwf b hb).1
    simp only
    rw [hfg]
    by_cases h1 : b.fd.ftype ∈ FIELD_ORDER <;> by_cases h2 : b.fd.name = "id" <;>
      by_cases h3 : b.fd.name = "name" <;> simp [h1, h2, h3]
  rw [hpred, map_name_filter E (fun k => !(k == "id") && !(k == "name")
    && (match m.fieldGet k with
        | some f => !(decide (f.ftype ∈ FIELD_ORDER))
        | Option.none => false))]

/-- Keys of the blocks of one pinned name: the singleton when emitted. -/
theorem front_keys_eq (E : List EmitBlock) (k : String)
    (hcnone : ∀ b ∈ E, b.fd.name = k → b.cnt = Option.none)
    (hndn : (E.map (fun b => b.fd.name)).Nodup) :
    akeys (blocksOf (E.filter (fun b => b.fd.name == k)))
      = if k ∈ E.map (fun b => b.fd.name) then [k] else [] := by
  rw [akeys_blocksOf_flat]
  have hsing : (E.filter (fun b => b.fd.name == k)).flatMap
        (fun b => akeys (blockPairs b))
      = (E.filter (fun b => b.fd.name == k)).flatMap (fun b => [b.fd.name]) := by
    apply list_flatMap_congr
    intro b hb
    have hbk : b.fd.name = k := by
      have hp := (List.mem_filter.mp hb).2
      simpa using hp
    rw [akeys_blockPairs, hcnone b (List.mem_of_mem_filter hb) hbk]
  rw [hsing, list_flatMap_single, map_name_filter E (fun k2 => k2 == k)]
  rw [filter_beq_nodup _ k hndn]

/-- Permuting blocks permutes their flattened bindings. -/
theorem blocksOf_perm (L1 L2 : List EmitBlock) (h : L1.Perm L2) :
    (blocksOf L1).Perm (blocksOf L2) := by
  unfold blocksOf
  exact (h.map blockPairs).flatten

/-- Permuting an association list permutes its keys. -/
theorem akeys_perm {α : Type} (d1 d2 : List (String × α)) (h : d1.Perm d2) :
    (akeys d1).Perm (akeys d2) := by
  unfold akeys
  exact h.map (fun p => p.1)

/-- Every moved block comes from the input list. -/
theorem mem_orderBlocks (ts : List FType) (L : List EmitBlock) (b : EmitBlock)
    (hb : b ∈ orderBlocks ts L) : b ∈ L := by
  induction ts generalizing L with
  | nil => simp [orderBlocks] at hb
  | cons t ts ih =>
      rw [show orderBlocks (t :: ts) L
          = L.filter (fun b => decide (b.fd.ftype = t))
            ++ orderBlocks ts (L.filter (fun b => !(decide (b.fd.ftype = t)))) from rfl]
        at hb
      rcases List.mem_append.mp hb with h1 | h2
      · exact List.mem_of_mem_filter h1
      · exact List.mem_of_mem_filter (ih _ h2)

/-- The id/name/rest three-way split permutes back to the whole list. -/
theorem idname_split_perm (E : List EmitBlock) :
    (E.filter (fun b => b.fd.name == "id")
      ++ (E.filter (fun b => b.fd.name == "name")
        ++ E.filter (fun b =>
            !(b.fd.name == "id") && !(b.fd.name == "name")))).Perm E := by
  have hq1 : (E.filter (fun b => !(b.fd.name == "id"))).filter
      (fun b => b.fd.name == "name") = E.filter (fun b => b.fd.name == "name") := by
    rw [List.filter_filter]
    apply List.filter_congr
    intro b hb
    by_cases hbn : b.fd.name = "name"
    · have h1 : (b.fd.name == "name") = true := by simp [hbn]
      have h2 : (b.fd.name == "id") = false := by
        rw [hbn]
        decide
      rw [h1, h2]
      rfl
    · have h1 : (b.fd.name == "name") = false := by simp [hbn]
      rw [h1]
      rfl
  have hq2 : (E.filter (fun b => !(b.fd.name == "id"))).filter
      (fun b => !(b.fd.name == "name"))
      = E.filter (fun b => !(b.fd.name == "id") && !(b.fd.name == "name")) := by
    rw [List.filter_filter]
    apply List.filter_congr
    intro b hb
    exact Bool.and_comm _ _
  have hp1 : (E.filter (fun b => b.fd.name == "name")
      ++ E.filter (fun b =>
          !(b.fd.name == "id") && !(b.fd.name == "name"))).Perm
        (E.filter (fun b => !(b.fd.name == "id"))) := by
    rw [← hq1, ← hq2]
    exact List.filter_append_perm _ _
  exact (hp1.append_left _).trans (List.filter_append_perm _ E)

/-- C7 counterexample: with the caller-supplied filter `["state_b", "state_a"]`
against registry order `[state_a, state_b]` (both of leftover type
`selection`), the projected keys are `[name, state_b, state_a]` — leftover
fields follow FILTER order, not the claimed registry order. -/
theorem leftover_keys_follow_filter_order :
    pyDictKeys (to_dict_one fixLoEnv fixLoModel fixLoEnt (some ["state_b", "state_a"])
        true true []).1
      = ["name", "state_b", "state_a"]
    ∧ fixLoModel.fields.map (fun f => f.name) = ["state_a", "state_b"]
    ∧ ¬((["name", "state_b", "state_a"] : List String)
        = ["name", "state_a", "state_b"]) :=
  ⟨rfl, rfl, by decide⟩

/-- C7 (amended): with a duplicate-free emitted-name list, no registered
`_count`-suffixed field names, and non-to-many `id`/`name` fields, the keys of
a projected record are exactly the spec's deterministic order: `id` and
`name` first (when emitted), the `FIELD_ORDER` type groups (each to-many name
followed by its count key), the display-name `name` key when not emitted as a
field, then the leftover emitted fields in emission order — the order of the
caller's filter when one is supplied, registry order otherwise. -/
theorem to_dict_key_order (env : Env) (m : Model) (e : Entity)
    (lof : Option (List String)) (r sc : Bool)
    (hnde : (emittedNames m sc (targetNames m lof)).Nodup)
    (hck : ∀ f ∈ m.fields, m.fieldHas (f.name ++ "_count") = false)
    (hidx : ∀ f ∈ m.fields, f.name = "id" → f.ftype.isX2Many = false)
    (hnmx : ∀ f ∈ m.fields, f.name = "name" → f.ftype.isX2Many = false) :
    pyDictKeys (to_dict_one env m e lof r sc []).1
      = specKeyOrder m (emittedNames m sc (targetNames m lof)) := by
  have hmap : (emitBlocks env m e r sc (targetNames m lof)).map (fun b => b.fd.name)
      = emittedNames m sc (targetNames m lof) :=
    emitBlocks_map_name env m e r sc (targetNames m lof)
  have hwfE : ∀ b ∈ emitBlocks env m e r sc (targetNames m lof), blockWF m b :=
    emitBlocks_wf env m e r sc (targetNames m lof) hck
  have hndn : ((emitBlocks env m e r sc (targetNames m lof)).map
      (fun b => b.fd.name)).Nodup := by
    rw [hmap]
    exact hnde
  have hndk : (akeys (blocksOf (emitBlocks env m e r sc (targetNames m lof)))).Nodup :=
    akeys_blocksOf_nodup m _ hwfE hndn
  have hidc : ∀ b ∈ emitBlocks env m e r sc (targetNames m lof),
      b.fd.name = "id" → b.cnt = Option.none := by
    intro b hb hbk
    have hwfb := hwfE b hb
    have hmem := (fieldGet_mem m b.fd.name b.fd hwfb.1).1
    have hx := hidx b.fd hmem hbk
    have hs := hwfb.2.1
    rw [hx] at hs
    exact Option.not_isSome_iff_eq_none.mp (by simp [hs])
  have hnmc : ∀ b ∈ emitBlocks env m e r sc (targetNames m lof),
      b.fd.name = "name" → b.cnt = Option.none := by
    intro b hb hbk
    have hwfb := hwfE b hb
    have hmem := (fieldGet_mem m b.fd.name b.fd hwfb.1).1
    have hx := hnmx b.fd hmem hbk
    have hs := hwfb.2.1
    rw [hx] at hs
    exact Option.not_isSome_iff_eq_none.mp (by simp [hs])
  set E := emitBlocks env m e r sc (targetNames m lof) with hEdef
  set men := emittedNames m sc (targetNames m lof) with hmen
  have hemit : emitLoop env m e r sc (targetNames m lof) [] = blocksOf E := by
    have h0 := emitLoop_blocks env m e r sc (targetNames m lof) []
      (by simpa [akeys] using hndk)
    simpa using h0
  have hpop := popIdName_blocks m E hwfE hndn hidc hnmc
  have hwfR : ∀ b ∈ E.filter (fun b =>
      !(b.fd.name == "id") && !(b.fd.name == "name")), blockWF m b :=
    fun b hb => hwfE b (List.mem_of_mem_filter hb)
  have hndR : (akeys (blocksOf (E.filter (fun b =>
      !(b.fd.name == "id") && !(b.fd.name == "name"))))).Nodup :=
    List.Nodup.sublist
      (List.Sublist.map _ (blocksOf_sublist _ _ (List.filter_sublist E))) hndk
  have hfid := front_keys_eq E "id" hidc hndn
  have hfnm := front_keys_eq E "name" hnmc hndn
  have hOsub : ∀ k, k ∈ akeys (blocksOf (E.filter (fun b => b.fd.name == "id"))
      ++ blocksOf (E.filter (fun b => b.fd.name == "name")))
      → k = "id" ∨ k = "name" := by
    intro k hk
    rw [akeys_append, hfid, hfnm] at hk
    rcases List.mem_append.mp hk with h1 | h2
    · left
      by_cases hc : "id" ∈ E.map (fun b => b.fd.name)
      · rw [if_pos hc] at h1
        simpa using h1
      · rw [if_neg hc] at h1
        simp at h1
    · right
      by_cases hc : "name" ∈ E.map (fun b => b.fd.name)
      · rw [if_pos hc] at h2
        simpa using h2
      · rw [if_neg hc] at h2
        simp at h2
  have hRkey : ∀ k ∈ akeys (blocksOf (E.filter (fun b =>
      !(b.fd.name == "id") && !(b.fd.name == "name")))),
      ¬(k = "id" ∨ k = "name") := by
    intro k hk hor
    rcases mem_akeys_blocksOf _ _ hk with ⟨b, hb, hab⟩
    have hfpred := (List.mem_filter.mp hb).2
    simp only [Bool.and_eq_true, Bool.not_eq_true', beq_eq_false_iff_ne] at hfpred
    rcases hab with hname | hcnt
    · rcases hor with h | h
      · exact hfpred.1 (by rw [← hname, h])
      · exact hfpred.2 (by rw [← hname, h])
    · rcases hor with h | h
      · exact count_key_ne b.fd.name "id" (by decide) (by rw [← hcnt, h])
      · exact count_key_ne b.fd.name "name" (by decide) (by rw [← hcnt, h])
  have hOf0 : ∀ k ∈ akeys (blocksOf (E.filter (fun b =>
      !(b.fd.name == "id") && !(b.fd.name == "name")))),
      ¬(k ∈ akeys (blocksOf (E.filter (fun b => b.fd.name == "id"))
        ++ blocksOf (E.filter (fun b => b.fd.name == "name")))) :=
    fun k hk hc => hRkey k hk (hOsub k hc)
  have hord := orderLoop_blocks m FIELD_ORDER
    (E.filter (fun b => !(b.fd.name == "id") && !(b.fd.name == "name")))
    (blocksOf (E.filter (fun b => b.fd.name == "id"))
      ++ blocksOf (E.filter (fun b => b.fd.name == "name"))) hndR hwfR hOf0
  have hstart : pyDictKeys (to_dict_one env m e lof r sc []).1
      = akeys (aupdate
          (aset (orderLoop m FIELD_ORDER
            (popIdName ([], emitLoop env m e r sc (targetNames m lof) []))).1
            "name" (.str e.displayName))
          (orderLoop m FIELD_ORDER
            (popIdName ([], emitLoop env m e r sc (targetNames m lof) []))).2) := rfl
  rw [hstart, hemit, hpop, hord]
  dsimp only
  -- key lists of the three zones
  have hgroups : akeys (blocksOf (orderBlocks FIELD_ORDER
      (E.filter (fun b => !(b.fd.name == "id") && !(b.fd.name == "name")))))
      = (FIELD_ORDER.map (fun t => specTypedGroup m men t)).flatten := by
    rw [blocksOf_orderBlocks_flat FIELD_ORDER (by decide)]
    unfold akeys
    rw [List.map_flatten, List.map_map]
    apply congrArg List.flatten
    apply List.map_congr_left
    intro t ht
    have hgg := specTypedGroup_eq m t E hwfE
    rw [hmap] at hgg
    exact hgg
  have hleft : akeys (blocksOf ((E.filter (fun b =>
      !(b.fd.name == "id") && !(b.fd.name == "name"))).filter
        (fun b => !(decide (b.fd.ftype ∈ FIELD_ORDER)))))
      = men.filter (fun k => !(k == "id") && !(k == "name")
          && (match m.fieldGet k with
              | some f => !(decide (f.ftype ∈ FIELD_ORDER))
              | Option.none => false)) := by
    have hll := leftover_keys_eq m E hwfE
    rw [hmap] at hll
    exact hll
  have hfrontK : akeys (blocksOf (E.filter (fun b => b.fd.name == "id"))
      ++ blocksOf (E.filter (fun b => b.fd.name == "name")))
      = (if "id" ∈ men then ["id"] else [])
        ++ (if "name" ∈ men then ["name"] else []) := by
    rw [akeys_append, hfid, hfnm, hmap]
  -- global key distinctness
  have hbigperm : ((E.filter (fun b => b.fd.name == "id")
      ++ E.filter (fun b => b.fd.name == "name"))
      ++ (orderBlocks FIELD_ORDER (E.filter (fun b =>
          !(b.fd.name == "id") && !(b.fd.name == "name")))
        ++ (E.filter (fun b =>
            !(b.fd.name == "id") && !(b.fd.name == "name"))).filter
              (fun b => !(decide (b.fd.ftype ∈ FIELD_ORDER))))).Perm E := by
    have h1 := orderBlocks_residue_perm FIELD_ORDER
      (E.filter (fun b => !(b.fd.name == "id") && !(b.fd.name == "name")))
    have h2 := idname_split_perm E
    refine ((h1.append_left _).trans ?_)
    rw [List.append_assoc]
    exact h2
  have hbignd : (akeys ((blocksOf (E.filter (fun b => b.fd.name == "id"))
      ++ blocksOf (E.filter (fun b => b.fd.name == "name")))
      ++ blocksOf (orderBlocks FIELD_ORDER (E.filter (fun b =>
          !(b.fd.name == "id") && !(b.fd.name == "name"))))
      ++ blocksOf ((E.filter (fun b =>
          !(b.fd.name == "id") && !(b.fd.name == "name"))).filter
            (fun b => !(decide (b.fd.ftype ∈ FIELD_ORDER)))))).Nodup := by
    have heq : (blocksOf (E.filter (fun b => b.fd.name == "id"))
        ++ blocksOf (E.filter (fun b => b.fd.name == "name")))
        ++ blocksOf (orderBlocks FIELD_ORDER (E.filter (fun b =>
            !(b.fd.name == "id") && !(b.fd.name == "name"))))
        ++ blocksOf ((E.filter (fun b =>
            !(b.fd.name == "id") && !(b.fd.name == "name"))).filter
              (fun b => !(decide (b.fd.ftype ∈ FIELD_ORDER))))
        = blocksOf ((E.filter (fun b => b.fd.name == "id")
            ++ E.filter (fun b => b.fd.name == "name"))
          ++ (orderBlocks FIELD_ORDER (E.filter (fun b =>
              !(b.fd.name == "id") && !(b.fd.name == "name")))
            ++ (E.filter (fun b =>
                !(b.fd.name == "id") && !(b.fd.name == "name"))).filter
                  (fun b => !(decide (b.fd.ftype ∈ FIELD_ORDER))))) := by
      rw [blocksOf_append, blocksOf_append, blocksOf_append]
      simp [List.append_assoc]
    rw [heq]
    exact ((akeys_perm _ _ (blocksOf_perm _ _ hbigperm)).nodup_iff).mpr hndk
  have hbignd2 : (akeys ((blocksOf (E.filter (fun b => b.fd.name == "id"))
      ++ blocksOf (E.filter (fun b => b.fd.name == "name")))
      ++ blocksOf (orderBlocks FIELD_ORDER (E.filter (fun b =>
          !(b.fd.name == "id") && !(b.fd.name == "name")))))
      ++ akeys (blocksOf ((E.filter (fun b =>
          !(b.fd.name == "id") && !(b.fd.name == "name"))).filter
            (fun b => !(decide (b.fd.ftype ∈ FIELD_ORDER)))))).Nodup := by
    simpa only [akeys_append, List.append_assoc] using hbignd
  by_cases hnm : "name" ∈ men
  · -- `name` is emitted: the overwrite hits an existing key
    have hmemname : "name" ∈ akeys ((blocksOf (E.filter (fun b => b.fd.name == "id"))
        ++ blocksOf (E.filter (fun b => b.fd.name == "name")))
        ++ blocksOf (orderBlocks FIELD_ORDER (E.filter (fun b =>
            !(b.fd.name == "id") && !(b.fd.name == "name"))))) := by
      rw [akeys_append]
      apply List.mem_append.mpr
      left
      rw [hfrontK]
      apply List.mem_append.mpr
      right
      rw [if_pos hnm]
      simp
    have hhas : ahas ((blocksOf (E.filter (fun b => b.fd.name == "id"))
        ++ blocksOf (E.filter (fun b => b.fd.name == "name")))
        ++ blocksOf (orderBlocks FIELD_ORDER (E.filter (fun b =>
            !(b.fd.name == "id") && !(b.fd.name == "name"))))) "name" = true :=
      (ahas_iff_mem _ _).mpr hmemname
    have hsetk : akeys (aset ((blocksOf (E.filter (fun b => b.fd.name == "id"))
        ++ blocksOf (E.filter (fun b => b.fd.name == "name")))
        ++ blocksOf (orderBlocks FIELD_ORDER (E.filter (fun b =>
            !(b.fd.name == "id") && !(b.fd.name == "name")))))
          "name" (.str e.displayName))
        = akeys ((blocksOf (E.filter (fun b => b.fd.name == "id"))
        ++ blocksOf (E.filter (fun b => b.fd.name == "name")))
        ++ blocksOf (orderBlocks FIELD_ORDER (E.filter (fun b =>
            !(b.fd.name == "id") && !(b.fd.name == "name"))))) := by
      rw [akeys_aset, if_pos hhas]
    have hupd := aupdate_fresh
      (aset ((blocksOf (E.filter (fun b => b.fd.name == "id"))
        ++ blocksOf (E.filter (fun b => b.fd.name == "name")))
        ++ blocksOf (orderBlocks FIELD_ORDER (E.filter (fun b =>
            !(b.fd.name == "id") && !(b.fd.name == "name")))))
          "name" (.str e.displayName))
      (blocksOf ((E.filter (fun b =>
          !(b.fd.name == "id") && !(b.fd.name == "name"))).filter
            (fun b => !(decide (b.fd.ftype ∈ FIELD_ORDER)))))
      (by
        rw [hsetk]
        exact hbignd2)
    rw [hupd, akeys_append, hsetk]
    rw [akeys_append, hfrontK, hgroups, hleft]
    unfold specKeyOrder
    have hfront2 : (["id", "name"] : List String).filter (fun k => men.contains k)
        = (if "id" ∈ men then ["id"] else [])
          ++ (if "name" ∈ men then ["name"] else []) := by
      by_cases h1 : "id" ∈ men <;>
        simp [List.filter_cons, h1, hnm, List.elem_iff]
    rw [hfront2, if_pos (List.elem_iff.mpr hnm)]
    simp [List.append_assoc]
  · -- `name` is not emitted: the overwrite appends the key
    have hnomem : ¬("name" ∈ akeys ((blocksOf (E.filter (fun b => b.fd.name == "id"))
        ++ blocksOf (E.filter (fun b => b.fd.name == "name")))
        ++ blocksOf (orderBlocks FIELD_ORDER (E.filter (fun b =>
            !(b.fd.name == "id") && !(b.fd.name == "name")))))) := by
      rw [akeys_append]
      intro hc
      rcases List.mem_append.mp hc with h1 | h2
      · rw [hfrontK] at h1
        rcases List.mem_append.mp h1 with h3 | h4
        · by_cases hcc : "id" ∈ men
          · rw [if_pos hcc] at h3
            have hq : "name" = "id" := by simpa using h3
            exact absurd hq (by decide)
          · rw [if_neg hcc] at h3
            simp at h3
        · rw [if_neg hnm] at h4
          simp at h4
      · rcases mem_akeys_blocksOf _ _ h2 with ⟨b, hb, hab⟩
        have hbE := mem_orderBlocks _ _ _ hb
        have hfpred := (List.mem_filter.mp hbE).2
        simp only [Bool.and_eq_true, Bool.not_eq_true', beq_eq_false_iff_ne] at hfpred
        rcases hab with hname | hcnt
        · exact hfpred.2 hname.symm
        · exact count_key_ne b.fd.name "name" (by decide) hcnt.symm
    have hhas : ahas ((blocksOf (E.filter (fun b => b.fd.name == "id"))
        ++ blocksOf (E.filter (fun b => b.fd.name == "name")))
        ++ blocksOf (orderBlocks FIELD_ORDER (E.filter (fun b =>
            !(b.fd.name == "id") && !(b.fd.name == "name"))))) "name" = false := by
      rw [ahas_false_iff]
      exact hnomem
    have hsetk : akeys (aset ((blocksOf (E.filter (fun b => b.fd.name == "id"))
        ++ blocksOf (E.filter (fun b => b.fd.name == "name")))
        ++ blocksOf (orderBlocks FIELD_ORDER (E.filter (fun b =>
            !(b.fd.name == "id") && !(b.fd.name == "name")))))
          "name" (.str e.displayName))
        = akeys ((blocksOf (E.filter (fun b => b.fd.name == "id"))
        ++ blocksOf (E.filter (fun b => b.fd.name == "name")))
        ++ blocksOf (orderBlocks FIELD_ORDER (E.filter (fun b =>
            !(b.fd.name == "id") && !(b.fd.name == "name"))))) ++ ["name"] := by
      rw [akeys_aset, if_neg (by rw [hhas]; simp)]
    have hnoleft : ¬("name" ∈ akeys (blocksOf ((E.filter (fun b =>
        !(b.fd.name == "id") && !(b.fd.name == "name"))).filter
          (fun b => !(decide (b.fd.ftype ∈ FIELD_ORDER)))))) := by
      intro hc
      rcases mem_akeys_blocksOf _ _ hc with ⟨b, hb, hab⟩
      have hbE := List.mem_of_mem_filter hb
      have hfpred := (List.mem_filter.mp hbE).2
      simp only [Bool.and_eq_true, Bool.not_eq_true', beq_eq_false_iff_ne] at hfpred
      rcases hab with hname | hcnt
      · exact hfpred.2 hname.symm
      · exact count_key_ne b.fd.name "name" (by decide) hcnt.symm
    have hupd := aupdate_fresh
      (aset ((blocksOf (E.filter (fun b => b.fd.name == "id"))
        ++ blocksOf (E.filter (fun b => b.fd.name == "name")))
        ++ blocksOf (orderBlocks FIELD_ORDER (E.filter (fun b =>
            !(b.fd.name == "id") && !(b.fd.name == "name")))))
          "name" (.str e.displayName))
      (blocksOf ((E.filter (fun b =>
          !(b.fd.name == "id") && !(b.fd.name == "name"))).filter
            (fun b => !(decide (b.fd.ftype ∈ FIELD_ORDER)))))
      (by
        rw [hsetk, List.append_assoc, List.singleton_append]
        apply List.perm_middle.nodup_iff.mpr
        rw [List.nodup_cons]
        constructor
        · intro hc
          rcases List.mem_append.mp hc with h1 | h2
          · exact hnomem h1
          · exact hnoleft h2
        · exact hbignd2)
    rw [hupd, akeys_append, hsetk]
    rw [akeys_append, hfrontK, hgroups, hleft]
    unfold specKeyOrder
    have hfront2 : (["id", "name"] : List String).filter (fun k => men.contains k)
        = (if "id" ∈ men then ["id"] else [])
          ++ (if "name" ∈ men then ["name"] else []) := by
      by_cases h1 : "id" ∈ men <;>
        simp [List.filter_cons, h1, hnm, List.elem_iff]
    rw [hfront2]
    have hcnm : (men.contains "name") = false :=
      Bool.eq_false_iff.mpr (fun hc => hnm (List.elem_iff.mp hc))
    rw [hcnm]
    simp [hnm, List.append_assoc]

/-- Witness for the amended ordering theorem at a concrete model: two
selection fields, no field filter. -/
theorem to_dict_key_order_witness :
    (emittedNames fixLoModel true (targetNames fixLoModel Option.none)).Nodup
    ∧ pyDictKeys (to_dict_one fixLoEnv fixLoModel fixLoEnt Option.none true true []).1
        = specKeyOrder fixLoModel
            (emittedNames fixLoModel true (targetNames fixLoModel Option.none)) :=
  ⟨by decide,
   to_dict_key_order fixLoEnv fixLoModel fixLoEnt Option.none true true
     (by decide) (by decide) (by decide) (by decide)⟩

end OdooApi
